import Mathlib

/-!
Verification of the `btree-rewrite` B-tree map (src/node.rs, src/search.rs,
src/map.rs) against its natural-language specification.

The Rust code is a pointer-based B-tree with branching parameter `T = 6`:
each node stores parallel `keys`/`vals` arrays of length `len ≤ 2*T-1`, and
internal nodes store `len + 1` child edges.  Non-root nodes carry a raw
`parent` back-pointer plus a `parent_idx` edge index; the code re-establishes
these links after every split / root growth (`correct_parent_link`), so a
back-pointer always addresses the true parent at the stored edge index
(spec §3, invariant 5).

Shallow embedding choices:
* the parallel `keys`/`vals` arrays (always read and written at the same
  indices in the source) are modelled as a single list of pairs;
* the heap of nodes is modelled by the tree itself; a `parent`/`parent_idx`
  back-pointer chain is modelled by the path of `(parent node, edge index)`
  frames from a node up to the root, which is exactly the information the
  maintained back-pointers carry.  `ascend` pops a frame, `descend` pushes
  one.  A null back-pointer corresponds to the empty path;
* `unsafe`/unchecked slot accesses of the source are modelled with `List`
  index lookups (`l[i]?`); the out-of-range fallback branches are
  unreachable under the well-formedness invariants proved below.
-/

set_option linter.unusedVariables false
set_option linter.unnecessarySeqFocus false

namespace BTreeSpec

/-- An element produced by an index lookup is a member of the list. -/
theorem mem_of_idx {l : List α} {i : Nat} {a : α} (h : l[i]? = some a) :
    a ∈ l := by
  obtain ⟨hlt, rfl⟩ := List.getElem?_eq_some.1 h
  exact List.getElem_mem hlt

/-- Branching parameter: `const T: usize = 6` in node.rs. -/
def T : Nat := 6

/-- Node capacity `2 * T - 1` (`NodeRef::capacity` in node.rs). -/
def capacity : Nat := 2 * T - 1

/-- A tree node.  `leaf` models `LeafNode` (keys/vals up to `len`),
`internal` models `InternalNode` (a leaf plus `len + 1` edges). -/
inductive Node (K V : Type) where
  | leaf (kv : List (K × V))
  | internal (kv : List (K × V)) (edges : List (Node K V))

namespace Node

/-- The key/value pairs stored directly in a node (its `keys()`/`vals()`
slices, paired up). -/
def kvOf : Node K V → List (K × V)
  | .leaf kv => kv
  | .internal kv _ => kv

/-- The `keys()` slice of a node. -/
def keysOf (n : Node K V) : List K := n.kvOf.map Prod.fst

/-- The child edges of a node (empty for a leaf). -/
def edgesOf : Node K V → List (Node K V)
  | .leaf _ => []
  | .internal _ edges => edges

/-- `NodeRef::len`: the number of keys stored in the node. -/
def lenOf (n : Node K V) : Nat := n.kvOf.length

end Node

/-- In-order flattening of a tree: the sequence of key/value pairs an
in-order traversal visits.  For an internal node this interleaves the
subtree flattenings with the node's own pairs. -/
def inorder : Node K V → List (K × V)
  | .leaf kv => kv
  | .internal kv [] => kv
  | .internal [] (e :: _) => inorder e
  | .internal ((k, v) :: kvs) (e :: es) =>
      inorder e ++ (k, v) :: inorder (.internal kvs es)
termination_by n => sizeOf n
decreasing_by all_goals (simp <;> omega)

/-- The in-order tail of an internal node starting at its key `(k, v)` paired
with the edge list `es` that follows (edge `i+1` comes after key `i`). -/
def flatKV : List (K × V) → List (Node K V) → List (K × V)
  | [], _ => []
  | (k, v) :: kvs, [] => (k, v) :: flatKV kvs []
  | (k, v) :: kvs, e :: es => (k, v) :: (inorder e ++ flatKV kvs es)

/-! ## Search engine (search.rs) -/

/-- `search_linear` (search.rs lines 40-49): scan the node's keys left to
right, comparing `key.cmp(k)`: on `Greater` keep scanning, on `Equal` stop
with `(i, true)`, on `Less` stop with `(i, false)`; if the scan exhausts all
keys, return `(len, false)`. -/
def search_linear (cmp : K → K → Ordering) (q : K) : List K → Nat × Bool
  | [] => (0, false)
  | k :: ks =>
    match cmp q k with
    | .gt => let r := search_linear cmp q ks; (r.1 + 1, r.2)
    | .eq => (0, true)
    | .lt => (0, false)

/-- The payload of a `SearchResult` at a single node: `Found` carries a
key/value slot index, `GoDown` an edge index. -/
inductive SearchRes where
  | Found (idx : Nat)
  | GoDown (idx : Nat)
deriving DecidableEq

/-- `search_node` (search.rs lines 29-38): wrap the `search_linear` result
as `Found`/`GoDown` at the reported index. -/
def search_node (cmp : K → K → Ordering) (n : Node K V) (q : K) : SearchRes :=
  match search_linear cmp q n.keysOf with
  | (idx, true) => .Found idx
  | (idx, false) => .GoDown idx

/-- Result of `search_tree`: `Found` a key/value handle (node and slot index)
at some level, or `GoDown` a leaf edge handle (leaf node and edge index). -/
inductive TreeRes (K V : Type) where
  | Found (n : Node K V) (idx : Nat)
  | GoDown (n : Node K V) (idx : Nat)

/-- `search_tree` (search.rs lines 14-27): repeatedly `search_node`; on
`Found` at any level return immediately; on `GoDown` at an internal node
descend the reported edge and continue; on `GoDown` at a leaf return the
leaf edge handle.  (The `none` fallback models the unchecked
`edges[idx]` access; it is unreachable under well-formedness.) -/
def search_tree (cmp : K → K → Ordering) (q : K) : Node K V → TreeRes K V :=
  fun n =>
    match search_node cmp n q with
    | .Found idx => .Found n idx
    | .GoDown idx =>
      match n with
      | .leaf kv => .GoDown (.leaf kv) idx
      | .internal kv edges =>
        match h : edges[idx]? with
        | some c => search_tree cmp q c
        | none => .GoDown (.internal kv edges) idx
termination_by n => sizeOf n
decreasing_by
  have := List.sizeOf_lt_of_mem (mem_of_idx h)
  simp at *; omega

/-! ## Node-level insertion (node.rs) -/

/-- `Handle::split` on a leaf key/value handle (node.rs lines 602-634):
take out the pair at `idx`, keep `[0, idx)` in the node, and move
`(idx, len)` to a freshly allocated sibling; returns
`(left kv, promoted pair, right kv)`. -/
def leaf_split (kv : List (K × V)) (idx : Nat) :
    List (K × V) × Option (K × V) × List (K × V) :=
  (kv.take idx, kv[idx]?, kv.drop (idx + 1))

/-- `Handle::split` on an internal key/value handle (node.rs lines 647-692):
keys/values are split as for a leaf, and the edges from `idx + 1` on move to
the new sibling (the node keeps edges `[0, idx]`).  The back-pointers of all
moved children are re-pointed at the sibling (`correct_parent_link` loop);
in this embedding parent links are represented by paths, see `Z.ascend`. -/
def internal_split (kv : List (K × V)) (edges : List (Node K V)) (idx : Nat) :
    (List (K × V) × List (Node K V)) × Option (K × V) ×
      (List (K × V) × List (Node K V)) :=
  ((kv.take idx, edges.take (idx + 1)), kv[idx]?,
    (kv.drop (idx + 1), edges.drop (idx + 1)))

/-- Result of `Handle::insert` on a leaf edge: `Fit` with the updated pair
list, or `Split` into a left node, promoted pair and right node. -/
inductive LeafIns (K V : Type) where
  | Fit (kv : List (K × V))
  | Split (left : List (K × V)) (k : K) (v : V) (right : List (K × V))

/-- `Handle::insert` on a leaf edge handle (node.rs lines 490-510): if the
leaf has spare capacity, shift-insert the pair at `idx`; otherwise split at
the pair with index `T` and insert into the left half at `idx` when
`idx ≤ T`, or into the right half at `idx - T - 1` otherwise.
(The `none` fallback is unreachable: a full node has more than `T` keys.) -/
def leaf_insert (kv : List (K × V)) (idx : Nat) (k : K) (v : V) : LeafIns K V :=
  if kv.length < capacity then
    .Fit (kv.insertIdx idx (k, v))
  else
    match leaf_split kv T with
    | (lkv, some (pk, pv), rkv) =>
      if idx ≤ T then
        .Split (lkv.insertIdx idx (k, v)) pk pv rkv
      else
        .Split lkv pk pv (rkv.insertIdx (idx - T - 1) (k, v))
    | (_, none, _) => .Fit (kv.insertIdx idx (k, v))

/-- Result of `Handle::insert` on an internal edge: `Fit` with updated
keys/edges, or `Split` into left keys/edges, promoted pair, right
keys/edges. -/
inductive IntIns (K V : Type) where
  | Fit (kv : List (K × V)) (edges : List (Node K V))
  | Split (lkv : List (K × V)) (ledges : List (Node K V)) (k : K) (v : V)
      (rkv : List (K × V)) (redges : List (Node K V))

/-- `Handle::insert` on an internal edge handle (node.rs lines 537-560):
`insert_unchecked` shift-inserts the pair at `idx` and the new edge at
`idx + 1`; on overflow, split at index `T` (edges `[0, T]` stay, edges from
`T + 1` move right) and insert the pair/edge into the half the index falls
into. -/
def internal_insert (kv : List (K × V)) (edges : List (Node K V)) (idx : Nat)
    (k : K) (v : V) (newEdge : Node K V) : IntIns K V :=
  if kv.length < capacity then
    .Fit (kv.insertIdx idx (k, v)) (edges.insertIdx (idx + 1) newEdge)
  else
    match internal_split kv edges T with
    | ((lkv, ledges), some (pk, pv), (rkv, redges)) =>
      if idx ≤ T then
        .Split (lkv.insertIdx idx (k, v)) (ledges.insertIdx (idx + 1) newEdge)
          pk pv rkv redges
      else
        .Split lkv ledges pk pv
          (rkv.insertIdx (idx - T - 1) (k, v))
          (redges.insertIdx (idx - T) newEdge)
    | (_, none, _) =>
      .Fit (kv.insertIdx idx (k, v)) (edges.insertIdx (idx + 1) newEdge)

/-! ## Tree-level insertion

`BTreeMap::insert` (map.rs lines 233-241) runs `entry`, replaces the value
in place on `Occupied` (`OccupiedEntry::insert`, a `mem::replace` of the
value slot only), and on `Vacant` runs `VacantEntry::insert` (map.rs lines
535-572): insert at the leaf edge and, while the insert reports `Split`,
`ascend` to the parent and push the promoted pair / right sibling there.
The recursion below fuses the downward `search_tree` with the upward
split propagation: the recursion spine is the ascend path. -/

/-- Outcome of inserting into the subtree rooted at a node: the value slot
of an equal key was replaced (`replaced`, with the previous value), the new
pair fit (`fit`), or the node split (`split` left, promoted pair, right). -/
inductive InsRes (K V : Type) where
  | replaced (t : Node K V) (old : V)
  | fit (t : Node K V)
  | split (l : Node K V) (k : K) (v : V) (r : Node K V)

/-- Insertion into a subtree, following search.rs + map.rs + node.rs:
search the node; on an equal key replace the value slot in place (keeping
the stored key); otherwise insert at the edge — directly for a leaf, or by
descending for an internal node and, if the child splits, pushing the
promoted pair and new sibling into this node at the descent index.
(`none` fallbacks model unchecked accesses, unreachable under WF.) -/
def insNode (cmp : K → K → Ordering) (k : K) (v : V) :
    Node K V → InsRes K V := fun n =>
  match search_linear cmp k n.keysOf with
  | (idx, true) =>
    match n with
    | .leaf kv =>
      match kv[idx]? with
      | some (k0, v0) => .replaced (.leaf (kv.set idx (k0, v))) v0
      | none => .fit (.leaf kv)
    | .internal kv edges =>
      match kv[idx]? with
      | some (k0, v0) => .replaced (.internal (kv.set idx (k0, v)) edges) v0
      | none => .fit (.internal kv edges)
  | (idx, false) =>
    match n with
    | .leaf kv =>
      match leaf_insert kv idx k v with
      | .Fit kv' => .fit (.leaf kv')
      | .Split lkv pk pv rkv => .split (.leaf lkv) pk pv (.leaf rkv)
    | .internal kv edges =>
      match h : edges[idx]? with
      | some c =>
        match insNode cmp k v c with
        | .replaced c' old => .replaced (.internal kv (edges.set idx c')) old
        | .fit c' => .fit (.internal kv (edges.set idx c'))
        | .split cl ck cv cr =>
          match internal_insert kv (edges.set idx cl) idx ck cv cr with
          | .Fit kv' edges' => .fit (.internal kv' edges')
          | .Split lkv ledges pk pv rkv redges =>
            .split (.internal lkv ledges) pk pv (.internal rkv redges)
      | none => .fit (.internal kv edges)
termination_by n => sizeOf n
decreasing_by
  have := List.sizeOf_lt_of_mem (mem_of_idx h)
  simp at *; omega

/-! ## The map facade (map.rs) -/

/-- `Root` (node.rs lines 94-97): the top node plus the recorded tree
height (`0` = a single leaf). -/
structure Root (K V : Type) where
  node : Node K V
  height : Nat

/-- `BTreeMap`: a root and a cached element count. -/
structure BTreeMap (K V : Type) where
  root : Root K V
  length : Nat

/-- `BTreeMap::new`: an empty leaf root at height `0`, count `0`. -/
def mapNew : BTreeMap K V := ⟨⟨.leaf [], 0⟩, 0⟩

/-- `BTreeMap::get` (map.rs lines 166-171): `search_tree`; on `Found` the
value at the handle, on `GoDown` absent. -/
def mapGet (cmp : K → K → Ordering) (q : K) (m : BTreeMap K V) : Option V :=
  match search_tree cmp q m.root.node with
  | .Found n idx => (n.kvOf[idx]?).map Prod.snd
  | .GoDown _ _ => none

/-- `BTreeMap::insert` (map.rs 233-241 / 535-572): on `replaced` return the
previous value with the count unchanged; otherwise count + 1, and if the
split reached the root, `Root::enlarge` (node.rs lines 137-156) wraps the
old root as edge `0` of a fresh internal root, increments the height, and
`push` (node.rs lines 375-392) appends the promoted pair and right sibling. -/
def mapInsert (cmp : K → K → Ordering) (k : K) (v : V) (m : BTreeMap K V) :
    BTreeMap K V × Option V :=
  match insNode cmp k v m.root.node with
  | .replaced t old => (⟨⟨t, m.root.height⟩, m.length⟩, some old)
  | .fit t => (⟨⟨t, m.root.height⟩, m.length + 1⟩, none)
  | .split l pk pv r =>
      (⟨⟨.internal [(pk, pv)] [l, r], m.root.height + 1⟩, m.length + 1⟩, none)

/-- Fold a sequence of insertions starting from the empty map. -/
def insertList (cmp : K → K → Ordering) (ops : List (K × V)) : BTreeMap K V :=
  ops.foldl (fun m p => (mapInsert cmp p.1 p.2 m).1) mapNew

/-- `Entry::or_insert` (map.rs lines 515-520, 535-572, 575-596): `entry`
performs one `search_tree`; `Occupied` exposes the found value in place
(`into_mut`) leaving the map unchanged; `Vacant.insert` inserts the value
and returns a reference to the freshly stored slot (which holds `v`).
Returns the new map and the value the returned reference points at. -/
def orInsert (cmp : K → K → Ordering) (k : K) (v : V) (m : BTreeMap K V) :
    BTreeMap K V × Option V :=
  match search_tree cmp k m.root.node with
  | .Found n idx => (m, (n.kvOf[idx]?).map Prod.snd)
  | .GoDown _ _ => ((mapInsert cmp k v m).1, some v)

/-- Modelled from the spec (§8, "Entry equivalence"), the reference
behaviour `entry(k).or_insert(v)` is compared against: if the key is
present, return the map unchanged together with the existing value;
otherwise insert `v` and return it. -/
def refOrInsert (cmp : K → K → Ordering) (k : K) (v : V) (m : BTreeMap K V) :
    BTreeMap K V × Option V :=
  match mapGet cmp k m with
  | some w => (m, some w)
  | none => ((mapInsert cmp k v m).1, some v)

/-! ## Navigation layer: parent links and the iterator

A `NodeRef` in node.rs reaches its parent through the stored
`parent`/`parent_idx` back-pointer, which the code keeps pointing at the
true parent and the true edge index (`correct_parent_link` after splits,
pushes and root growth — spec §3, invariant 5).  We model a node view
together with its back-pointer chain as the node plus the list of
`(parent node, edge index)` frames up to the root; a null `parent` pointer
is the empty list. -/

/-- A node view: the chain of parent frames (nearest parent first) and the
node itself. -/
structure Z (K V : Type) where
  path : List (Node K V × Nat)
  node : Node K V

/-- `NodeRef::ascend` (node.rs lines 252-270): if the parent pointer is
null (empty path), fail with the original view unchanged; otherwise return
the parent-level edge handle `(parent view, parent_idx)`. -/
def Z.ascend : Z K V → Except (Z K V) (Z K V × Nat)
  | ⟨[], n⟩ => .error ⟨[], n⟩
  | ⟨(p, i) :: rest, _⟩ => .ok (⟨rest, p⟩, i)

/-- `Handle::descend` (node.rs lines 563-572): resolve edge `idx` of an
internal node to the child view (whose back-pointer is this node at this
edge).  `none` models the unchecked access on an out-of-range edge. -/
def Z.descend (z : Z K V) (idx : Nat) : Option (Z K V) :=
  match z.node.edgesOf[idx]? with
  | some c => some ⟨(z.node, idx) :: z.path, c⟩
  | none => none

/-- A leaf-level edge handle as used by the iterator: a node view plus an
edge index. -/
structure EdgeH (K V : Type) where
  path : List (Node K V × Nat)
  node : Node K V
  idx : Nat

/-- `first_leaf_edge` (map.rs lines 418-427): descend first edges until a
leaf is reached; the cursor is that leaf's edge `0`.  `acc` is the parent
chain built while descending.  (The empty-edge fallback is unreachable
under well-formedness.) -/
def first_leaf_edge : Node K V → List (Node K V × Nat) → EdgeH K V
  | .leaf kv, acc => ⟨acc, .leaf kv, 0⟩
  | .internal kv [], acc => ⟨acc, .internal kv [], 0⟩
  | .internal kv (e :: es), acc =>
      first_leaf_edge e ((.internal kv (e :: es), 0) :: acc)
termination_by n _ => sizeOf n
decreasing_by simp <;> omega

/-- The ascending loop of `Iter::next` (map.rs lines 303-315): pop parent
frames until one has a key/value to the right of the popped edge; yield it
and continue at the first leaf edge of the right child of that pair. -/
def iterAscend : List (Node K V × Nat) → Option ((K × V) × EdgeH K V)
  | [] => none
  | (p, i) :: rest =>
    match p.kvOf[i]? with
    | some pair =>
      match p.edgesOf[i + 1]? with
      | some child => some (pair, first_leaf_edge child ((p, i + 1) :: rest))
      | none => none
    | none => iterAscend rest

/-- `Iter::next` (map.rs lines 285-316): if the cursor edge has a key/value
immediately to its right in the same (leaf) node, yield it and advance the
cursor past it; otherwise ascend. -/
def iterNext (h : EdgeH K V) : Option ((K × V) × EdgeH K V) :=
  match h.node.kvOf[h.idx]? with
  | some pair => some (pair, ⟨h.path, h.node, h.idx + 1⟩)
  | none => iterAscend h.path

/-- `BTreeMap::iter` (map.rs lines 449-453): the initial cursor is the
first leaf edge reached from the root. -/
def iterStart (m : BTreeMap K V) : EdgeH K V := first_leaf_edge m.root.node []

/-- Run the iterator, collecting at most `fuel` yielded pairs. -/
def iterAll : Nat → EdgeH K V → List (K × V)
  | 0, _ => []
  | fuel + 1, h =>
    match iterNext h with
    | none => []
    | some (pair, h') => pair :: iterAll fuel h'

/-! ## Invariants (spec §3), as executable checkers -/

/-- `k` lies strictly inside the open interval `(lo, hi)` (a `none` bound is
unbounded). -/
def inB (cmp : K → K → Ordering) (lo hi : Option K) (k : K) : Bool :=
  (match lo with
   | none => true
   | some l => cmp l k == .lt) &&
  (match hi with
   | none => true
   | some h => cmp k h == .lt)

/-- The keys of the pair list are strictly ascending and all lie in
`(lo, hi)`. -/
def chainB (cmp : K → K → Ordering) : Option K → Option K → List (K × V) → Bool
  | _, _, [] => true
  | lo, hi, (k, _) :: rest => inB cmp lo hi k && chainB cmp (some k) hi rest

/-- Ordering invariant of a subtree within open bounds `(lo, hi)`
(spec §3, invariants 1 and 4): node keys are strictly ascending in the
bounds and key `i` separates child `i` from child `i + 1`.  Internal nodes
must have exactly one more edge than keys for this to hold. -/
def ordB (cmp : K → K → Ordering) : Option K → Option K → Node K V → Bool
  | lo, hi, .leaf kv => chainB cmp lo hi kv
  | lo, hi, .internal [] [e] => ordB cmp lo hi e
  | lo, hi, .internal ((k, _) :: kvs) (e :: es) =>
      inB cmp lo hi k && ordB cmp lo (some k) e &&
        ordB cmp (some k) hi (.internal kvs es)
  | _, _, .internal _ _ => false
termination_by _ _ n => sizeOf n
decreasing_by all_goals (simp <;> omega)

/-- Shape invariant (spec §3, invariant 2): all leaves at depth `h` from
this node, internal nodes with one more edge than keys. -/
def shapedB : Node K V → Nat → Bool
  | .leaf _, h => h == 0
  | .internal _ _, 0 => false
  | .internal [] [e], h + 1 => shapedB e h
  | .internal (_ :: kvs) (e :: es), h + 1 =>
      shapedB e h && shapedB (.internal kvs es) (h + 1)
  | .internal _ _, _ + 1 => false
termination_by n _ => sizeOf n
decreasing_by all_goals (simp <;> omega)

/-- Every internal node has exactly one more edge than keys. -/
def lensB : Node K V → Bool
  | .leaf _ => true
  | .internal [] [e] => lensB e
  | .internal (_ :: kvs) (e :: es) => lensB e && lensB (.internal kvs es)
  | .internal _ _ => false
termination_by n => sizeOf n
decreasing_by all_goals (simp <;> omega)

/-- Every node of the subtree holds at most `capacity` keys. -/
def capB : Node K V → Bool
  | .leaf kv => kv.length ≤ capacity
  | .internal kv [] => kv.length ≤ capacity
  | .internal kv (e :: es) => capB e && capB (.internal kv es)
termination_by n => sizeOf n
decreasing_by all_goals (simp <;> omega)

/-- Occupancy of a non-root subtree: every node holds between `lo` and
`capacity` keys. -/
def occSubB (lo : Nat) : Node K V → Bool
  | .leaf kv => lo ≤ kv.length && kv.length ≤ capacity
  | .internal kv [] => lo ≤ kv.length && kv.length ≤ capacity
  | .internal kv (e :: es) => occSubB lo e && occSubB lo (.internal kv es)
termination_by n => sizeOf n
decreasing_by all_goals (simp <;> omega)

/-- Occupancy at the root (spec §3, invariant 3): the root holds at most
`capacity` keys, and every non-root node holds between `lo` and `capacity`
keys. -/
def occRootB (lo : Nat) : Node K V → Bool
  | .leaf kv => kv.length ≤ capacity
  | .internal kv edges => kv.length ≤ capacity && edges.all (occSubB lo)

/-! ## The list-level model -/

/-- Reference lookup on the in-order association list: the value at the
first key comparing equal. -/
def listLookup (cmp : K → K → Ordering) (q : K) : List (K × V) → Option V
  | [] => none
  | (k, v) :: rest =>
    match cmp q k with
    | .eq => some v
    | _ => listLookup cmp q rest

/-- Reference insertion into the sorted in-order association list: place
`(q, v)` before the first larger key, or replace the value at an equal key
(keeping the stored key). -/
def listInsert (cmp : K → K → Ordering) (q : K) (v : V) :
    List (K × V) → List (K × V)
  | [] => [(q, v)]
  | (k, w) :: rest =>
    match cmp q k with
    | .lt => (q, v) :: (k, w) :: rest
    | .eq => (k, v) :: rest
    | .gt => (k, w) :: listInsert cmp q v rest

/-- The in-order flattening of an insertion outcome: left ++ promoted ++
right for a split, otherwise the flattening of the updated subtree. -/
def flatRes : InsRes K V → List (K × V)
  | .replaced t _ => inorder t
  | .fit t => inorder t
  | .split l k v r => inorder l ++ (k, v) :: inorder r

/-- The previous value reported by an insertion outcome. -/
def oldRes : InsRes K V → Option V
  | .replaced _ old => some old
  | _ => none

/-! ## Lawful comparison capability

The `Ord` bound of the source.  Note keys that compare `eq` need not be
equal (the map keeps the stored key on value replacement). -/

structure LawfulCmp (cmp : K → K → Ordering) : Prop where
  refl_eq : ∀ a, cmp a a = .eq
  symm_lt : ∀ a b, cmp a b = .lt ↔ cmp b a = .gt
  lt_trans : ∀ {a b c}, cmp a b = .lt → cmp b c = .lt → cmp a c = .lt
  congr_left : ∀ {a b} (c : K), cmp a b = .eq → cmp a c = cmp b c

/-- Three-way comparison on `Nat`, used to instantiate witnesses. -/
def natCmp (a b : Nat) : Ordering :=
  if a < b then .lt else if b < a then .gt else .eq

/-- Comparison of pairs by first component only: `eq` does not imply
equality, as with a key type whose `Ord` ignores part of the data. -/
def fstCmp (a b : Nat × Nat) : Ordering := natCmp a.1 b.1

theorem lawful_natCmp : LawfulCmp natCmp := by
  constructor
  · intro a; simp [natCmp]
  · intro a b
    simp only [natCmp]
    split_ifs <;> simp_all <;> omega
  · intro a b c h1 h2
    simp only [natCmp] at *
    split_ifs at * <;> simp_all <;> omega
  · intro a b c h
    simp only [natCmp] at *
    split_ifs at * <;> simp_all <;> omega

theorem lawful_fstCmp : LawfulCmp fstCmp := by
  constructor
  · intro a; exact lawful_natCmp.refl_eq a.1
  · intro a b; exact lawful_natCmp.symm_lt a.1 b.1
  · intro a b c h1 h2; exact lawful_natCmp.lt_trans h1 h2
  · intro a b c h; exact lawful_natCmp.congr_left c.1 h

/-! ## Derived comparison facts -/

theorem cmp_swap {cmp : K → K → Ordering} (hc : LawfulCmp cmp) (a b : K) :
    cmp b a = (cmp a b).swap := by
  rcases h : cmp a b with _ | _ | _
  · exact (hc.symm_lt a b).1 h
  · have h2 := hc.congr_left a h
    rw [hc.refl_eq] at h2
    exact h2.symm
  · exact (hc.symm_lt b a).2 h

theorem cmp_eq_symm {cmp : K → K → Ordering} (hc : LawfulCmp cmp) {a b : K}
    (h : cmp a b = .eq) : cmp b a = .eq := by
  rw [cmp_swap hc, h]; rfl

theorem cmp_gt_of_lt {cmp : K → K → Ordering} (hc : LawfulCmp cmp) {a b : K}
    (h : cmp a b = .lt) : cmp b a = .gt :=
  (hc.symm_lt a b).1 h

theorem cmp_lt_of_gt {cmp : K → K → Ordering} (hc : LawfulCmp cmp) {a b : K}
    (h : cmp a b = .gt) : cmp b a = .lt :=
  (hc.symm_lt b a).2 h

theorem cmp_congr_right {cmp : K → K → Ordering} (hc : LawfulCmp cmp)
    {a b : K} (c : K) (h : cmp a b = .eq) : cmp c a = cmp c b := by
  rw [cmp_swap hc a c, cmp_swap hc b c, hc.congr_left c h]

theorem cmp_lt_of_lt_eq {cmp : K → K → Ordering} (hc : LawfulCmp cmp)
    {a b c : K} (h1 : cmp a b = .lt) (h2 : cmp b c = .eq) : cmp a c = .lt := by
  rw [← cmp_congr_right hc a h2]; exact h1

theorem cmp_lt_of_eq_lt {cmp : K → K → Ordering} (hc : LawfulCmp cmp)
    {a b c : K} (h1 : cmp a b = .eq) (h2 : cmp b c = .lt) : cmp a c = .lt := by
  rw [hc.congr_left c h1]; exact h2

theorem cmp_gt_trans {cmp : K → K → Ordering} (hc : LawfulCmp cmp)
    {a b c : K} (h1 : cmp a b = .gt) (h2 : cmp b c = .gt) : cmp a c = .gt :=
  cmp_gt_of_lt hc (hc.lt_trans (cmp_lt_of_gt hc h2) (cmp_lt_of_gt hc h1))

/-! ## Flattening bridges -/

theorem flatKV_nil_edges (kv : List (K × V)) :
    flatKV kv ([] : List (Node K V)) = kv := by
  induction kv with
  | nil => rfl
  | cons p kvs ih => cases p; simp [flatKV, ih]

theorem inorder_internal_edge (kv : List (K × V)) (e : Node K V)
    (es : List (Node K V)) :
    inorder (.internal kv (e :: es)) = inorder e ++ flatKV kv es := by
  induction kv generalizing e es with
  | nil => simp [inorder, flatKV]
  | cons p kvs ih =>
    cases p with
    | mk k v =>
      cases es with
      | nil => simp [inorder, flatKV, flatKV_nil_edges]
      | cons e2 es2 => simp [inorder, flatKV, ih]

/-! ## Characterizations of the peel-style checkers -/

theorem capB_iff (kv : List (K × V)) (edges : List (Node K V)) :
    capB (.internal kv edges) = true ↔
      kv.length ≤ capacity ∧ ∀ e ∈ edges, capB e = true := by
  induction edges with
  | nil => simp [capB]
  | cons e es ih => simp [capB, ih] <;> tauto

theorem lensB_iff (kv : List (K × V)) (edges : List (Node K V)) :
    lensB (.internal kv edges) = true ↔
      edges.length = kv.length + 1 ∧ ∀ e ∈ edges, lensB e = true := by
  induction kv generalizing edges with
  | nil =>
    match edges with
    | [] => simp [lensB]
    | [e] => simp [lensB]
    | e :: e2 :: es => simp [lensB]
  | cons p kvs ih =>
    match edges with
    | [] => simp [lensB]
    | e :: es => simp [lensB, ih] <;> tauto

theorem shapedB_iff (kv : List (K × V)) (edges : List (Node K V)) (h : Nat) :
    shapedB (.internal kv edges) (h + 1) = true ↔
      edges.length = kv.length + 1 ∧ ∀ e ∈ edges, shapedB e h = true := by
  induction kv generalizing edges with
  | nil =>
    match edges with
    | [] => simp [shapedB]
    | [e] => simp [shapedB]
    | e :: e2 :: es => simp [shapedB]
  | cons p kvs ih =>
    match edges with
    | [] => simp [shapedB]
    | e :: es => simp [shapedB, ih] <;> tauto

theorem occSubB_iff (lo : Nat) (kv : List (K × V)) (edges : List (Node K V)) :
    occSubB lo (.internal kv edges) = true ↔
      (lo ≤ kv.length ∧ kv.length ≤ capacity) ∧
        ∀ e ∈ edges, occSubB lo e = true := by
  induction edges with
  | nil => simp [occSubB]
  | cons e es ih => simp [occSubB, ih] <;> tauto

/-! ## `search_linear` characterization -/

theorem sl_le (cmp : K → K → Ordering) (q : K) (keys : List K) :
    (search_linear cmp q keys).1 ≤ keys.length := by
  induction keys with
  | nil => simp [search_linear]
  | cons k ks ih =>
    simp only [search_linear]
    rcases cmp q k with _ | _ | _ <;> simp <;> omega

theorem sl_gt_before (cmp : K → K → Ordering) (q : K) (keys : List K) :
    ∀ j < (search_linear cmp q keys).1, ∀ kj, keys[j]? = some kj →
      cmp q kj = .gt := by
  induction keys with
  | nil => intro j hj; simp [search_linear] at hj
  | cons k ks ih =>
    intro j hj kj hkj
    simp only [search_linear] at hj
    rcases h : cmp q k with _ | _ | _ <;> rw [h] at hj
    · simp at hj
    · simp at hj
    · simp only [] at hj
      rcases j with _ | j
      · simp at hkj; rw [← hkj]; exact h
      · simp only [List.getElem?_cons_succ] at hkj
        refine ih j ?_ kj hkj
        simp at hj
        omega

theorem sl_found (cmp : K → K → Ordering) (q : K) (keys : List K) (i : Nat)
    (h : search_linear cmp q keys = (i, true)) :
    ∃ kj, keys[i]? = some kj ∧ cmp q kj = .eq := by
  induction keys generalizing i with
  | nil => simp [search_linear] at h
  | cons k ks ih =>
    simp only [search_linear] at h
    rcases hck : cmp q k with _ | _ | _ <;> rw [hck] at h <;> simp at h
    · exact ⟨k, by simp [← h], hck⟩
    · obtain ⟨h1, h2⟩ := h
      have hsl : search_linear cmp q ks = ((search_linear cmp q ks).1, true) := by
        rw [← h2]
      obtain ⟨kj, hkj, he⟩ := ih _ hsl
      refine ⟨kj, ?_, he⟩
      rw [← h1]
      simpa using hkj

theorem sl_absent (cmp : K → K → Ordering) (q : K) (keys : List K) (i : Nat)
    (h : search_linear cmp q keys = (i, false)) :
    i = keys.length ∨ ∃ kj, keys[i]? = some kj ∧ cmp q kj = .lt := by
  induction keys generalizing i with
  | nil =>
    simp [search_linear] at h
    simp [h]
  | cons k ks ih =>
    simp only [search_linear] at h
    rcases hck : cmp q k with _ | _ | _ <;> rw [hck] at h <;> simp at h
    · exact Or.inr ⟨k, by simp [← h], hck⟩
    · obtain ⟨h1, h2⟩ := h
      have hsl : search_linear cmp q ks = ((search_linear cmp q ks).1, false) := by
        rw [← h2]
      rcases ih _ hsl with he | ⟨kj, hkj, hl⟩
      · left; simp [← h1, he]
      · right
        refine ⟨kj, ?_, hl⟩
        rw [← h1]
        simpa using hkj

/-! ## Bounds and membership -/

@[simp]
theorem ordering_beq_iff (a b : Ordering) : (a == b) = true ↔ a = b := by
  cases a <;> cases b <;> decide

theorem inB_weaken_hi {cmp : K → K → Ordering} (hc : LawfulCmp cmp)
    {lo hi : Option K} {k x : K} (h1 : inB cmp lo (some k) x = true)
    (h2 : inB cmp lo hi k = true) : inB cmp lo hi x = true := by
  simp only [inB, Bool.and_eq_true] at *
  obtain ⟨ha, hb⟩ := h1
  obtain ⟨-, hd⟩ := h2
  refine ⟨ha, ?_⟩
  cases hi with
  | none => rfl
  | some h =>
    simp only [ordering_beq_iff] at *
    exact hc.lt_trans hb hd

theorem inB_weaken_lo {cmp : K → K → Ordering} (hc : LawfulCmp cmp)
    {lo hi : Option K} {k x : K} (h1 : inB cmp (some k) hi x = true)
    (h2 : inB cmp lo hi k = true) : inB cmp lo hi x = true := by
  simp only [inB, Bool.and_eq_true] at *
  obtain ⟨ha, hb⟩ := h1
  obtain ⟨hcx, -⟩ := h2
  refine ⟨?_, hb⟩
  cases lo with
  | none => rfl
  | some l =>
    simp only [ordering_beq_iff] at *
    exact hc.lt_trans hcx ha

theorem chainB_mem {cmp : K → K → Ordering} (hc : LawfulCmp cmp)
    {lo hi : Option K} {l : List (K × V)} (h : chainB cmp lo hi l = true) :
    ∀ p ∈ l, inB cmp lo hi p.1 = true := by
  induction l generalizing lo with
  | nil => simp
  | cons p rest ih =>
    cases p with
    | mk k w =>
      simp only [chainB, Bool.and_eq_true] at h
      intro x hx
      rcases List.mem_cons.1 hx with rfl | hx
      · exact h.1
      · exact inB_weaken_lo hc (ih h.2 x hx) h.1

theorem ordB_lens {cmp : K → K → Ordering} {lo hi : Option K}
    (kv : List (K × V)) (edges : List (Node K V))
    (h : ordB cmp lo hi (.internal kv edges) = true) :
    edges.length = kv.length + 1 := by
  induction kv generalizing lo edges with
  | nil =>
    match edges with
    | [] => simp [ordB] at h
    | [e] => simp
    | e :: e2 :: es => simp [ordB] at h
  | cons p kvs ih =>
    match edges with
    | [] => cases p; simp [ordB] at h
    | e :: es =>
      cases p with
      | mk k w =>
        simp only [ordB, Bool.and_eq_true] at h
        have := ih es h.2
        simp [this]

theorem ordB_mem {cmp : K → K → Ordering} (hc : LawfulCmp cmp)
    {lo hi : Option K} {n : Node K V} (h : ordB cmp lo hi n = true) :
    ∀ p ∈ inorder n, inB cmp lo hi p.1 = true := by
  induction lo, hi, n using ordB.induct cmp with
  | case1 lo hi kv =>
    intro p hp
    exact chainB_mem hc (by simpa [ordB] using h) p (by simpa [inorder] using hp)
  | case2 lo hi e ih =>
    intro p hp
    simp only [ordB] at h
    exact ih h p (by simpa [inorder] using hp)
  | case3 lo hi k w kvs e es ih1 ih2 =>
    simp only [ordB, Bool.and_eq_true] at h
    obtain ⟨⟨hk, he⟩, hrest⟩ := h
    intro p hp
    rw [show inorder (Node.internal ((k, w) :: kvs) (e :: es)) =
        inorder e ++ (k, w) :: inorder (Node.internal kvs es) from by
      simp [inorder]] at hp
    rcases List.mem_append.1 hp with hp | hp
    · exact inB_weaken_hi hc (ih1 he p hp) hk
    · rcases List.mem_cons.1 hp with rfl | hp
      · exact hk
      · exact inB_weaken_lo hc (ih2 hrest p hp) hk
  | case4 lo hi kv edges hkv hedges =>
    intro p hp
    exfalso
    match kv, edges, hkv, hedges with
    | [], [], _, _ => simp [ordB] at h
    | [], [e], hkv, _ => exact hkv e rfl rfl
    | [], e :: e2 :: es, hkv, _ => simp [ordB] at h
    | p :: kvs, [], _, _ => cases p; simp [ordB] at h
    | p :: kvs, e :: es, hkv, hedges =>
      cases p; exact hedges _ _ _ _ _ rfl rfl

/-! ## Association-list lookup and insertion lemmas -/

theorem listLookup_append_skip {cmp : K → K → Ordering} (q : K)
    (xs ys : List (K × V)) (h : ∀ x ∈ xs, cmp q x.1 ≠ .eq) :
    listLookup cmp q (xs ++ ys) = listLookup cmp q ys := by
  induction xs with
  | nil => simp
  | cons x xs ih =>
    cases x with
    | mk k w =>
      have hk := h (k, w) (by simp)
      simp only [List.cons_append, listLookup]
      rcases hck : cmp q k with _ | _ | _
      · exact ih fun x hx => h x (by simp [hx])
      · exact absurd hck hk
      · exact ih fun x hx => h x (by simp [hx])

theorem listLookup_append_none {cmp : K → K → Ordering} (q : K)
    (xs ys : List (K × V)) (h : ∀ y ∈ ys, cmp q y.1 ≠ .eq) :
    listLookup cmp q (xs ++ ys) = listLookup cmp q xs := by
  induction xs with
  | nil =>
    simp only [List.nil_append]
    induction ys with
    | nil => rfl
    | cons y ys ihy =>
      cases y with
      | mk k w =>
        have hk := h (k, w) (by simp)
        simp only [listLookup]
        rcases hck : cmp q k with _ | _ | _
        · exact ihy fun x hx => h x (by simp [hx])
        · exact absurd hck hk
        · exact ihy fun x hx => h x (by simp [hx])
  | cons x xs ih =>
    cases x with
    | mk k w =>
      simp only [List.cons_append, listLookup]
      rcases hck : cmp q k with _ | _ | _ <;> simp [ih]

theorem listInsert_append_skip {cmp : K → K → Ordering} (q : K) (v : V)
    (xs ys : List (K × V)) (h : ∀ x ∈ xs, cmp q x.1 = .gt) :
    listInsert cmp q v (xs ++ ys) = xs ++ listInsert cmp q v ys := by
  induction xs with
  | nil => simp
  | cons x xs ih =>
    cases x with
    | mk k w =>
      have hk := h (k, w) (by simp)
      simp only [List.cons_append, listInsert, hk, List.append_eq]
      rw [ih fun x hx => h x (by simp [hx])]

theorem listInsert_append_stop {cmp : K → K → Ordering} (q : K) (v : V)
    (xs ys : List (K × V)) (h : ∀ y ∈ ys, cmp q y.1 = .lt) :
    listInsert cmp q v (xs ++ ys) = listInsert cmp q v xs ++ ys := by
  induction xs with
  | nil =>
    simp only [List.nil_append, listInsert]
    cases ys with
    | nil => rfl
    | cons y ys =>
      cases y with
      | mk k w =>
        have hk := h (k, w) (by simp)
        simp [listInsert, hk]
  | cons x xs ih =>
    cases x with
    | mk k w =>
      simp only [List.cons_append, listInsert]
      rcases hck : cmp q k with _ | _ | _ <;> simp [ih]

/-! ## The chain invariant of the flattening -/

theorem chainB_append {cmp : K → K → Ordering} (hc : LawfulCmp cmp)
    {hi : Option K} {k : K} {v : V} {xs ys : List (K × V)}
    (h3 : chainB cmp (some k) hi ys = true) :
    ∀ lo, chainB cmp lo (some k) xs = true → inB cmp lo hi k = true →
      chainB cmp lo hi (xs ++ (k, v) :: ys) = true := by
  induction xs with
  | nil =>
    intro lo h1 h2
    simp [chainB, h2, h3]
  | cons x xs ih =>
    intro lo h1 h2
    cases x with
    | mk kx wx =>
      simp only [chainB, Bool.and_eq_true] at h1
      simp only [List.cons_append, chainB, Bool.and_eq_true]
      refine ⟨inB_weaken_hi hc h1.1 h2, ih (some kx) h1.2 ?_⟩
      simp only [inB, Bool.and_eq_true] at *
      refine ⟨h1.1.2, h2.2⟩

theorem chainB_split {cmp : K → K → Ordering} (hc : LawfulCmp cmp)
    {hi : Option K} {k : K} {v : V} {xs ys : List (K × V)} :
    ∀ lo, chainB cmp lo hi (xs ++ (k, v) :: ys) = true →
      chainB cmp lo (some k) xs = true ∧ inB cmp lo hi k = true ∧
        chainB cmp (some k) hi ys = true := by
  induction xs with
  | nil =>
    intro lo h
    simp only [List.nil_append, chainB, Bool.and_eq_true] at h
    exact ⟨rfl, h.1, h.2⟩
  | cons x xs ih =>
    intro lo h
    cases x with
    | mk kx wx =>
      simp only [List.cons_append, chainB, Bool.and_eq_true] at h
      obtain ⟨hx, hrest⟩ := h
      obtain ⟨c1, c2, c3⟩ := ih (some kx) hrest
      have hxk : cmp kx k = .lt := by
        simp only [inB, Bool.and_eq_true, ordering_beq_iff] at c2
        exact c2.1
      refine ⟨?_, ?_, c3⟩
      · simp only [chainB, Bool.and_eq_true]
        refine ⟨?_, c1⟩
        simp only [inB, Bool.and_eq_true, ordering_beq_iff] at *
        exact ⟨hx.1, hxk⟩
      · refine inB_weaken_lo hc c2 ?_
        exact hx

theorem ordB_chainB {cmp : K → K → Ordering} (hc : LawfulCmp cmp)
    {lo hi : Option K} {n : Node K V} (h : ordB cmp lo hi n = true) :
    chainB cmp lo hi (inorder n) = true := by
  induction lo, hi, n using ordB.induct cmp with
  | case1 lo hi kv => simpa [ordB, inorder] using h
  | case2 lo hi e ih =>
    simp only [ordB] at h
    simpa [inorder] using ih h
  | case3 lo hi k w kvs e es ih1 ih2 =>
    simp only [ordB, Bool.and_eq_true] at h
    obtain ⟨⟨hk, he⟩, hrest⟩ := h
    rw [show inorder (Node.internal ((k, w) :: kvs) (e :: es)) =
        inorder e ++ (k, w) :: inorder (Node.internal kvs es) from by
      simp [inorder]]
    exact chainB_append hc (ih2 hrest) lo (ih1 he) hk
  | case4 lo hi kv edges hkv hedges =>
    exfalso
    match kv, edges, hkv, hedges with
    | [], [], _, _ => simp [ordB] at h
    | [], [e], hkv, _ => exact hkv e rfl rfl
    | [], e :: e2 :: es, hkv, _ => simp [ordB] at h
    | p :: kvs, [], _, _ => cases p; simp [ordB] at h
    | p :: kvs, e :: es, hkv, hedges =>
      cases p; exact hedges _ _ _ _ _ rfl rfl

theorem chainB_ordB {cmp : K → K → Ordering} (hc : LawfulCmp cmp)
    {lo hi : Option K} {n : Node K V} (hl : lensB n = true)
    (h : chainB cmp lo hi (inorder n) = true) : ordB cmp lo hi n = true := by
  induction lo, hi, n using ordB.induct cmp with
  | case1 lo hi kv => simpa [ordB, inorder] using h
  | case2 lo hi e ih =>
    simp only [lensB] at hl
    simp only [inorder] at h
    simpa [ordB] using ih hl h
  | case3 lo hi k w kvs e es ih1 ih2 =>
    simp only [lensB, Bool.and_eq_true] at hl
    rw [show inorder (Node.internal ((k, w) :: kvs) (e :: es)) =
        inorder e ++ (k, w) :: inorder (Node.internal kvs es) from by
      simp [inorder]] at h
    obtain ⟨c1, c2, c3⟩ := chainB_split hc lo h
    simp only [ordB, Bool.and_eq_true]
    exact ⟨⟨c2, ih1 hl.1 c1⟩, ih2 hl.2 c3⟩
  | case4 lo hi kv edges hkv hedges =>
    exfalso
    match kv, edges, hkv, hedges with
    | [], [], _, _ => simp [lensB] at hl
    | [], [e], hkv, _ => exact hkv e rfl rfl
    | [], e :: e2 :: es, hkv, _ => simp [lensB] at hl
    | p :: kvs, [], _, _ => cases p; simp [lensB] at hl
    | p :: kvs, e :: es, hkv, hedges =>
      cases p; exact hedges _ _ _ _ _ rfl rfl

/-! ## Index-based decomposition of the flattening -/

/-- The part of an internal node's in-order sequence that precedes edge
`idx`: subtrees `0..idx-1` interleaved with keys `0..idx-1`. -/
def preFlat : List (K × V) → List (Node K V) → Nat → List (K × V)
  | _, _, 0 => []
  | [], _, _ + 1 => []
  | _ :: _, [], _ + 1 => []
  | p :: kvs, e :: es, i + 1 => inorder e ++ p :: preFlat kvs es i

theorem flatKV_cons (p : K × V) (kvs : List (K × V)) (es : List (Node K V)) :
    flatKV (p :: kvs) es = p :: inorder (.internal kvs es) := by
  cases p with
  | mk k v =>
    cases es with
    | nil => simp [flatKV, flatKV_nil_edges, inorder]
    | cons e es' => simp [flatKV, inorder_internal_edge]

theorem insertIdx_append_left (xs ys : List α) (i : Nat) (a : α)
    (h : i ≤ xs.length) :
    (xs ++ ys).insertIdx i a = xs.insertIdx i a ++ ys := by
  induction xs generalizing i with
  | nil =>
    simp only [List.length_nil, Nat.le_zero] at h
    subst h
    simp [List.insertIdx_zero]
  | cons x xs ih =>
    cases i with
    | zero => simp [List.insertIdx_zero]
    | succ i =>
      simp only [List.cons_append, List.insertIdx_succ_cons]
      rw [ih i (by simpa using h)]

theorem insertIdx_append_right (xs ys : List α) (j : Nat) (a : α) :
    (xs ++ ys).insertIdx (xs.length + j) a = xs ++ ys.insertIdx j a := by
  induction xs with
  | nil => simp
  | cons x xs ih =>
    have : (x :: xs).length + j = (xs.length + j) + 1 := by
      simp [Nat.succ_add]
    rw [this]
    simp only [List.cons_append, List.insertIdx_succ_cons]
    rw [ih]

theorem set_self_of_idx {l : List α} {i : Nat} {a : α} (h : l[i]? = some a) :
    l.set i a = l := by
  induction l generalizing i with
  | nil => simp at h
  | cons x xs ih =>
    cases i with
    | zero => simp at h; simp [h]
    | succ i => simp at h; simp [ih h]

theorem drop_eq_cons_of_idx {l : List α} {i : Nat} {a : α}
    (h : l[i]? = some a) : l.drop i = a :: l.drop (i + 1) := by
  induction l generalizing i with
  | nil => simp at h
  | cons x xs ih =>
    cases i with
    | zero => simp at h; simp [h]
    | succ i =>
      simp only [List.getElem?_cons_succ] at h
      simp [List.drop_succ_cons, ih h]

theorem take_drop_decomp {l : List α} {i : Nat} {a : α}
    (h : l[i]? = some a) : l = l.take i ++ a :: l.drop (i + 1) := by
  conv_lhs => rw [← List.take_append_drop i l]
  rw [drop_eq_cons_of_idx h]

/-- Replacing child `idx` of an internal node replaces the corresponding
segment of its in-order sequence. -/
theorem inorder_set_child (kv : List (K × V)) (edges : List (Node K V))
    (idx : Nat) (c' : Node K V) (hlen : edges.length = kv.length + 1)
    (hidx : idx ≤ kv.length) :
    inorder (.internal kv (edges.set idx c')) =
      preFlat kv edges idx ++ inorder c' ++
        flatKV (kv.drop idx) (edges.drop (idx + 1)) := by
  induction idx generalizing kv edges with
  | zero =>
    cases edges with
    | nil => simp at hlen
    | cons e es =>
      simp only [List.set_cons_zero, List.drop_zero, List.drop_succ_cons,
        preFlat, List.nil_append]
      exact inorder_internal_edge kv c' es
  | succ i ih =>
    cases kv with
    | nil => simp at hidx
    | cons p kvs =>
      cases edges with
      | nil => simp at hlen
      | cons e es =>
        cases p with
        | mk k w =>
          simp only [List.set_cons_succ, List.drop_succ_cons, preFlat]
          rw [show inorder (Node.internal ((k, w) :: kvs) (e :: es.set i c')) =
              inorder e ++ (k, w) :: inorder (Node.internal kvs (es.set i c'))
            from by simp [inorder]]
          rw [ih kvs es (by simpa using hlen) (by simpa using hidx)]
          simp

/-- Reading decomposition: an internal node's in-order sequence splits at
child `idx`. -/
theorem inorder_decomp (kv : List (K × V)) (edges : List (Node K V))
    (idx : Nat) (c : Node K V) (hlen : edges.length = kv.length + 1)
    (hidx : idx ≤ kv.length) (hcc : edges[idx]? = some c) :
    inorder (.internal kv edges) =
      preFlat kv edges idx ++ inorder c ++
        flatKV (kv.drop idx) (edges.drop (idx + 1)) := by
  have h2 := inorder_set_child kv edges idx c hlen hidx
  rwa [set_self_of_idx hcc] at h2

/-- Inserting a promoted pair and its right sibling at edge `idx` (child
`idx` already replaced by the left half) splices `left ++ pair ++ right`
into the in-order sequence. -/
theorem inorder_ins_child (kv : List (K × V)) (edges : List (Node K V))
    (idx : Nat) (p : K × V) (cl cr : Node K V)
    (hlen : edges.length = kv.length + 1) (hidx : idx ≤ kv.length) :
    inorder (.internal (kv.insertIdx idx p)
        ((edges.set idx cl).insertIdx (idx + 1) cr)) =
      preFlat kv edges idx ++ (inorder cl ++ p :: inorder cr) ++
        flatKV (kv.drop idx) (edges.drop (idx + 1)) := by
  induction idx generalizing kv edges with
  | zero =>
    cases edges with
    | nil => simp at hlen
    | cons e es =>
      simp only [List.insertIdx_zero, List.set_cons_zero, preFlat,
        List.nil_append, List.drop_zero, List.drop_succ_cons]
      rw [show (cl :: es).insertIdx 1 cr = cl :: cr :: es from rfl]
      rw [show inorder (Node.internal (p :: kv) (cl :: cr :: es)) =
          inorder cl ++ p :: inorder (Node.internal kv (cr :: es)) from by
        cases p; simp [inorder]]
      rw [inorder_internal_edge kv cr es]
      simp
  | succ i ih =>
    cases kv with
    | nil => simp at hidx
    | cons q kvs =>
      cases edges with
      | nil => simp at hlen
      | cons e es =>
        cases q with
        | mk k w =>
          simp only [List.insertIdx_succ_cons, List.set_cons_succ,
            List.drop_succ_cons, preFlat]
          rw [show inorder (Node.internal ((k, w) :: kvs.insertIdx i p)
                (e :: (es.set i cl).insertIdx (i + 1) cr)) =
              inorder e ++ (k, w) :: inorder (Node.internal (kvs.insertIdx i p)
                ((es.set i cl).insertIdx (i + 1) cr)) from by simp [inorder]]
          rw [ih kvs es (by simpa using hlen) (by simpa using hidx)]
          simp

/-- Splitting an internal node at key `t` preserves the in-order sequence:
left half, promoted pair, right half. -/
theorem inorder_split_glue (kv : List (K × V)) (edges : List (Node K V))
    (t : Nat) (p : K × V) (hlen : edges.length = kv.length + 1)
    (hp : kv[t]? = some p) :
    inorder (.internal (kv.take t) (edges.take (t + 1))) ++
      p :: inorder (.internal (kv.drop (t + 1)) (edges.drop (t + 1))) =
      inorder (.internal kv edges) := by
  induction t generalizing kv edges with
  | zero =>
    cases kv with
    | nil => simp at hp
    | cons q kvs =>
      cases edges with
      | nil => simp at hlen
      | cons e es =>
        simp only [List.getElem?_cons_zero, Option.some.injEq] at hp
        subst hp
        cases q with
        | mk k w =>
          simp only [List.take_zero, List.take_succ_cons, List.drop_succ_cons,
            List.drop_zero]
          rw [show inorder (Node.internal ([] : List (K × V)) [e]) = inorder e
            from by simp [inorder]]
          rw [show inorder (Node.internal ((k, w) :: kvs) (e :: es)) =
              inorder e ++ (k, w) :: inorder (Node.internal kvs es) from by
            simp [inorder]]
  | succ t ih =>
    cases kv with
    | nil => simp at hp
    | cons q kvs =>
      cases edges with
      | nil => simp at hlen
      | cons e es =>
        cases q with
        | mk k w =>
          simp only [List.getElem?_cons_succ] at hp
          simp only [List.take_succ_cons, List.drop_succ_cons]
          rw [show inorder (Node.internal ((k, w) :: kvs.take t)
                (e :: es.take (t + 1))) =
              inorder e ++ (k, w) :: inorder (Node.internal (kvs.take t)
                (es.take (t + 1))) from by simp [inorder]]
          rw [show inorder (Node.internal ((k, w) :: kvs) (e :: es)) =
              inorder e ++ (k, w) :: inorder (Node.internal kvs es) from by
            simp [inorder]]
          rw [List.append_assoc, List.cons_append]
          rw [ih kvs es (by simpa using hlen) hp]

/-! ## Ordered-bounds facts at a search index -/

theorem search_node_found {cmp : K → K → Ordering} {n : Node K V} {q : K}
    {idx : Nat} :
    search_node cmp n q = .Found idx ↔
      search_linear cmp q n.keysOf = (idx, true) := by
  unfold search_node
  rcases h : search_linear cmp q n.keysOf with ⟨i, b⟩
  cases b <;> simp

theorem search_node_godown {cmp : K → K → Ordering} {n : Node K V} {q : K}
    {idx : Nat} :
    search_node cmp n q = .GoDown idx ↔
      search_linear cmp q n.keysOf = (idx, false) := by
  unfold search_node
  rcases h : search_linear cmp q n.keysOf with ⟨i, b⟩
  cases b <;> simp

theorem keys_idx (kv : List (K × V)) (j : Nat) :
    (kv.map Prod.fst)[j]? = (kv[j]?).map Prod.fst := by
  simp [List.getElem?_map]

theorem listLookup_none {cmp : K → K → Ordering} {q : K} {l : List (K × V)}
    (h : ∀ x ∈ l, cmp q x.1 ≠ .eq) : listLookup cmp q l = none := by
  induction l with
  | nil => rfl
  | cons x xs ih =>
    cases x with
    | mk k w =>
      have hk := h (k, w) (by simp)
      simp only [listLookup]
      rcases hck : cmp q k with _ | _ | _
      · exact ih fun x hx => h x (by simp [hx])
      · exact absurd hck hk
      · exact ih fun x hx => h x (by simp [hx])

/-- Everything strictly left of the scan position compares below the query:
the keys by the scan, the subtrees by the ordering invariant. -/
theorem preFlat_gt {cmp : K → K → Ordering} (hc : LawfulCmp cmp) {q : K} :
    ∀ (idx : Nat) (kv : List (K × V)) (edges : List (Node K V))
      (lo hi : Option K), ordB cmp lo hi (.internal kv edges) = true →
      (∀ j < idx, ∀ pj, kv[j]? = some pj → cmp q pj.1 = .gt) →
      ∀ x ∈ preFlat kv edges idx, cmp q x.1 = .gt := by
  intro idx
  induction idx with
  | zero => intro kv edges lo hi _ _ x hx; simp [preFlat] at hx
  | succ i ih =>
    intro kv edges lo hi ho hscan x hx
    match kv, edges with
    | [], _ => simp [preFlat] at hx
    | p :: kvs, [] => simp [preFlat] at hx
    | (k, w) :: kvs, e :: es =>
      simp only [preFlat] at hx
      simp only [ordB, Bool.and_eq_true] at ho
      have hqk : cmp q k = .gt := hscan 0 (by omega) (k, w) (by simp)
      rcases List.mem_append.1 hx with hx | hx
      · have hxk := ordB_mem hc ho.1.2 x hx
        simp only [inB, Bool.and_eq_true, ordering_beq_iff] at hxk
        exact cmp_gt_trans hc hqk (cmp_gt_of_lt hc hxk.2)
      · rcases List.mem_cons.1 hx with rfl | hx
        · exact hqk
        · exact ih kvs es (some k) hi ho.2
            (fun j hj pj hpj => hscan (j + 1) (by omega) pj (by simpa using hpj))
            x hx

/-- The subtree hanging at edge `idx` lies entirely below key `idx`. -/
theorem child_lt_key {cmp : K → K → Ordering} (hc : LawfulCmp cmp) :
    ∀ (idx : Nat) (kv : List (K × V)) (edges : List (Node K V))
      (lo hi : Option K) (c : Node K V) (kI : K × V),
      ordB cmp lo hi (.internal kv edges) = true →
      edges[idx]? = some c → kv[idx]? = some kI →
      ∀ x ∈ inorder c, cmp x.1 kI.1 = .lt := by
  intro idx
  induction idx with
  | zero =>
    intro kv edges lo hi c kI ho hcc hkI x hx
    match kv, edges with
    | [], _ => simp at hkI
    | p :: kvs, [] => simp at hcc
    | (k, w) :: kvs, e :: es =>
      simp only [List.getElem?_cons_zero, Option.some.injEq] at hcc hkI
      subst hcc; subst hkI
      simp only [ordB, Bool.and_eq_true] at ho
      have := ordB_mem hc ho.1.2 x hx
      simp only [inB, Bool.and_eq_true, ordering_beq_iff] at this
      exact this.2
  | succ i ih =>
    intro kv edges lo hi c kI ho hcc hkI x hx
    match kv, edges with
    | [], _ => simp at hkI
    | p :: kvs, [] => simp at hcc
    | (k, w) :: kvs, e :: es =>
      simp only [List.getElem?_cons_succ] at hcc hkI
      simp only [ordB, Bool.and_eq_true] at ho
      exact ih kvs es (some k) hi c kI ho.2 hcc hkI x hx

/-- The suffix node formed by everything strictly right of key `idx` is
ordered with key `idx` as its lower bound. -/
theorem ordB_suffix {cmp : K → K → Ordering} :
    ∀ (idx : Nat) (kv : List (K × V)) (edges : List (Node K V))
      (lo hi : Option K) (kI : K × V),
      ordB cmp lo hi (.internal kv edges) = true → kv[idx]? = some kI →
      ordB cmp (some kI.1) hi
        (.internal (kv.drop (idx + 1)) (edges.drop (idx + 1))) = true := by
  intro idx
  induction idx with
  | zero =>
    intro kv edges lo hi kI ho hkI
    match kv, edges with
    | [], _ => simp at hkI
    | p :: kvs, [] => cases p; simp [ordB] at ho
    | (k, w) :: kvs, e :: es =>
      simp only [List.getElem?_cons_zero, Option.some.injEq] at hkI
      subst hkI
      simp only [ordB, Bool.and_eq_true] at ho
      simpa using ho.2
  | succ i ih =>
    intro kv edges lo hi kI ho hkI
    match kv, edges with
    | [], _ => simp at hkI
    | p :: kvs, [] => cases p; simp [ordB] at ho
    | (k, w) :: kvs, e :: es =>
      simp only [List.getElem?_cons_succ] at hkI
      simp only [ordB, Bool.and_eq_true] at ho
      simpa using ih kvs es (some k) hi kI ho.2 hkI

/-- Everything from key `idx` on compares above a query that is below
key `idx`. -/
theorem suffix_lt {cmp : K → K → Ordering} (hc : LawfulCmp cmp) {q : K}
    {idx : Nat} {kv : List (K × V)} {edges : List (Node K V)}
    {lo hi : Option K} {kI : K × V}
    (ho : ordB cmp lo hi (.internal kv edges) = true)
    (hkI : kv[idx]? = some kI) (hq : cmp q kI.1 = .lt) :
    ∀ x ∈ flatKV (kv.drop idx) (edges.drop (idx + 1)), cmp q x.1 = .lt := by
  intro x hx
  rw [drop_eq_cons_of_idx hkI] at hx
  rw [flatKV_cons] at hx
  rcases List.mem_cons.1 hx with rfl | hx
  · exact hq
  · have hsub := ordB_suffix idx kv edges lo hi kI ho hkI
    have := ordB_mem hc hsub x hx
    simp only [inB, Bool.and_eq_true, ordering_beq_iff] at this
    exact hc.lt_trans hq this.1

/-- The child at a reported `GoDown` edge index, with its bounds. -/
theorem ordB_child {cmp : K → K → Ordering} :
    ∀ (idx : Nat) (kv : List (K × V)) (edges : List (Node K V))
      (lo hi : Option K) (c : Node K V),
      ordB cmp lo hi (.internal kv edges) = true → edges[idx]? = some c →
      ∃ lo' hi', ordB cmp lo' hi' c = true := by
  intro idx
  induction idx with
  | zero =>
    intro kv edges lo hi c ho hcc
    match kv, edges with
    | [], [] => simp at hcc
    | [], [e] =>
      simp only [List.getElem?_cons_zero, Option.some.injEq] at hcc
      subst hcc
      simp only [ordB] at ho
      exact ⟨lo, hi, ho⟩
    | [], e :: e2 :: es => simp [ordB] at ho
    | p :: kvs, [] => simp at hcc
    | (k, w) :: kvs, e :: es =>
      simp only [List.getElem?_cons_zero, Option.some.injEq] at hcc
      subst hcc
      simp only [ordB, Bool.and_eq_true] at ho
      exact ⟨lo, some k, ho.1.2⟩
  | succ i ih =>
    intro kv edges lo hi c ho hcc
    match kv, edges with
    | [], [] => simp at hcc
    | [], [e] => simp at hcc
    | [], e :: e2 :: es => simp [ordB] at ho
    | p :: kvs, [] => simp at hcc
    | (k, w) :: kvs, e :: es =>
      simp only [List.getElem?_cons_succ] at hcc
      simp only [ordB, Bool.and_eq_true] at ho
      exact ih kvs es (some k) hi c ho.2 hcc

/-! ## Leaf-level core lemmas -/

theorem search_tree_found {cmp : K → K → Ordering} {q : K} {n : Node K V}
    {idx : Nat} (hf : search_node cmp n q = .Found idx) :
    search_tree cmp q n = .Found n idx := by
  rw [search_tree, hf]

theorem search_tree_godown_leaf {cmp : K → K → Ordering} {q : K}
    {kv : List (K × V)} {idx : Nat}
    (hg : search_node cmp (.leaf kv) q = .GoDown idx) :
    search_tree cmp q (.leaf kv) = .GoDown (.leaf kv) idx := by
  rw [search_tree, hg]

theorem search_tree_godown_desc {cmp : K → K → Ordering} {q : K}
    {kv : List (K × V)} {edges : List (Node K V)} {idx : Nat} {c : Node K V}
    (hg : search_node cmp (.internal kv edges) q = .GoDown idx)
    (hcc : edges[idx]? = some c) :
    search_tree cmp q (.internal kv edges) = search_tree cmp q c := by
  rw [search_tree, hg]
  split
  · next c2 h2 => simp at h2
  · next i2 h2 =>
      simp only [SearchRes.GoDown.injEq] at h2
      subst h2
      split
      · next c3 h3 => simp at h3
      · next kv2 edges2 h3 =>
          obtain ⟨rfl, rfl⟩ : kv = kv2 ∧ edges = edges2 := by
            injection h3 with a b
            exact ⟨a, b⟩
          split
          · next c4 h4 =>
              rw [hcc] at h4
              simp only [Option.some.injEq] at h4
              rw [h4]
          · next h4 =>
              rw [hcc] at h4
              cases h4

theorem leaf_found_core {cmp : K → K → Ordering} (hc : LawfulCmp cmp)
    {q : K} :
    ∀ (kv : List (K × V)) (idx : Nat) (lo hi : Option K),
      chainB cmp lo hi kv = true →
      search_linear cmp q (kv.map Prod.fst) = (idx, true) →
      ∃ kI : K × V, kv[idx]? = some kI ∧ cmp q kI.1 = .eq ∧
        listLookup cmp q kv = some kI.2 ∧
        ∀ v : V, kv.set idx (kI.1, v) = listInsert cmp q v kv := by
  intro kv
  induction kv with
  | nil => intro idx lo hi _ hs; simp [search_linear] at hs
  | cons p kvs ih =>
    intro idx lo hi hch hs
    cases p with
    | mk k0 w0
    =>
      simp only [List.map_cons, search_linear] at hs
      simp only [chainB, Bool.and_eq_true] at hch
      rcases hck : cmp q k0 with _ | _ | _ <;> rw [hck] at hs <;> simp at hs
      · -- eq at the head: hs : 0 = idx
        refine ⟨(k0, w0), by simp [← hs], hck, ?_, ?_⟩
        · simp [listLookup, hck]
        · intro v
          simp [← hs, listInsert, hck]
      · -- gt: recurse
        obtain ⟨h1, h2⟩ := hs
        have hsl : search_linear cmp q (kvs.map Prod.fst) =
            ((search_linear cmp q (kvs.map Prod.fst)).1, true) := by
          rw [← h2]
        obtain ⟨kI, hkI, he, hlk, hset⟩ :=
          ih (search_linear cmp q (kvs.map Prod.fst)).1 (some k0) hi hch.2 hsl
        refine ⟨kI, ?_, he, ?_, ?_⟩
        · rw [← h1]; simpa using hkI
        · simp [listLookup, hck, hlk]
        · intro v
          rw [← h1]
          simp [List.set_cons_succ, listInsert, hck, hset v]

theorem leaf_absent_core {cmp : K → K → Ordering} (hc : LawfulCmp cmp)
    {q : K} :
    ∀ (kv : List (K × V)) (idx : Nat) (lo hi : Option K),
      chainB cmp lo hi kv = true →
      search_linear cmp q (kv.map Prod.fst) = (idx, false) →
      listLookup cmp q kv = none ∧
        ∀ v : V, kv.insertIdx idx (q, v) = listInsert cmp q v kv := by
  intro kv
  induction kv with
  | nil =>
    intro idx lo hi _ hs
    simp only [List.map_nil, search_linear] at hs
    simp at hs
    refine ⟨rfl, fun v => ?_⟩
    simp [← hs, listInsert, List.insertIdx_zero]
  | cons p kvs ih =>
    intro idx lo hi hch hs
    cases p with
    | mk k0 w0
    =>
      simp only [List.map_cons, search_linear] at hs
      simp only [chainB, Bool.and_eq_true] at hch
      rcases hck : cmp q k0 with _ | _ | _ <;> rw [hck] at hs <;> simp at hs
      · -- lt at the head: hs : 0 = idx
        constructor
        · refine listLookup_none fun x hx => ?_
          rcases List.mem_cons.1 hx with rfl | hx
          · simp [hck]
          · have := chainB_mem hc hch.2 x hx
            simp only [inB, Bool.and_eq_true, ordering_beq_iff] at this
            simp [hc.lt_trans hck this.1]
        · intro v
          simp [← hs, listInsert, hck, List.insertIdx_zero]
      · -- gt: skip the head
        obtain ⟨h1, h2⟩ := hs
        have hsl : search_linear cmp q (kvs.map Prod.fst) =
            ((search_linear cmp q (kvs.map Prod.fst)).1, false) := by
          rw [← h2]
        obtain ⟨hlk, hins⟩ := ih _ (some k0) hi hch.2 hsl
        constructor
        · simp [listLookup, hck, hlk]
        · intro v
          rw [← h1]
          simp [List.insertIdx_succ_cons, listInsert, hck, hins v]

/-- The value reported by `search_tree` at a `Found` handle. -/
def foundVal : TreeRes K V → Option V
  | .Found n idx => (n.kvOf[idx]?).map Prod.snd
  | .GoDown _ _ => none

/-! ## Search correctness: `search_tree` realizes association-list lookup -/

theorem search_lookup {cmp : K → K → Ordering} (hc : LawfulCmp cmp) (q : K)
    (n : Node K V) :
    ∀ lo hi, ordB cmp lo hi n = true →
      foundVal (search_tree cmp q n) = listLookup cmp q (inorder n) := by
  induction n using search_tree.induct cmp q with
  | case1 n idx hf =>
    intro lo hi ho
    rw [search_tree_found hf]
    have hs := search_node_found.1 hf
    cases n with
    | leaf kv =>
      obtain ⟨kI, hkI, he, hlk, -⟩ :=
        leaf_found_core hc kv idx lo hi (by simpa [ordB] using ho) hs
      simp [foundVal, Node.kvOf, inorder, hkI, hlk]
    | internal kv edges =>
      have hs' : search_linear cmp q (kv.map Prod.fst) = (idx, true) := hs
      obtain ⟨kj, hkj, hqe⟩ := sl_found cmp q _ idx hs'
      rw [keys_idx] at hkj
      obtain ⟨kI, hkI, hfst⟩ : ∃ kI, kv[idx]? = some kI ∧ kI.1 = kj := by
        rcases h : kv[idx]? with _ | kI
        · rw [h] at hkj; simp at hkj
        · rw [h] at hkj; simp at hkj; exact ⟨kI, rfl, hkj⟩
      have hidxlt : idx < kv.length := by
        by_contra hge
        rw [List.getElem?_eq_none (by omega)] at hkI
        simp at hkI
      have hlen := ordB_lens kv edges ho
      obtain ⟨c, hcc⟩ : ∃ c, edges[idx]? = some c := by
        rcases h : edges[idx]? with _ | c
        · rw [List.getElem?_eq_none_iff] at h; omega
        · exact ⟨c, rfl⟩
      rw [inorder_decomp kv edges idx c hlen (by omega) hcc]
      have hscan : ∀ j < idx, ∀ pj : K × V, kv[j]? = some pj →
          cmp q pj.1 = .gt := by
        intro j hj pj hpj
        have := sl_gt_before cmp q (kv.map Prod.fst) j (by rw [hs']; exact hj)
          pj.1 (by rw [keys_idx, hpj]; rfl)
        exact this
      have hqeI : cmp q kI.1 = .eq := by rw [hfst]; exact hqe
      rw [List.append_assoc]
      rw [listLookup_append_skip q _ _ ?hpre]
      case hpre =>
        intro x hx
        have := preFlat_gt hc idx kv edges lo hi ho hscan x hx
        simp [this]
      rw [listLookup_append_skip q _ _ ?hmid]
      case hmid =>
        intro x hx
        have hxlt := child_lt_key hc idx kv edges lo hi c kI ho hcc hkI x hx
        have : cmp q x.1 = .gt := by
          have h2 : cmp kI.1 x.1 = .gt := cmp_gt_of_lt hc hxlt
          rw [hc.congr_left x.1 hqeI]
          exact h2
        simp [this]
      rw [drop_eq_cons_of_idx hkI, flatKV_cons]
      simp [listLookup, hqeI, foundVal, Node.kvOf, hkI]
  | case2 idx kv hg =>
    intro lo hi ho
    rw [search_tree_godown_leaf hg]
    have hs := search_node_godown.1 hg
    obtain ⟨hlk, -⟩ := leaf_absent_core hc kv idx lo hi
      (by simpa [ordB] using ho) hs
    simp [foundVal, inorder, hlk]
  | case3 idx kv edges c hcc hg ih =>
    intro lo hi ho
    rw [search_tree_godown_desc hg hcc]
    have hs : search_linear cmp q (kv.map Prod.fst) = (idx, false) :=
      search_node_godown.1 hg
    have hlen := ordB_lens kv edges ho
    have hidxle : idx ≤ kv.length := by
      have := sl_le cmp q (kv.map Prod.fst)
      rw [hs] at this
      simpa using this
    rw [inorder_decomp kv edges idx c hlen hidxle hcc]
    have hscan : ∀ j < idx, ∀ pj : K × V, kv[j]? = some pj →
        cmp q pj.1 = .gt := by
      intro j hj pj hpj
      exact sl_gt_before cmp q (kv.map Prod.fst) j (by rw [hs]; exact hj)
        pj.1 (by rw [keys_idx, hpj]; rfl)
    have hsuf : ∀ x ∈ flatKV (kv.drop idx) (edges.drop (idx + 1)),
        cmp q x.1 = .lt := by
      rcases sl_absent cmp q (kv.map Prod.fst) idx hs with hend | ⟨kj, hkj, hl⟩
      · intro x hx
        rw [List.drop_eq_nil_of_le (by simpa using hend.ge)] at hx
        simp [flatKV] at hx
      · rw [keys_idx] at hkj
        obtain ⟨kI, hkI, hfst⟩ : ∃ kI, kv[idx]? = some kI ∧ kI.1 = kj := by
          rcases h : kv[idx]? with _ | kI
          · rw [h] at hkj; simp at hkj
          · rw [h] at hkj; simp at hkj; exact ⟨kI, rfl, hkj⟩
        exact suffix_lt hc ho hkI (by rw [hfst]; exact hl)
    rw [List.append_assoc]
    rw [listLookup_append_skip q _ _ ?hpre]
    case hpre =>
      intro x hx
      have := preFlat_gt hc idx kv edges lo hi ho hscan x hx
      simp [this]
    rw [listLookup_append_none q _ _ ?hsuf2]
    case hsuf2 =>
      intro x hx
      have := hsuf x hx
      simp [this]
    obtain ⟨lo', hi', hoc⟩ := ordB_child idx kv edges lo hi c ho hcc
    exact ih lo' hi' hoc
  | case4 idx kv edges hnone hg =>
    intro lo hi ho
    exfalso
    have hlen := ordB_lens kv edges ho
    have hs : search_linear cmp q (kv.map Prod.fst) = (idx, false) :=
      search_node_godown.1 hg
    have hle := sl_le cmp q (kv.map Prod.fst)
    rw [hs] at hle
    simp at hle
    rw [List.getElem?_eq_none_iff] at hnone
    omega

/-! ## Splice helpers for the split algebra -/

theorem getElem_opt_append_mid (xs : List α) (y : α) (ys : List α) :
    (xs ++ y :: ys)[xs.length]? = some y := by
  induction xs with
  | nil => simp
  | cons x xs ih => simpa using ih

theorem drop_append_mid (xs : List α) (y : α) (ys : List α) :
    (xs ++ y :: ys).drop (xs.length + 1) = ys := by
  induction xs with
  | nil => simp
  | cons x xs ih => simp [ih]

theorem preFlat_set (kv : List (K × V)) (edges : List (Node K V)) (idx : Nat)
    (p' : K × V) : preFlat (kv.set idx p') edges idx = preFlat kv edges idx := by
  induction idx generalizing kv edges with
  | zero => simp [preFlat]
  | succ i ih =>
    match kv, edges with
    | [], _ => simp [preFlat]
    | p :: kvs, [] => simp [preFlat]
    | p :: kvs, e :: es => simp [preFlat, ih]

theorem set_drop_cons {l : List α} {idx : Nat} {a : α} (h : idx < l.length) :
    (l.set idx a).drop idx = a :: l.drop (idx + 1) := by
  induction l generalizing idx with
  | nil => simp at h
  | cons x xs ih =>
    cases idx with
    | zero => simp
    | succ i => simpa using ih (by simpa using h)

/-- Gluing two internal halves whose keys/edges concatenate (with a middle
key) back into one node preserves the in-order sequence. -/
theorem inorder_glue_pieces (lkv rkv : List (K × V)) (p : K × V)
    (ledges redges : List (Node K V)) (hlen : ledges.length = lkv.length + 1)
    (hrlen : redges.length = rkv.length + 1) :
    inorder (.internal lkv ledges) ++ p :: inorder (.internal rkv redges) =
      inorder (.internal (lkv ++ p :: rkv) (ledges ++ redges)) := by
  have h1 : (lkv ++ p :: rkv).take lkv.length = lkv := List.take_left lkv _
  have h2 : (lkv ++ p :: rkv)[lkv.length]? = some p := getElem_opt_append_mid _ _ _
  have h3 : (lkv ++ p :: rkv).drop (lkv.length + 1) = rkv := drop_append_mid _ _ _
  have h4 : (ledges ++ redges).take (lkv.length + 1) = ledges := by
    rw [← hlen]; exact List.take_left ledges _
  have h5 : (ledges ++ redges).drop (lkv.length + 1) = redges := by
    rw [← hlen]; exact List.drop_left ledges _
  have hln : (ledges ++ redges).length = (lkv ++ p :: rkv).length + 1 := by
    simp; omega
  have := inorder_split_glue (lkv ++ p :: rkv) (ledges ++ redges)
    lkv.length p hln h2
  rw [h1, h3, h4, h5] at this
  exact this

/-! ## The two node-level insert operations, solved -/

theorem leaf_insert_fit_eq (kv : List (K × V)) (idx : Nat) (k : K) (v : V)
    (h : kv.length < capacity) :
    leaf_insert kv idx k v = .Fit (kv.insertIdx idx (k, v)) := by
  simp [leaf_insert, h]

/-- A full leaf splits at pair `T`; the two halves with the promoted pair
between them carry exactly the shift-inserted contents, and their sizes are
`T+1`/`capacity-T-1` (new pair left) or `T`/`capacity-T` (new pair right). -/
theorem leaf_insert_split_spec (kv : List (K × V)) (idx : Nat) (k : K) (v : V)
    (hful : kv.length = capacity) (hidx : idx ≤ kv.length) :
    ∃ lkv pk pv rkv, leaf_insert kv idx k v = .Split lkv pk pv rkv ∧
      lkv ++ (pk, pv) :: rkv = kv.insertIdx idx (k, v) ∧
      (idx ≤ T → lkv.length = T + 1 ∧ rkv.length = capacity - T - 1) ∧
      (T < idx → lkv.length = T ∧ rkv.length = capacity - T) := by
  have hnot : ¬ kv.length < capacity := by omega
  have hTlt : T < kv.length := by rw [hful]; decide
  obtain ⟨p, hp⟩ : ∃ p, kv[T]? = some p := by
    rcases h : kv[T]? with _ | p
    · rw [List.getElem?_eq_none_iff] at h; omega
    · exact ⟨p, rfl⟩
  have htake : (kv.take T).length = T := by
    rw [List.length_take]; omega
  have hdrop : (kv.drop (T + 1)).length = capacity - T - 1 := by
    rw [List.length_drop]; omega
  cases p with
  | mk pk pv =>
    by_cases hle : idx ≤ T
    · refine ⟨(kv.take T).insertIdx idx (k, v), pk, pv, kv.drop (T + 1),
        ?_, ?_, ?_, ?_⟩
      · simp [leaf_insert, hnot, leaf_split, hp, hle]
      · conv_rhs => rw [take_drop_decomp hp]
        rw [insertIdx_append_left _ _ idx (k, v) (by omega)]
      · intro _
        constructor
        · rw [List.length_insertIdx _ _ (by omega)]; omega
        · exact hdrop
      · intro hgt; omega
    · refine ⟨kv.take T, pk, pv, (kv.drop (T + 1)).insertIdx (idx - T - 1) (k, v),
        ?_, ?_, ?_, ?_⟩
      · simp [leaf_insert, hnot, leaf_split, hp, hle]
      · have he1 : idx = (kv.take T).length + (idx - T) := by omega
        have he2 : idx - T = (idx - T - 1) + 1 := by omega
        conv_rhs =>
          rw [take_drop_decomp hp, he1, insertIdx_append_right, he2,
            List.insertIdx_succ_cons]
      · intro h2; omega
      · intro _
        constructor
        · exact htake
        · rw [List.length_insertIdx _ _ (by omega)]; omega

theorem internal_insert_fit_eq (kv : List (K × V)) (edges : List (Node K V))
    (idx : Nat) (k : K) (v : V) (ne : Node K V) (h : kv.length < capacity) :
    internal_insert kv edges idx k v ne =
      .Fit (kv.insertIdx idx (k, v)) (edges.insertIdx (idx + 1) ne) := by
  simp [internal_insert, h]

/-- A full internal node splits at key `T` / edge `T+1`; keys and edges of
the halves concatenate (with the promoted pair) to the shift-inserted
lists, and the halves have one more edge than keys. -/
theorem internal_insert_split_spec (kv : List (K × V))
    (edges : List (Node K V)) (idx : Nat) (k : K) (v : V) (ne : Node K V)
    (hful : kv.length = capacity) (hidx : idx ≤ kv.length)
    (helen : edges.length = kv.length + 1) :
    ∃ lkv ledges pk pv rkv redges,
      internal_insert kv edges idx k v ne = .Split lkv ledges pk pv rkv redges ∧
      lkv ++ (pk, pv) :: rkv = kv.insertIdx idx (k, v) ∧
      ledges ++ redges = edges.insertIdx (idx + 1) ne ∧
      ledges.length = lkv.length + 1 ∧ redges.length = rkv.length + 1 ∧
      (idx ≤ T → lkv.length = T + 1 ∧ rkv.length = capacity - T - 1) ∧
      (T < idx → lkv.length = T ∧ rkv.length = capacity - T) := by
  have hnot : ¬ kv.length < capacity := by omega
  have hTlt : T < kv.length := by rw [hful]; decide
  obtain ⟨p, hp⟩ : ∃ p, kv[T]? = some p := by
    rcases h : kv[T]? with _ | p
    · rw [List.getElem?_eq_none_iff] at h; omega
    · exact ⟨p, rfl⟩
  have htake : (kv.take T).length = T := by
    rw [List.length_take]; omega
  have hdrop : (kv.drop (T + 1)).length = capacity - T - 1 := by
    rw [List.length_drop]; omega
  have hetake : (edges.take (T + 1)).length = T + 1 := by
    rw [List.length_take]; omega
  have hedrop : (edges.drop (T + 1)).length = capacity - T := by
    rw [List.length_drop]; omega
  cases p with
  | mk pk pv =>
    by_cases hle : idx ≤ T
    · refine ⟨(kv.take T).insertIdx idx (k, v),
        (edges.take (T + 1)).insertIdx (idx + 1) ne, pk, pv,
        kv.drop (T + 1), edges.drop (T + 1), ?_, ?_, ?_, ?_, ?_, ?_, ?_⟩
      · simp [internal_insert, hnot, internal_split, hp, hle]
      · conv_rhs => rw [take_drop_decomp hp]
        rw [insertIdx_append_left _ _ idx (k, v) (by omega)]
      · conv_rhs => rw [← List.take_append_drop (T + 1) edges]
        rw [insertIdx_append_left _ _ (idx + 1) ne (by omega)]
      · rw [List.length_insertIdx _ _ (by omega),
          List.length_insertIdx _ _ (by omega)]
        omega
      · omega
      · intro _
        constructor
        · rw [List.length_insertIdx _ _ (by omega)]; omega
        · exact hdrop
      · intro hgt; omega
    · refine ⟨kv.take T, edges.take (T + 1), pk, pv,
        (kv.drop (T + 1)).insertIdx (idx - T - 1) (k, v),
        (edges.drop (T + 1)).insertIdx (idx - T) ne, ?_, ?_, ?_, ?_, ?_, ?_, ?_⟩
      · simp [internal_insert, hnot, internal_split, hp, hle]
      · have he1 : idx = (kv.take T).length + (idx - T) := by omega
        have he2 : idx - T = (idx - T - 1) + 1 := by omega
        conv_rhs =>
          rw [take_drop_decomp hp, he1, insertIdx_append_right, he2,
            List.insertIdx_succ_cons]
      · have he1 : idx + 1 = (edges.take (T + 1)).length + (idx - T) := by omega
        conv_rhs =>
          rw [← List.take_append_drop (T + 1) edges, he1,
            insertIdx_append_right]
      · omega
      · rw [List.length_insertIdx _ _ (by omega),
          List.length_insertIdx _ _ (by omega)]
        omega
      · intro h2; omega
      · intro _
        constructor
        · exact htake
        · rw [List.length_insertIdx _ _ (by omega)]; omega

/-! ## Unfolding `insNode` case by case -/

theorem keysOf_leaf (kv : List (K × V)) :
    (Node.leaf kv).keysOf = kv.map Prod.fst := rfl

theorem keysOf_internal (kv : List (K × V)) (edges : List (Node K V)) :
    (Node.internal kv edges).keysOf = kv.map Prod.fst := rfl

theorem insNode_leaf_found {cmp : K → K → Ordering} {k k0 : K} {v v0 : V}
    {kv : List (K × V)} {idx : Nat}
    (hs : search_linear cmp k (kv.map Prod.fst) = (idx, true))
    (hkv : kv[idx]? = some (k0, v0)) :
    insNode cmp k v (.leaf kv) = .replaced (.leaf (kv.set idx (k0, v))) v0 := by
  rw [insNode, keysOf_leaf, hs]
  show (match kv[idx]? with
    | some (k0, v0) => InsRes.replaced (Node.leaf (kv.set idx (k0, v))) v0
    | none => InsRes.fit (Node.leaf kv)) = _
  rw [hkv]

theorem insNode_leaf_godown {cmp : K → K → Ordering} {k : K} {v : V}
    {kv : List (K × V)} {idx : Nat}
    (hs : search_linear cmp k (kv.map Prod.fst) = (idx, false)) :
    insNode cmp k v (.leaf kv) =
      match leaf_insert kv idx k v with
      | .Fit kv' => .fit (.leaf kv')
      | .Split lkv pk pv rkv => .split (.leaf lkv) pk pv (.leaf rkv) := by
  rw [insNode, keysOf_leaf, hs]

theorem insNode_internal_found {cmp : K → K → Ordering} {k k0 : K} {v v0 : V}
    {kv : List (K × V)} {edges : List (Node K V)} {idx : Nat}
    (hs : search_linear cmp k (kv.map Prod.fst) = (idx, true))
    (hkv : kv[idx]? = some (k0, v0)) :
    insNode cmp k v (.internal kv edges) =
      .replaced (.internal (kv.set idx (k0, v)) edges) v0 := by
  rw [insNode, keysOf_internal, hs]
  show (match kv[idx]? with
    | some (k0, v0) =>
      InsRes.replaced (Node.internal (kv.set idx (k0, v)) edges) v0
    | none => InsRes.fit (Node.internal kv edges)) = _
  rw [hkv]

theorem insNode_internal_godown {cmp : K → K → Ordering} {k : K} {v : V}
    {kv : List (K × V)} {edges : List (Node K V)} {idx : Nat} {c : Node K V}
    (hs : search_linear cmp k (kv.map Prod.fst) = (idx, false))
    (hcc : edges[idx]? = some c) :
    insNode cmp k v (.internal kv edges) =
      match insNode cmp k v c with
      | .replaced c' old => .replaced (.internal kv (edges.set idx c')) old
      | .fit c' => .fit (.internal kv (edges.set idx c'))
      | .split cl ck cv cr =>
        match internal_insert kv (edges.set idx cl) idx ck cv cr with
        | .Fit kv' edges' => .fit (.internal kv' edges')
        | .Split lkv ledges pk pv rkv redges =>
          .split (.internal lkv ledges) pk pv (.internal rkv redges) := by
  rw [insNode, keysOf_internal, hs]
  split
  · next i2 h2 => simp at h2
  · next i2 h2 =>
      simp only [Prod.mk.injEq] at h2
      obtain ⟨h2a, -⟩ := h2
      subst h2a
      split
      · next kv2 h3 => simp at h3
      · next kv2 edges2 h3 =>
          obtain ⟨rfl, rfl⟩ : kv = kv2 ∧ edges = edges2 := by
            injection h3 with a b
            exact ⟨a, b⟩
          split
          · next c2 h4 =>
              rw [hcc] at h4
              simp only [Option.some.injEq] at h4
              subst h4
              rfl
          · next h4 =>
              rw [hcc] at h4
              cases h4

/-! ## Decomposition around the key slot at the scan index -/

theorem edge_at_idx {kv : List (K × V)} {edges : List (Node K V)} {idx : Nat}
    (hlen : edges.length = kv.length + 1) (h : idx ≤ kv.length) :
    ∃ c, edges[idx]? = some c := by
  rcases he : edges[idx]? with _ | c
  · rw [List.getElem?_eq_none_iff] at he; omega
  · exact ⟨c, rfl⟩

theorem found_key {cmp : K → K → Ordering} {q : K} {kv : List (K × V)}
    {idx : Nat} (hs : search_linear cmp q (kv.map Prod.fst) = (idx, true)) :
    ∃ kI, kv[idx]? = some kI ∧ cmp q kI.1 = .eq := by
  obtain ⟨kj, hkj, hqe⟩ := sl_found cmp q _ idx hs
  rw [keys_idx] at hkj
  rcases h : kv[idx]? with _ | kI
  · rw [h] at hkj; simp at hkj
  · rw [h] at hkj
    simp at hkj
    exact ⟨kI, rfl, by rw [hkj]; exact hqe⟩

theorem inorder_decomp_key (kv : List (K × V)) (edges : List (Node K V))
    (idx : Nat) (kI : K × V) (c : Node K V)
    (hlen : edges.length = kv.length + 1) (hkI : kv[idx]? = some kI)
    (hcc : edges[idx]? = some c) :
    inorder (.internal kv edges) =
      preFlat kv edges idx ++ inorder c ++ kI ::
        inorder (.internal (kv.drop (idx + 1)) (edges.drop (idx + 1))) := by
  have hidx : idx ≤ kv.length := by
    by_contra hh
    rw [List.getElem?_eq_none (by omega)] at hkI
    simp at hkI
  rw [inorder_decomp kv edges idx c hlen hidx hcc]
  rw [drop_eq_cons_of_idx hkI, flatKV_cons]

theorem inorder_set_key (kv : List (K × V)) (edges : List (Node K V))
    (idx : Nat) (kI : K × V) (c : Node K V) (p' : K × V)
    (hlen : edges.length = kv.length + 1) (hkI : kv[idx]? = some kI)
    (hcc : edges[idx]? = some c) :
    inorder (.internal (kv.set idx p') edges) =
      preFlat kv edges idx ++ inorder c ++ p' ::
        inorder (.internal (kv.drop (idx + 1)) (edges.drop (idx + 1))) := by
  have hidxlt : idx < kv.length := by
    by_contra hh
    rw [List.getElem?_eq_none (by omega)] at hkI
    simp at hkI
  have h1 := inorder_decomp (kv.set idx p') edges idx c
    (by rw [List.length_set]; exact hlen)
    (by rw [List.length_set]; omega) hcc
  rw [h1, preFlat_set, set_drop_cons hidxlt, flatKV_cons]

/-- Bounds of the pieces around a `GoDown` index: everything left of the
edge is below the query, everything right is above it. -/
theorem godown_bounds {cmp : K → K → Ordering} (hc : LawfulCmp cmp) {q : K}
    {kv : List (K × V)} {edges : List (Node K V)} {idx : Nat}
    {lo hi : Option K} (ho : ordB cmp lo hi (.internal kv edges) = true)
    (hs : search_linear cmp q (kv.map Prod.fst) = (idx, false)) :
    (∀ x ∈ preFlat kv edges idx, cmp q x.1 = .gt) ∧
      ∀ x ∈ flatKV (kv.drop idx) (edges.drop (idx + 1)), cmp q x.1 = .lt := by
  have hscan : ∀ j < idx, ∀ pj : K × V, kv[j]? = some pj →
      cmp q pj.1 = .gt := by
    intro j hj pj hpj
    exact sl_gt_before cmp q (kv.map Prod.fst) j (by rw [hs]; exact hj)
      pj.1 (by rw [keys_idx, hpj]; rfl)
  refine ⟨preFlat_gt hc idx kv edges lo hi ho hscan, ?_⟩
  rcases sl_absent cmp q (kv.map Prod.fst) idx hs with hend | ⟨kj, hkj, hl⟩
  · intro x hx
    rw [List.drop_eq_nil_of_le (by simpa using hend.ge)] at hx
    simp [flatKV] at hx
  · rw [keys_idx] at hkj
    obtain ⟨kI, hkI, hfst⟩ : ∃ kI : K × V, kv[idx]? = some kI ∧ kI.1 = kj := by
      rcases h : kv[idx]? with _ | kI
      · rw [h] at hkj; simp at hkj
      · rw [h] at hkj; simp at hkj; exact ⟨kI, rfl, hkj⟩
    exact suffix_lt hc ho hkI (by rw [hfst]; exact hl)

/-- Bounds of the pieces around a `Found` index: everything strictly left
of the key slot is below the query, everything strictly right is above. -/
theorem found_bounds {cmp : K → K → Ordering} (hc : LawfulCmp cmp) {q : K}
    {kv : List (K × V)} {edges : List (Node K V)} {idx : Nat} {kI : K × V}
    {c : Node K V} {lo hi : Option K}
    (ho : ordB cmp lo hi (.internal kv edges) = true)
    (hs : search_linear cmp q (kv.map Prod.fst) = (idx, true))
    (hkI : kv[idx]? = some kI) (hcc : edges[idx]? = some c) :
    cmp q kI.1 = .eq ∧
      (∀ x ∈ preFlat kv edges idx ++ inorder c, cmp q x.1 = .gt) ∧
      ∀ x ∈ inorder (Node.internal (kv.drop (idx + 1)) (edges.drop (idx + 1))),
        cmp q x.1 = .lt := by
  obtain ⟨kI', hkI', hqe⟩ := found_key hs
  rw [hkI'] at hkI
  simp only [Option.some.injEq] at hkI
  subst hkI
  have hscan : ∀ j < idx, ∀ pj : K × V, kv[j]? = some pj →
      cmp q pj.1 = .gt := by
    intro j hj pj hpj
    exact sl_gt_before cmp q (kv.map Prod.fst) j (by rw [hs]; exact hj)
      pj.1 (by rw [keys_idx, hpj]; rfl)
  refine ⟨hqe, ?_, ?_⟩
  · intro x hx
    rcases List.mem_append.1 hx with hx | hx
    · exact preFlat_gt hc idx kv edges lo hi ho hscan x hx
    · have hxlt := child_lt_key hc idx kv edges lo hi c kI' ho hcc hkI' x hx
      rw [hc.congr_left x.1 hqe]
      exact cmp_gt_of_lt hc hxlt
  · intro x hx
    have hsub := ordB_suffix idx kv edges lo hi kI' ho hkI'
    have := ordB_mem hc hsub x hx
    simp only [inB, Bool.and_eq_true, ordering_beq_iff] at this
    exact cmp_lt_of_eq_lt hc hqe this.1

/-! ## Combined skip lemmas and one-level unfoldings -/

theorem skip_stop_insert {cmp : K → K → Ordering} (q : K) (v : V)
    (xs M zs : List (K × V)) (hpre : ∀ x ∈ xs, cmp q x.1 = .gt)
    (hsuf : ∀ y ∈ zs, cmp q y.1 = .lt) :
    listInsert cmp q v ((xs ++ M) ++ zs) = (xs ++ listInsert cmp q v M) ++ zs := by
  rw [List.append_assoc, listInsert_append_skip q v _ _ hpre,
    listInsert_append_stop q v _ _ hsuf, ← List.append_assoc]

theorem skip_none_lookup {cmp : K → K → Ordering} (q : K)
    (xs M zs : List (K × V)) (hpre : ∀ x ∈ xs, cmp q x.1 = .gt)
    (hsuf : ∀ y ∈ zs, cmp q y.1 = .lt) :
    listLookup cmp q ((xs ++ M) ++ zs) = listLookup cmp q M := by
  rw [List.append_assoc, listLookup_append_skip q _ _
      (fun x hx => by simp [hpre x hx]),
    listLookup_append_none q _ _ (fun y hy => by simp [hsuf y hy])]

theorem skip_insert_found {cmp : K → K → Ordering} (q : K) (v : V) (k0 : K)
    (w0 : V) (xs zs : List (K × V)) (hpre : ∀ x ∈ xs, cmp q x.1 = .gt)
    (hqe : cmp q k0 = .eq) :
    listInsert cmp q v (xs ++ (k0, w0) :: zs) = xs ++ (k0, v) :: zs := by
  rw [listInsert_append_skip q v _ _ hpre]
  simp [listInsert, hqe]

theorem skip_lookup_found {cmp : K → K → Ordering} (q : K) (k0 : K)
    (w0 : V) (xs zs : List (K × V)) (hpre : ∀ x ∈ xs, cmp q x.1 = .gt)
    (hqe : cmp q k0 = .eq) :
    listLookup cmp q (xs ++ (k0, w0) :: zs) = some w0 := by
  rw [listLookup_append_skip q _ _ (fun x hx => by simp [hpre x hx])]
  simp [listLookup, hqe]

theorem insNode_internal_godown_replaced {cmp : K → K → Ordering} {k : K}
    {v : V} {kv : List (K × V)} {edges : List (Node K V)} {idx : Nat}
    {c c' : Node K V} {old : V}
    (hs : search_linear cmp k (kv.map Prod.fst) = (idx, false))
    (hcc : edges[idx]? = some c)
    (hin : insNode cmp k v c = .replaced c' old) :
    insNode cmp k v (.internal kv edges) =
      .replaced (.internal kv (edges.set idx c')) old := by
  rw [insNode_internal_godown hs hcc, hin]

theorem insNode_internal_godown_fit {cmp : K → K → Ordering} {k : K}
    {v : V} {kv : List (K × V)} {edges : List (Node K V)} {idx : Nat}
    {c c' : Node K V}
    (hs : search_linear cmp k (kv.map Prod.fst) = (idx, false))
    (hcc : edges[idx]? = some c) (hin : insNode cmp k v c = .fit c') :
    insNode cmp k v (.internal kv edges) =
      .fit (.internal kv (edges.set idx c')) := by
  rw [insNode_internal_godown hs hcc, hin]

theorem insNode_internal_godown_split {cmp : K → K → Ordering} {k : K}
    {v : V} {kv : List (K × V)} {edges : List (Node K V)} {idx : Nat}
    {c cl cr : Node K V} {ck : K} {cv : V}
    (hs : search_linear cmp k (kv.map Prod.fst) = (idx, false))
    (hcc : edges[idx]? = some c)
    (hin : insNode cmp k v c = .split cl ck cv cr) :
    insNode cmp k v (.internal kv edges) =
      match internal_insert kv (edges.set idx cl) idx ck cv cr with
      | .Fit kv' edges' => .fit (.internal kv' edges')
      | .Split lkv ledges pk pv rkv redges =>
        .split (.internal lkv ledges) pk pv (.internal rkv redges) := by
  rw [insNode_internal_godown hs hcc, hin]

/-! ## Insert correctness: `insNode` realizes association-list insertion -/

theorem ins_flat {cmp : K → K → Ordering} (hc : LawfulCmp cmp) (k : K) (v : V) :
    ∀ (n : Node K V) (lo hi : Option K), ordB cmp lo hi n = true →
      capB n = true →
      flatRes (insNode cmp k v n) = listInsert cmp k v (inorder n) ∧
      oldRes (insNode cmp k v n) = listLookup cmp k (inorder n) := by
  intro n
  induction n using insNode.induct cmp k v with
  | case1 idx kv k0 v0 hkv hs =>
    intro lo hi ho hcap
    rw [keysOf_leaf] at hs
    rw [insNode_leaf_found hs hkv]
    have hch : chainB cmp lo hi kv = true := by simpa [ordB] using ho
    obtain ⟨kI, hkI, he, hlk, hset⟩ := leaf_found_core hc kv idx lo hi hch hs
    rw [hkv] at hkI
    simp only [Option.some.injEq] at hkI
    subst hkI
    constructor
    · simpa [flatRes, inorder] using hset v
    · simp [oldRes, inorder, hlk]
  | case2 idx kv hkv hs =>
    intro lo hi ho hcap
    rw [keysOf_leaf] at hs
    obtain ⟨kI, hkI, -⟩ := found_key hs
    rw [hkv] at hkI
    cases hkI
  | case3 idx kv edges k0 v0 hkv hs =>
    intro lo hi ho hcap
    rw [keysOf_internal] at hs
    rw [insNode_internal_found hs hkv]
    have hlen := ordB_lens kv edges ho
    have hidxlt : idx < kv.length := by
      by_contra hh
      rw [List.getElem?_eq_none (by omega)] at hkv
      simp at hkv
    obtain ⟨c, hcc⟩ := edge_at_idx hlen (Nat.le_of_lt hidxlt)
    obtain ⟨hqe, hpre, hsuf⟩ := found_bounds hc ho hs hkv hcc
    have hqe' : cmp k k0 = .eq := hqe
    have hdec := inorder_decomp_key kv edges idx (k0, v0) c hlen hkv hcc
    have hdec2 := inorder_set_key kv edges idx (k0, v0) c (k0, v) hlen hkv hcc
    constructor
    · simp only [flatRes]
      rw [hdec2, hdec, skip_insert_found k v k0 v0 _ _ hpre hqe']
    · simp only [oldRes]
      rw [hdec, skip_lookup_found k k0 v0 _ _ hpre hqe']
  | case4 idx kv edges hkv hs =>
    intro lo hi ho hcap
    rw [keysOf_internal] at hs
    obtain ⟨kI, hkI, -⟩ := found_key hs
    rw [hkv] at hkI
    cases hkI
  | case5 idx kv kv' hli hs =>
    intro lo hi ho hcap
    rw [keysOf_leaf] at hs
    rw [insNode_leaf_godown hs, hli]
    have hch : chainB cmp lo hi kv = true := by simpa [ordB] using ho
    obtain ⟨hlk, hins⟩ := leaf_absent_core hc kv idx lo hi hch hs
    have hkv' : kv' = kv.insertIdx idx (k, v) := by
      by_cases hlt : kv.length < capacity
      · rw [leaf_insert_fit_eq kv idx k v hlt] at hli
        injection hli with h
        exact h.symm
      · have hful : kv.length = capacity := by
          have h2 : kv.length ≤ capacity := by simpa [capB] using hcap
          omega
        have hidxle : idx ≤ kv.length := by
          have h2 := sl_le cmp k (kv.map Prod.fst)
          rw [hs] at h2
          simpa using h2
        obtain ⟨lkv, pk, pv, rkv, heq, -⟩ :=
          leaf_insert_split_spec kv idx k v hful hidxle
        rw [heq] at hli
        cases hli
    subst hkv'
    constructor
    · simpa [flatRes, inorder] using hins v
    · simp [oldRes, inorder, hlk]
  | case6 idx kv lkv pk pv rkv hli hs =>
    intro lo hi ho hcap
    rw [keysOf_leaf] at hs
    rw [insNode_leaf_godown hs, hli]
    have hch : chainB cmp lo hi kv = true := by simpa [ordB] using ho
    obtain ⟨hlk, hins⟩ := leaf_absent_core hc kv idx lo hi hch hs
    have hful : kv.length = capacity := by
      by_cases hlt : kv.length < capacity
      · rw [leaf_insert_fit_eq kv idx k v hlt] at hli
        cases hli
      · have h2 : kv.length ≤ capacity := by simpa [capB] using hcap
        omega
    have hidxle : idx ≤ kv.length := by
      have h2 := sl_le cmp k (kv.map Prod.fst)
      rw [hs] at h2
      simpa using h2
    obtain ⟨lkv2, pk2, pv2, rkv2, heq, hflat, -, -⟩ :=
      leaf_insert_split_spec kv idx k v hful hidxle
    rw [heq] at hli
    obtain ⟨rfl, rfl, rfl, rfl⟩ :
        lkv2 = lkv ∧ pk2 = pk ∧ pv2 = pv ∧ rkv2 = rkv := by
      injection hli with a b c d
      exact ⟨a, b, c, d⟩
    constructor
    · simp only [flatRes, inorder]
      rw [hflat, hins v]
    · simp [oldRes, inorder, hlk]
  | case7 idx kv edges c hcc c' old hin hs ih =>
    intro lo hi ho hcap
    rw [keysOf_internal] at hs
    rw [insNode_internal_godown_replaced hs hcc hin]
    have hlen := ordB_lens kv edges ho
    obtain ⟨lo', hi', hoc⟩ := ordB_child idx kv edges lo hi c ho hcc
    have hcapc : capB c = true :=
      ((capB_iff kv edges).1 hcap).2 c (mem_of_idx hcc)
    obtain ⟨ihf, iho⟩ := ih lo' hi' hoc hcapc
    rw [hin] at ihf iho
    simp only [flatRes, oldRes] at ihf iho
    obtain ⟨hpre, hsuf⟩ := godown_bounds hc ho hs
    have hidxle : idx ≤ kv.length := by
      have h2 := sl_le cmp k (kv.map Prod.fst)
      rw [hs] at h2
      simpa using h2
    have hdec := inorder_decomp kv edges idx c hlen hidxle hcc
    have hdec2 := inorder_set_child kv edges idx c' hlen hidxle
    constructor
    · simp only [flatRes]
      rw [hdec2, hdec, skip_stop_insert k v _ _ _ hpre hsuf, ihf]
    · simp only [oldRes]
      rw [hdec, skip_none_lookup k _ _ _ hpre hsuf, iho]
  | case8 idx kv edges c hcc c' hin hs ih =>
    intro lo hi ho hcap
    rw [keysOf_internal] at hs
    rw [insNode_internal_godown_fit hs hcc hin]
    have hlen := ordB_lens kv edges ho
    obtain ⟨lo', hi', hoc⟩ := ordB_child idx kv edges lo hi c ho hcc
    have hcapc : capB c = true :=
      ((capB_iff kv edges).1 hcap).2 c (mem_of_idx hcc)
    obtain ⟨ihf, iho⟩ := ih lo' hi' hoc hcapc
    rw [hin] at ihf iho
    simp only [flatRes, oldRes] at ihf iho
    obtain ⟨hpre, hsuf⟩ := godown_bounds hc ho hs
    have hidxle : idx ≤ kv.length := by
      have h2 := sl_le cmp k (kv.map Prod.fst)
      rw [hs] at h2
      simpa using h2
    have hdec := inorder_decomp kv edges idx c hlen hidxle hcc
    have hdec2 := inorder_set_child kv edges idx c' hlen hidxle
    constructor
    · simp only [flatRes]
      rw [hdec2, hdec, skip_stop_insert k v _ _ _ hpre hsuf, ihf]
    · simp only [oldRes]
      rw [hdec, skip_none_lookup k _ _ _ hpre hsuf, iho]
  | case9 idx kv edges c hcc cl ck cv cr hin kv' edges' hii hs ih =>
    intro lo hi ho hcap
    rw [keysOf_internal] at hs
    rw [insNode_internal_godown_split hs hcc hin, hii]
    have hlen := ordB_lens kv edges ho
    obtain ⟨lo', hi', hoc⟩ := ordB_child idx kv edges lo hi c ho hcc
    have hcapc : capB c = true :=
      ((capB_iff kv edges).1 hcap).2 c (mem_of_idx hcc)
    obtain ⟨ihf, iho⟩ := ih lo' hi' hoc hcapc
    rw [hin] at ihf iho
    simp only [flatRes, oldRes] at ihf iho
    obtain ⟨hpre, hsuf⟩ := godown_bounds hc ho hs
    have hidxle : idx ≤ kv.length := by
      have h2 := sl_le cmp k (kv.map Prod.fst)
      rw [hs] at h2
      simpa using h2
    have hdec := inorder_decomp kv edges idx c hlen hidxle hcc
    obtain ⟨hkv', hedges'⟩ :
        kv' = kv.insertIdx idx (ck, cv) ∧
          edges' = (edges.set idx cl).insertIdx (idx + 1) cr := by
      by_cases hlt : kv.length < capacity
      · rw [internal_insert_fit_eq _ _ idx ck cv cr hlt] at hii
        injection hii with a b
        exact ⟨a.symm, b.symm⟩
      · have hful : kv.length = capacity := by
          have h2 : kv.length ≤ capacity := ((capB_iff kv edges).1 hcap).1
          omega
        obtain ⟨l1, l2, l3, l4, l5, l6, heq, -⟩ :=
          internal_insert_split_spec kv (edges.set idx cl) idx ck cv cr hful
            hidxle (by rw [List.length_set]; exact hlen)
        rw [heq] at hii
        cases hii
    subst hkv'
    subst hedges'
    have hdec2 := inorder_ins_child kv edges idx (ck, cv) cl cr hlen hidxle
    constructor
    · simp only [flatRes]
      rw [hdec2, hdec, skip_stop_insert k v _ _ _ hpre hsuf, ihf]
    · simp only [oldRes]
      rw [hdec, skip_none_lookup k _ _ _ hpre hsuf, iho]
  | case10 idx kv edges c hcc cl ck cv cr hin lkv ledges pk pv rkv redges hii hs ih =>
    intro lo hi ho hcap
    rw [keysOf_internal] at hs
    rw [insNode_internal_godown_split hs hcc hin, hii]
    have hlen := ordB_lens kv edges ho
    obtain ⟨lo', hi', hoc⟩ := ordB_child idx kv edges lo hi c ho hcc
    have hcapc : capB c = true :=
      ((capB_iff kv edges).1 hcap).2 c (mem_of_idx hcc)
    obtain ⟨ihf, iho⟩ := ih lo' hi' hoc hcapc
    rw [hin] at ihf iho
    simp only [flatRes, oldRes] at ihf iho
    obtain ⟨hpre, hsuf⟩ := godown_bounds hc ho hs
    have hidxle : idx ≤ kv.length := by
      have h2 := sl_le cmp k (kv.map Prod.fst)
      rw [hs] at h2
      simpa using h2
    have hdec := inorder_decomp kv edges idx c hlen hidxle hcc
    have hful : kv.length = capacity := by
      by_cases hlt : kv.length < capacity
      · rw [internal_insert_fit_eq _ _ idx ck cv cr hlt] at hii
        cases hii
      · have h2 : kv.length ≤ capacity := ((capB_iff kv edges).1 hcap).1
        omega
    obtain ⟨l1, e1, p1, p2, l2, e2, heq, hkflat, heflat, hllen, hrlen, -, -⟩ :=
      internal_insert_split_spec kv (edges.set idx cl) idx ck cv cr hful
        hidxle (by rw [List.length_set]; exact hlen)
    rw [heq] at hii
    obtain ⟨rfl, rfl, rfl, rfl, rfl, rfl⟩ :
        l1 = lkv ∧ e1 = ledges ∧ p1 = pk ∧ p2 = pv ∧ l2 = rkv ∧
          e2 = redges := by
      injection hii with a b c2 d e f
      exact ⟨a, b, c2, d, e, f⟩
    have hdec2 := inorder_ins_child kv edges idx (ck, cv) cl cr hlen hidxle
    constructor
    · simp only [flatRes]
      rw [inorder_glue_pieces l1 l2 (p1, p2) e1 e2 hllen hrlen]
      rw [hkflat, heflat, hdec2, hdec, skip_stop_insert k v _ _ _ hpre hsuf,
        ihf]
    · simp only [oldRes]
      rw [hdec, skip_none_lookup k _ _ _ hpre hsuf, iho]
  | case11 idx kv edges hcc hs =>
    intro lo hi ho hcap
    exfalso
    have hlen := ordB_lens kv edges ho
    rw [keysOf_internal] at hs
    have h2 := sl_le cmp k (kv.map Prod.fst)
    rw [hs] at h2
    simp at h2
    rw [List.getElem?_eq_none_iff] at hcc
    omega

/-! ## Inversion of the node-level insert outcomes -/

theorem leaf_fit_inv {kv kv' : List (K × V)} {idx : Nat} {k : K} {v : V}
    (hli : leaf_insert kv idx k v = .Fit kv') (hcap : kv.length ≤ capacity)
    (hidx : idx ≤ kv.length) :
    kv' = kv.insertIdx idx (k, v) ∧ kv.length < capacity := by
  by_cases hlt : kv.length < capacity
  · rw [leaf_insert_fit_eq kv idx k v hlt] at hli
    injection hli with h
    exact ⟨h.symm, hlt⟩
  · have hful : kv.length = capacity := by omega
    obtain ⟨lkv, pk, pv, rkv, heq, -⟩ :=
      leaf_insert_split_spec kv idx k v hful hidx
    rw [heq] at hli
    cases hli

theorem leaf_split_inv {kv lkv rkv : List (K × V)} {idx : Nat} {k pk : K}
    {v pv : V} (hli : leaf_insert kv idx k v = .Split lkv pk pv rkv)
    (hcap : kv.length ≤ capacity) (hidx : idx ≤ kv.length) :
    kv.length = capacity ∧
      lkv ++ (pk, pv) :: rkv = kv.insertIdx idx (k, v) ∧
      T ≤ lkv.length ∧ lkv.length ≤ T + 1 ∧
      T - 2 ≤ rkv.length ∧ rkv.length ≤ T - 1 := by
  have hful : kv.length = capacity := by
    by_cases hlt : kv.length < capacity
    · rw [leaf_insert_fit_eq kv idx k v hlt] at hli
      cases hli
    · omega
  obtain ⟨lkv2, pk2, pv2, rkv2, heq, hflat, hb1, hb2⟩ :=
    leaf_insert_split_spec kv idx k v hful hidx
  rw [heq] at hli
  obtain ⟨rfl, rfl, rfl, rfl⟩ :
      lkv2 = lkv ∧ pk2 = pk ∧ pv2 = pv ∧ rkv2 = rkv := by
    injection hli with a b c d
    exact ⟨a, b, c, d⟩
  refine ⟨hful, hflat, ?_⟩
  by_cases hle : idx ≤ T
  · obtain ⟨ha, hb⟩ := hb1 hle
    refine ⟨by omega, by omega, by rw [hb]; decide, by rw [hb]; decide⟩
  · obtain ⟨ha, hb⟩ := hb2 (by omega)
    refine ⟨by omega, by omega, by rw [hb]; decide, by rw [hb]; decide⟩

theorem internal_fit_inv {kv kv' : List (K × V)}
    {edges edges' : List (Node K V)} {idx : Nat} {k : K} {v : V}
    {ne : Node K V} (hii : internal_insert kv edges idx k v ne = .Fit kv' edges')
    (hcap : kv.length ≤ capacity) (hidx : idx ≤ kv.length)
    (helen : edges.length = kv.length + 1) :
    kv' = kv.insertIdx idx (k, v) ∧ edges' = edges.insertIdx (idx + 1) ne ∧
      kv.length < capacity := by
  by_cases hlt : kv.length < capacity
  · rw [internal_insert_fit_eq kv edges idx k v ne hlt] at hii
    injection hii with a b
    exact ⟨a.symm, b.symm, hlt⟩
  · have hful : kv.length = capacity := by omega
    obtain ⟨l1, e1, p1, p2, l2, e2, heq, -⟩ :=
      internal_insert_split_spec kv edges idx k v ne hful hidx helen
    rw [heq] at hii
    cases hii

theorem internal_split_inv {kv lkv rkv : List (K × V)}
    {edges ledges redges : List (Node K V)} {idx : Nat} {k pk : K} {v pv : V}
    {ne : Node K V}
    (hii : internal_insert kv edges idx k v ne = .Split lkv ledges pk pv rkv redges)
    (hcap : kv.length ≤ capacity) (hidx : idx ≤ kv.length)
    (helen : edges.length = kv.length + 1) :
    kv.length = capacity ∧
      lkv ++ (pk, pv) :: rkv = kv.insertIdx idx (k, v) ∧
      ledges ++ redges = edges.insertIdx (idx + 1) ne ∧
      ledges.length = lkv.length + 1 ∧ redges.length = rkv.length + 1 ∧
      T ≤ lkv.length ∧ lkv.length ≤ T + 1 ∧
      T - 2 ≤ rkv.length ∧ rkv.length ≤ T - 1 := by
  have hful : kv.length = capacity := by
    by_cases hlt : kv.length < capacity
    · rw [internal_insert_fit_eq kv edges idx k v ne hlt] at hii
      cases hii
    · omega
  obtain ⟨l1, e1, p1, p2, l2, e2, heq, hkflat, heflat, hll, hrl, hb1, hb2⟩ :=
    internal_insert_split_spec kv edges idx k v ne hful hidx helen
  rw [heq] at hii
  obtain ⟨rfl, rfl, rfl, rfl, rfl, rfl⟩ :
      l1 = lkv ∧ e1 = ledges ∧ p1 = pk ∧ p2 = pv ∧ l2 = rkv ∧ e2 = redges := by
    injection hii with a b c d e f
    exact ⟨a, b, c, d, e, f⟩
  refine ⟨hful, hkflat, heflat, hll, hrl, ?_⟩
  by_cases hle : idx ≤ T
  · obtain ⟨ha, hb⟩ := hb1 hle
    refine ⟨by omega, by omega, by rw [hb]; decide, by rw [hb]; decide⟩
  · obtain ⟨ha, hb⟩ := hb2 (by omega)
    refine ⟨by omega, by omega, by rw [hb]; decide, by rw [hb]; decide⟩

/-- Membership in the edge list after replacing child `idx` with `cl` and
inserting `cr` at `idx + 1`. -/
theorem mem_new_edges {edges : List (Node K V)} {idx : Nat} {cl cr e : Node K V}
    (hidx : idx + 1 ≤ edges.length)
    (he : e ∈ (edges.set idx cl).insertIdx (idx + 1) cr) :
    e = cl ∨ e = cr ∨ e ∈ edges := by
  rw [List.mem_insertIdx (by rw [List.length_set]; omega)] at he
  rcases he with rfl | he
  · right; left; rfl
  · rcases List.mem_or_eq_of_mem_set he with he | rfl
    · right; right; exact he
    · left; rfl

/-! ## Preservation of shape and capacity -/

/-- Lift a node predicate over an insertion outcome. -/
def ResOk (P : Node K V → Prop) : InsRes K V → Prop
  | .replaced t _ => P t
  | .fit t => P t
  | .split l _ _ r => P l ∧ P r

theorem ins_shaped_cap (cmp : K → K → Ordering) (k : K) (v : V) :
    ∀ (n : Node K V) (h : Nat), shapedB n h = true → capB n = true →
      ResOk (fun t => shapedB t h = true ∧ capB t = true)
        (insNode cmp k v n) := by
  intro n
  induction n using insNode.induct cmp k v with
  | case1 idx kv k0 v0 hkv hs =>
    intro h hsh hcap
    rw [keysOf_leaf] at hs
    rw [insNode_leaf_found hs hkv]
    simp only [ResOk]
    constructor
    · simpa [shapedB] using hsh
    · simpa [capB] using hcap
  | case2 idx kv hkv hs =>
    intro h hsh hcap
    rw [keysOf_leaf] at hs
    obtain ⟨kI, hkI, -⟩ := found_key hs
    rw [hkv] at hkI
    cases hkI
  | case3 idx kv edges k0 v0 hkv hs =>
    intro h hsh hcap
    rw [keysOf_internal] at hs
    rw [insNode_internal_found hs hkv]
    simp only [ResOk]
    cases h with
    | zero => simp [shapedB] at hsh
    | succ h' =>
      rw [shapedB_iff] at hsh ⊢
      rw [capB_iff] at hcap ⊢
      exact ⟨⟨by rw [List.length_set]; exact hsh.1, hsh.2⟩,
        ⟨by rw [List.length_set]; exact hcap.1, hcap.2⟩⟩
  | case4 idx kv edges hkv hs =>
    intro h hsh hcap
    rw [keysOf_internal] at hs
    obtain ⟨kI, hkI, -⟩ := found_key hs
    rw [hkv] at hkI
    cases hkI
  | case5 idx kv kv' hli hs =>
    intro h hsh hcap
    rw [keysOf_leaf] at hs
    rw [insNode_leaf_godown hs, hli]
    simp only [ResOk]
    have hcap' : kv.length ≤ capacity := by simpa [capB] using hcap
    have hidx : idx ≤ kv.length := by
      have h2 := sl_le cmp k (kv.map Prod.fst)
      rw [hs] at h2
      simpa using h2
    obtain ⟨rfl, hlt⟩ := leaf_fit_inv hli hcap' hidx
    constructor
    · simpa [shapedB] using hsh
    · simp only [capB, decide_eq_true_eq]
      have h3 := List.length_insertIdx_le_succ kv (k, v) idx
      omega
  | case6 idx kv lkv pk pv rkv hli hs =>
    intro h hsh hcap
    rw [keysOf_leaf] at hs
    rw [insNode_leaf_godown hs, hli]
    simp only [ResOk]
    have hcap' : kv.length ≤ capacity := by simpa [capB] using hcap
    have hidx : idx ≤ kv.length := by
      have h2 := sl_le cmp k (kv.map Prod.fst)
      rw [hs] at h2
      simpa using h2
    obtain ⟨hful, hflat, hb1, hb2, hb3, hb4⟩ := leaf_split_inv hli hcap' hidx
    have hsh0 : h = 0 := by simpa [shapedB] using hsh
    subst hsh0
    refine ⟨⟨by simp [shapedB], ?_⟩, by simp [shapedB], ?_⟩ <;>
      · simp only [capB, decide_eq_true_eq]
        simp only [T, capacity] at *
        omega
  | case7 idx kv edges c hcc c' old hin hs ih =>
    intro h hsh hcap
    rw [keysOf_internal] at hs
    rw [insNode_internal_godown_replaced hs hcc hin]
    simp only [ResOk]
    cases h with
    | zero => simp [shapedB] at hsh
    | succ h' =>
      rw [shapedB_iff] at hsh ⊢
      rw [capB_iff] at hcap ⊢
      have hmemc := mem_of_idx hcc
      have ihc := ih h' (hsh.2 c hmemc) (hcap.2 c hmemc)
      rw [hin] at ihc
      simp only [ResOk] at ihc
      refine ⟨⟨by rw [List.length_set]; exact hsh.1, ?_⟩, ⟨hcap.1, ?_⟩⟩
      · intro e he
        rcases List.mem_or_eq_of_mem_set he with he | rfl
        · exact hsh.2 e he
        · exact ihc.1
      · intro e he
        rcases List.mem_or_eq_of_mem_set he with he | rfl
        · exact hcap.2 e he
        · exact ihc.2
  | case8 idx kv edges c hcc c' hin hs ih =>
    intro h hsh hcap
    rw [keysOf_internal] at hs
    rw [insNode_internal_godown_fit hs hcc hin]
    simp only [ResOk]
    cases h with
    | zero => simp [shapedB] at hsh
    | succ h' =>
      rw [shapedB_iff] at hsh ⊢
      rw [capB_iff] at hcap ⊢
      have hmemc := mem_of_idx hcc
      have ihc := ih h' (hsh.2 c hmemc) (hcap.2 c hmemc)
      rw [hin] at ihc
      simp only [ResOk] at ihc
      refine ⟨⟨by rw [List.length_set]; exact hsh.1, ?_⟩, ⟨hcap.1, ?_⟩⟩
      · intro e he
        rcases List.mem_or_eq_of_mem_set he with he | rfl
        · exact hsh.2 e he
        · exact ihc.1
      · intro e he
        rcases List.mem_or_eq_of_mem_set he with he | rfl
        · exact hcap.2 e he
        · exact ihc.2
  | case9 idx kv edges c hcc cl ck cv cr hin kv' edges' hii hs ih =>
    intro h hsh hcap
    rw [keysOf_internal] at hs
    rw [insNode_internal_godown_split hs hcc hin, hii]
    simp only [ResOk]
    cases h with
    | zero => simp [shapedB] at hsh
    | succ h' =>
      rw [shapedB_iff] at hsh
      rw [capB_iff] at hcap
      have hmemc := mem_of_idx hcc
      have ihc := ih h' (hsh.2 c hmemc) (hcap.2 c hmemc)
      rw [hin] at ihc
      simp only [ResOk] at ihc
      have hidx : idx ≤ kv.length := by
        have h2 := sl_le cmp k (kv.map Prod.fst)
        rw [hs] at h2
        simpa using h2
      obtain ⟨rfl, rfl, hlt⟩ := internal_fit_inv hii hcap.1 hidx
        (by rw [List.length_set]; exact hsh.1)
      rw [shapedB_iff, capB_iff]
      have hlen1 : ((edges.set idx cl).insertIdx (idx + 1) cr).length =
          edges.length + 1 := by
        rw [List.length_insertIdx (idx + 1) (edges.set idx cl)
          (by rw [List.length_set]; omega), List.length_set]
      have hlen2 : (kv.insertIdx idx (ck, cv)).length = kv.length + 1 :=
        List.length_insertIdx idx kv (by omega)
      constructor
      · constructor
        · rw [hlen1, hlen2]
          omega
        · intro e he
          rcases mem_new_edges (by omega) he with rfl | rfl | he
          · exact ihc.1.1
          · exact ihc.2.1
          · exact hsh.2 e he
      · constructor
        · rw [hlen2]
          omega
        · intro e he
          rcases mem_new_edges (by omega) he with rfl | rfl | he
          · exact ihc.1.2
          · exact ihc.2.2
          · exact hcap.2 e he
  | case10 idx kv edges c hcc cl ck cv cr hin lkv ledges pk pv rkv redges hii hs ih =>
    intro h hsh hcap
    rw [keysOf_internal] at hs
    rw [insNode_internal_godown_split hs hcc hin, hii]
    simp only [ResOk]
    cases h with
    | zero => simp [shapedB] at hsh
    | succ h' =>
      rw [shapedB_iff] at hsh
      rw [capB_iff] at hcap
      have hmemc := mem_of_idx hcc
      have ihc := ih h' (hsh.2 c hmemc) (hcap.2 c hmemc)
      rw [hin] at ihc
      simp only [ResOk] at ihc
      have hidx : idx ≤ kv.length := by
        have h2 := sl_le cmp k (kv.map Prod.fst)
        rw [hs] at h2
        simpa using h2
      obtain ⟨hful, hkflat, heflat, hll, hrl, hb1, hb2, hb3, hb4⟩ :=
        internal_split_inv hii hcap.1 hidx (by rw [List.length_set]; exact hsh.1)
      have hedgemem : ∀ e, e ∈ ledges ++ redges →
          e = cl ∨ e = cr ∨ e ∈ edges := by
        intro e he
        rw [heflat] at he
        exact mem_new_edges (by omega) he
      refine ⟨⟨?_, ?_⟩, ?_, ?_⟩
      · rw [shapedB_iff]
        refine ⟨hll, fun e he => ?_⟩
        rcases hedgemem e (List.mem_append.2 (Or.inl he)) with rfl | rfl | he2
        · exact ihc.1.1
        · exact ihc.2.1
        · exact hsh.2 e he2
      · rw [capB_iff]
        refine ⟨by simp only [T, capacity] at *; omega, fun e he => ?_⟩
        rcases hedgemem e (List.mem_append.2 (Or.inl he)) with rfl | rfl | he2
        · exact ihc.1.2
        · exact ihc.2.2
        · exact hcap.2 e he2
      · rw [shapedB_iff]
        refine ⟨hrl, fun e he => ?_⟩
        rcases hedgemem e (List.mem_append.2 (Or.inr he)) with rfl | rfl | he2
        · exact ihc.1.1
        · exact ihc.2.1
        · exact hsh.2 e he2
      · rw [capB_iff]
        refine ⟨by simp only [T, capacity] at *; omega, fun e he => ?_⟩
        rcases hedgemem e (List.mem_append.2 (Or.inr he)) with rfl | rfl | he2
        · exact ihc.1.2
        · exact ihc.2.2
        · exact hcap.2 e he2
  | case11 idx kv edges hcc hs =>
    intro h hsh hcap
    cases h with
    | zero => simp [shapedB] at hsh
    | succ h' =>
      exfalso
      rw [shapedB_iff] at hsh
      rw [keysOf_internal] at hs
      have h2 := sl_le cmp k (kv.map Prod.fst)
      rw [hs] at h2
      simp at h2
      rw [List.getElem?_eq_none_iff] at hcc
      omega

/-! ## Preservation of occupancy -/

theorem shaped_lens : ∀ (n : Node K V) (h : Nat), shapedB n h = true →
    lensB n = true := by
  intro n
  induction n using lensB.induct with
  | case1 kv => intro h _; simp [lensB]
  | case2 e ih =>
    intro h hsh
    cases h with
    | zero => simp [shapedB] at hsh
    | succ h' =>
      simp only [shapedB] at hsh
      simp only [lensB]
      exact ih h' hsh
  | case3 p kvs e es ih1 ih2 =>
    intro h hsh
    cases h with
    | zero => simp [shapedB] at hsh
    | succ h' =>
      simp only [shapedB, Bool.and_eq_true] at hsh
      simp only [lensB, Bool.and_eq_true]
      exact ⟨ih1 h' hsh.1, ih2 (h' + 1) hsh.2⟩
  | case4 kv edges h1 h2 =>
    intro h hsh
    exfalso
    match kv, edges, h1, h2 with
    | [], [], _, _ =>
      cases h with
      | zero => simp [shapedB] at hsh
      | succ h' => simp [shapedB] at hsh
    | [], [e], hkv, _ => exact hkv e rfl rfl
    | [], e :: e2 :: es, _, _ =>
      cases h with
      | zero => simp [shapedB] at hsh
      | succ h' => simp [shapedB] at hsh
    | p :: kvs, [], _, _ =>
      cases h with
      | zero => simp [shapedB] at hsh
      | succ h' => simp [shapedB] at hsh
    | p :: kvs, e :: es, _, hedges => exact hedges _ _ _ _ rfl rfl

theorem occRootB_iff (lo : Nat) (kv : List (K × V)) (edges : List (Node K V)) :
    occRootB lo (.internal kv edges) = true ↔
      kv.length ≤ capacity ∧ ∀ e ∈ edges, occSubB lo e = true := by
  simp [occRootB, List.all_eq_true]

theorem ins_occ (cmp : K → K → Ordering) (k : K) (v : V) :
    ∀ (n : Node K V), occSubB (T - 2) n = true → lensB n = true →
      ResOk (fun t => occSubB (T - 2) t = true ∧ lensB t = true)
        (insNode cmp k v n) := by
  intro n
  induction n using insNode.induct cmp k v with
  | case1 idx kv k0 v0 hkv hs =>
    intro hoc hln
    rw [keysOf_leaf] at hs
    rw [insNode_leaf_found hs hkv]
    simp only [ResOk]
    refine ⟨?_, by simp [lensB]⟩
    simpa [occSubB] using hoc
  | case2 idx kv hkv hs =>
    intro hoc hln
    rw [keysOf_leaf] at hs
    obtain ⟨kI, hkI, -⟩ := found_key hs
    rw [hkv] at hkI
    cases hkI
  | case3 idx kv edges k0 v0 hkv hs =>
    intro hoc hln
    rw [keysOf_internal] at hs
    rw [insNode_internal_found hs hkv]
    simp only [ResOk]
    rw [occSubB_iff] at hoc ⊢
    rw [lensB_iff] at hln ⊢
    exact ⟨⟨by rw [List.length_set]; exact hoc.1, hoc.2⟩,
      by rw [List.length_set]; exact hln.1, hln.2⟩
  | case4 idx kv edges hkv hs =>
    intro hoc hln
    rw [keysOf_internal] at hs
    obtain ⟨kI, hkI, -⟩ := found_key hs
    rw [hkv] at hkI
    cases hkI
  | case5 idx kv kv' hli hs =>
    intro hoc hln
    rw [keysOf_leaf] at hs
    rw [insNode_leaf_godown hs, hli]
    simp only [ResOk]
    have hoc' : T - 2 ≤ kv.length ∧ kv.length ≤ capacity := by
      simpa [occSubB] using hoc
    have hidx : idx ≤ kv.length := by
      have h2 := sl_le cmp k (kv.map Prod.fst)
      rw [hs] at h2
      simpa using h2
    obtain ⟨rfl, hlt⟩ := leaf_fit_inv hli hoc'.2 hidx
    refine ⟨?_, by simp [lensB]⟩
    simp only [occSubB, Bool.and_eq_true, decide_eq_true_eq]
    have h3 := List.length_insertIdx_le_succ kv (k, v) idx
    have h4 := List.length_le_length_insertIdx kv (k, v) idx
    exact ⟨by omega, by omega⟩
  | case6 idx kv lkv pk pv rkv hli hs =>
    intro hoc hln
    rw [keysOf_leaf] at hs
    rw [insNode_leaf_godown hs, hli]
    simp only [ResOk]
    have hoc' : T - 2 ≤ kv.length ∧ kv.length ≤ capacity := by
      simpa [occSubB] using hoc
    have hidx : idx ≤ kv.length := by
      have h2 := sl_le cmp k (kv.map Prod.fst)
      rw [hs] at h2
      simpa using h2
    obtain ⟨hful, hflat, hb1, hb2, hb3, hb4⟩ := leaf_split_inv hli hoc'.2 hidx
    refine ⟨⟨?_, by simp [lensB]⟩, ?_, by simp [lensB]⟩ <;>
      · simp only [occSubB, Bool.and_eq_true, decide_eq_true_eq]
        simp only [T, capacity] at *
        omega
  | case7 idx kv edges c hcc c' old hin hs ih =>
    intro hoc hln
    rw [keysOf_internal] at hs
    rw [insNode_internal_godown_replaced hs hcc hin]
    simp only [ResOk]
    rw [occSubB_iff] at hoc ⊢
    rw [lensB_iff] at hln ⊢
    have hmemc := mem_of_idx hcc
    have ihc := ih (hoc.2 c hmemc) (hln.2 c hmemc)
    rw [hin] at ihc
    simp only [ResOk] at ihc
    refine ⟨⟨hoc.1, ?_⟩, by rw [List.length_set]; exact hln.1, ?_⟩
    · intro e he
      rcases List.mem_or_eq_of_mem_set he with he | rfl
      · exact hoc.2 e he
      · exact ihc.1
    · intro e he
      rcases List.mem_or_eq_of_mem_set he with he | rfl
      · exact hln.2 e he
      · exact ihc.2
  | case8 idx kv edges c hcc c' hin hs ih =>
    intro hoc hln
    rw [keysOf_internal] at hs
    rw [insNode_internal_godown_fit hs hcc hin]
    simp only [ResOk]
    rw [occSubB_iff] at hoc ⊢
    rw [lensB_iff] at hln ⊢
    have hmemc := mem_of_idx hcc
    have ihc := ih (hoc.2 c hmemc) (hln.2 c hmemc)
    rw [hin] at ihc
    simp only [ResOk] at ihc
    refine ⟨⟨hoc.1, ?_⟩, by rw [List.length_set]; exact hln.1, ?_⟩
    · intro e he
      rcases List.mem_or_eq_of_mem_set he with he | rfl
      · exact hoc.2 e he
      · exact ihc.1
    · intro e he
      rcases List.mem_or_eq_of_mem_set he with he | rfl
      · exact hln.2 e he
      · exact ihc.2
  | case9 idx kv edges c hcc cl ck cv cr hin kv' edges' hii hs ih =>
    intro hoc hln
    rw [keysOf_internal] at hs
    rw [insNode_internal_godown_split hs hcc hin, hii]
    simp only [ResOk]
    rw [occSubB_iff] at hoc
    rw [lensB_iff] at hln
    have hmemc := mem_of_idx hcc
    have ihc := ih (hoc.2 c hmemc) (hln.2 c hmemc)
    rw [hin] at ihc
    simp only [ResOk] at ihc
    have hidx : idx ≤ kv.length := by
      have h2 := sl_le cmp k (kv.map Prod.fst)
      rw [hs] at h2
      simpa using h2
    obtain ⟨rfl, rfl, hlt⟩ := internal_fit_inv hii hoc.1.2 hidx
      (by rw [List.length_set]; exact hln.1)
    have hlen1 : ((edges.set idx cl).insertIdx (idx + 1) cr).length =
        edges.length + 1 := by
      rw [List.length_insertIdx (idx + 1) (edges.set idx cl)
        (by rw [List.length_set]; omega), List.length_set]
    have hlen2 : (kv.insertIdx idx (ck, cv)).length = kv.length + 1 :=
      List.length_insertIdx idx kv (by omega)
    rw [occSubB_iff, lensB_iff]
    refine ⟨⟨by rw [hlen2]; omega, ?_⟩, by rw [hlen1, hlen2]; omega, ?_⟩
    · intro e he
      rcases mem_new_edges (by omega) he with rfl | rfl | he
      · exact ihc.1.1
      · exact ihc.2.1
      · exact hoc.2 e he
    · intro e he
      rcases mem_new_edges (by omega) he with rfl | rfl | he
      · exact ihc.1.2
      · exact ihc.2.2
      · exact hln.2 e he
  | case10 idx kv edges c hcc cl ck cv cr hin lkv ledges pk pv rkv redges hii hs ih =>
    intro hoc hln
    rw [keysOf_internal] at hs
    rw [insNode_internal_godown_split hs hcc hin, hii]
    simp only [ResOk]
    rw [occSubB_iff] at hoc
    rw [lensB_iff] at hln
    have hmemc := mem_of_idx hcc
    have ihc := ih (hoc.2 c hmemc) (hln.2 c hmemc)
    rw [hin] at ihc
    simp only [ResOk] at ihc
    have hidx : idx ≤ kv.length := by
      have h2 := sl_le cmp k (kv.map Prod.fst)
      rw [hs] at h2
      simpa using h2
    obtain ⟨hful, hkflat, heflat, hll, hrl, hb1, hb2, hb3, hb4⟩ :=
      internal_split_inv hii hoc.1.2 hidx (by rw [List.length_set]; exact hln.1)
    have hedgemem : ∀ e, e ∈ ledges ++ redges →
        e = cl ∨ e = cr ∨ e ∈ edges := by
      intro e he
      rw [heflat] at he
      exact mem_new_edges (by omega) he
    refine ⟨⟨?_, ?_⟩, ?_, ?_⟩
    · rw [occSubB_iff]
      refine ⟨⟨by simp only [T, capacity] at *; omega,
        by simp only [T, capacity] at *; omega⟩, fun e he => ?_⟩
      rcases hedgemem e (List.mem_append.2 (Or.inl he)) with rfl | rfl | he2
      · exact ihc.1.1
      · exact ihc.2.1
      · exact hoc.2 e he2
    · rw [lensB_iff]
      refine ⟨hll, fun e he => ?_⟩
      rcases hedgemem e (List.mem_append.2 (Or.inl he)) with rfl | rfl | he2
      · exact ihc.1.2
      · exact ihc.2.2
      · exact hln.2 e he2
    · rw [occSubB_iff]
      refine ⟨⟨by simp only [T, capacity] at *; omega,
        by simp only [T, capacity] at *; omega⟩, fun e he => ?_⟩
      rcases hedgemem e (List.mem_append.2 (Or.inr he)) with rfl | rfl | he2
      · exact ihc.1.1
      · exact ihc.2.1
      · exact hoc.2 e he2
    · rw [lensB_iff]
      refine ⟨hrl, fun e he => ?_⟩
      rcases hedgemem e (List.mem_append.2 (Or.inr he)) with rfl | rfl | he2
      · exact ihc.1.2
      · exact ihc.2.2
      · exact hln.2 e he2
  | case11 idx kv edges hcc hs =>
    intro hoc hln
    exfalso
    rw [lensB_iff] at hln
    rw [keysOf_internal] at hs
    have h2 := sl_le cmp k (kv.map Prod.fst)
    rw [hs] at h2
    simp at h2
    rw [List.getElem?_eq_none_iff] at hcc
    omega

/-! ## Preservation of ordering -/

theorem inB_strengthen_lo {cmp : K → K → Ordering} {lo hi : Option K}
    {x : K} (a : K) (h1 : cmp a x = .lt) (h2 : inB cmp lo hi x = true) :
    inB cmp (some a) hi x = true := by
  simp only [inB, Bool.and_eq_true] at h2 ⊢
  exact ⟨by simp [h1], h2.2⟩

theorem listInsert_chainB {cmp : K → K → Ordering} (hc : LawfulCmp cmp)
    (k : K) (v : V) : ∀ (l : List (K × V)) (lo hi : Option K),
      chainB cmp lo hi l = true → inB cmp lo hi k = true →
      chainB cmp lo hi (listInsert cmp k v l) = true := by
  intro l
  induction l with
  | nil =>
    intro lo hi _ hk
    simpa [listInsert, chainB] using hk
  | cons p rest ih =>
    intro lo hi hch hk
    obtain ⟨k0, w⟩ := p
    simp only [chainB, Bool.and_eq_true] at hch
    obtain ⟨hk0, hrest⟩ := hch
    cases hcc : cmp k k0 with
    | lt =>
      simp only [listInsert, hcc, chainB, Bool.and_eq_true]
      exact ⟨hk, inB_strengthen_lo k hcc hk0, hrest⟩
    | eq =>
      simp only [listInsert, hcc, chainB, Bool.and_eq_true]
      exact ⟨hk0, hrest⟩
    | gt =>
      simp only [listInsert, hcc, chainB, Bool.and_eq_true]
      exact ⟨hk0, ih (some k0) hi hrest
        (inB_strengthen_lo k0 (cmp_lt_of_gt hc hcc) hk)⟩

/-- Ordering of an insertion outcome within bounds `(lo, hi)`: the updated
subtree is ordered; for a split, both halves are ordered around the
promoted key, which lies in the bounds. -/
def OrdRes (cmp : K → K → Ordering) (lo hi : Option K) : InsRes K V → Prop
  | .replaced t _ => ordB cmp lo hi t = true
  | .fit t => ordB cmp lo hi t = true
  | .split l pk _ r => ordB cmp lo (some pk) l = true ∧
      inB cmp lo hi pk = true ∧ ordB cmp (some pk) hi r = true

theorem ins_ord {cmp : K → K → Ordering} (hc : LawfulCmp cmp) (k : K) (v : V)
    (n : Node K V) (lo hi : Option K) (h : Nat)
    (hk : inB cmp lo hi k = true) (hord : ordB cmp lo hi n = true)
    (hsh : shapedB n h = true) (hcap : capB n = true) :
    OrdRes cmp lo hi (insNode cmp k v n) := by
  have hflat := (ins_flat hc k v n lo hi hord hcap).1
  have hsc := ins_shaped_cap cmp k v n h hsh hcap
  have hchain : chainB cmp lo hi (listInsert cmp k v (inorder n)) = true :=
    listInsert_chainB hc k v (inorder n) lo hi (ordB_chainB hc hord) hk
  cases hres : insNode cmp k v n with
  | replaced t old =>
    rw [hres] at hflat hsc
    simp only [flatRes] at hflat
    simp only [ResOk] at hsc
    simp only [OrdRes]
    exact chainB_ordB hc (shaped_lens t h hsc.1) (hflat ▸ hchain)
  | fit t =>
    rw [hres] at hflat hsc
    simp only [flatRes] at hflat
    simp only [ResOk] at hsc
    simp only [OrdRes]
    exact chainB_ordB hc (shaped_lens t h hsc.1) (hflat ▸ hchain)
  | split l pk pv r =>
    rw [hres] at hflat hsc
    simp only [flatRes] at hflat
    simp only [ResOk] at hsc
    simp only [OrdRes]
    rw [← hflat] at hchain
    obtain ⟨hl, hp, hr⟩ := chainB_split hc lo hchain
    exact ⟨chainB_ordB hc (shaped_lens l h hsc.1.1) hl, hp,
      chainB_ordB hc (shaped_lens r h hsc.2.1) hr⟩

/-- Occupancy of an insertion outcome at the root: a non-split outcome
keeps root occupancy; both halves of a split satisfy non-root occupancy
(ready to become children of the enlarged root). -/
def OccRes : InsRes K V → Prop
  | .replaced t _ => occRootB (T - 2) t = true ∧ lensB t = true
  | .fit t => occRootB (T - 2) t = true ∧ lensB t = true
  | .split l _ _ r => (occSubB (T - 2) l = true ∧ lensB l = true) ∧
      (occSubB (T - 2) r = true ∧ lensB r = true)

theorem ins_occ_root (cmp : K → K → Ordering) (k : K) (v : V) :
    ∀ (n : Node K V), occRootB (T - 2) n = true → lensB n = true →
      OccRes (insNode cmp k v n) := by
  intro n
  induction n using insNode.induct cmp k v with
  | case1 idx kv k0 v0 hkv hs =>
    intro hoc hln
    rw [keysOf_leaf] at hs
    rw [insNode_leaf_found hs hkv]
    simp only [OccRes]
    refine ⟨?_, by simp [lensB]⟩
    simpa [occRootB] using hoc
  | case2 idx kv hkv hs =>
    intro hoc hln
    rw [keysOf_leaf] at hs
    obtain ⟨kI, hkI, -⟩ := found_key hs
    rw [hkv] at hkI
    cases hkI
  | case3 idx kv edges k0 v0 hkv hs =>
    intro hoc hln
    rw [keysOf_internal] at hs
    rw [insNode_internal_found hs hkv]
    simp only [OccRes]
    rw [occRootB_iff] at hoc ⊢
    rw [lensB_iff] at hln ⊢
    exact ⟨⟨by rw [List.length_set]; exact hoc.1, hoc.2⟩,
      by rw [List.length_set]; exact hln.1, hln.2⟩
  | case4 idx kv edges hkv hs =>
    intro hoc hln
    rw [keysOf_internal] at hs
    obtain ⟨kI, hkI, -⟩ := found_key hs
    rw [hkv] at hkI
    cases hkI
  | case5 idx kv kv' hli hs =>
    intro hoc hln
    rw [keysOf_leaf] at hs
    rw [insNode_leaf_godown hs, hli]
    simp only [OccRes]
    have hoc' : kv.length ≤ capacity := by
      simpa [occRootB] using hoc
    have hidx : idx ≤ kv.length := by
      have h2 := sl_le cmp k (kv.map Prod.fst)
      rw [hs] at h2
      simpa using h2
    obtain ⟨rfl, hlt⟩ := leaf_fit_inv hli hoc' hidx
    refine ⟨?_, by simp [lensB]⟩
    simp only [occRootB, decide_eq_true_eq]
    have h3 := List.length_insertIdx_le_succ kv (k, v) idx
    omega
  | case6 idx kv lkv pk pv rkv hli hs =>
    intro hoc hln
    rw [keysOf_leaf] at hs
    rw [insNode_leaf_godown hs, hli]
    simp only [OccRes]
    have hoc' : kv.length ≤ capacity := by
      simpa [occRootB] using hoc
    have hidx : idx ≤ kv.length := by
      have h2 := sl_le cmp k (kv.map Prod.fst)
      rw [hs] at h2
      simpa using h2
    obtain ⟨hful, hflat, hb1, hb2, hb3, hb4⟩ := leaf_split_inv hli hoc' hidx
    refine ⟨⟨?_, by simp [lensB]⟩, ?_, by simp [lensB]⟩ <;>
      · simp only [occSubB, Bool.and_eq_true, decide_eq_true_eq]
        simp only [T, capacity] at *
        omega
  | case7 idx kv edges c hcc c' old hin hs ih =>
    intro hoc hln
    rw [keysOf_internal] at hs
    rw [insNode_internal_godown_replaced hs hcc hin]
    simp only [OccRes]
    rw [occRootB_iff] at hoc ⊢
    rw [lensB_iff] at hln ⊢
    have hmemc := mem_of_idx hcc
    have ihc := ins_occ cmp k v c (hoc.2 c hmemc) (hln.2 c hmemc)
    rw [hin] at ihc
    simp only [ResOk] at ihc
    refine ⟨⟨hoc.1, ?_⟩, by rw [List.length_set]; exact hln.1, ?_⟩
    · intro e he
      rcases List.mem_or_eq_of_mem_set he with he | rfl
      · exact hoc.2 e he
      · exact ihc.1
    · intro e he
      rcases List.mem_or_eq_of_mem_set he with he | rfl
      · exact hln.2 e he
      · exact ihc.2
  | case8 idx kv edges c hcc c' hin hs ih =>
    intro hoc hln
    rw [keysOf_internal] at hs
    rw [insNode_internal_godown_fit hs hcc hin]
    simp only [OccRes]
    rw [occRootB_iff] at hoc ⊢
    rw [lensB_iff] at hln ⊢
    have hmemc := mem_of_idx hcc
    have ihc := ins_occ cmp k v c (hoc.2 c hmemc) (hln.2 c hmemc)
    rw [hin] at ihc
    simp only [ResOk] at ihc
    refine ⟨⟨hoc.1, ?_⟩, by rw [List.length_set]; exact hln.1, ?_⟩
    · intro e he
      rcases List.mem_or_eq_of_mem_set he with he | rfl
      · exact hoc.2 e he
      · exact ihc.1
    · intro e he
      rcases List.mem_or_eq_of_mem_set he with he | rfl
      · exact hln.2 e he
      · exact ihc.2
  | case9 idx kv edges c hcc cl ck cv cr hin kv' edges' hii hs ih =>
    intro hoc hln
    rw [keysOf_internal] at hs
    rw [insNode_internal_godown_split hs hcc hin, hii]
    simp only [OccRes]
    rw [occRootB_iff] at hoc
    rw [lensB_iff] at hln
    have hmemc := mem_of_idx hcc
    have ihc := ins_occ cmp k v c (hoc.2 c hmemc) (hln.2 c hmemc)
    rw [hin] at ihc
    simp only [ResOk] at ihc
    have hidx : idx ≤ kv.length := by
      have h2 := sl_le cmp k (kv.map Prod.fst)
      rw [hs] at h2
      simpa using h2
    obtain ⟨rfl, rfl, hlt⟩ := internal_fit_inv hii hoc.1 hidx
      (by rw [List.length_set]; exact hln.1)
    have hlen1 : ((edges.set idx cl).insertIdx (idx + 1) cr).length =
        edges.length + 1 := by
      rw [List.length_insertIdx (idx + 1) (edges.set idx cl)
        (by rw [List.length_set]; omega), List.length_set]
    have hlen2 : (kv.insertIdx idx (ck, cv)).length = kv.length + 1 :=
      List.length_insertIdx idx kv (by omega)
    rw [occRootB_iff, lensB_iff]
    refine ⟨⟨by rw [hlen2]; omega, ?_⟩, by rw [hlen1, hlen2]; omega, ?_⟩
    · intro e he
      rcases mem_new_edges (by omega) he with rfl | rfl | he
      · exact ihc.1.1
      · exact ihc.2.1
      · exact hoc.2 e he
    · intro e he
      rcases mem_new_edges (by omega) he with rfl | rfl | he
      · exact ihc.1.2
      · exact ihc.2.2
      · exact hln.2 e he
  | case10 idx kv edges c hcc cl ck cv cr hin lkv ledges pk pv rkv redges hii hs ih =>
    intro hoc hln
    rw [keysOf_internal] at hs
    rw [insNode_internal_godown_split hs hcc hin, hii]
    simp only [OccRes]
    rw [occRootB_iff] at hoc
    rw [lensB_iff] at hln
    have hmemc := mem_of_idx hcc
    have ihc := ins_occ cmp k v c (hoc.2 c hmemc) (hln.2 c hmemc)
    rw [hin] at ihc
    simp only [ResOk] at ihc
    have hidx : idx ≤ kv.length := by
      have h2 := sl_le cmp k (kv.map Prod.fst)
      rw [hs] at h2
      simpa using h2
    obtain ⟨hful, hkflat, heflat, hll, hrl, hb1, hb2, hb3, hb4⟩ :=
      internal_split_inv hii hoc.1 hidx (by rw [List.length_set]; exact hln.1)
    have hedgemem : ∀ e, e ∈ ledges ++ redges →
        e = cl ∨ e = cr ∨ e ∈ edges := by
      intro e he
      rw [heflat] at he
      exact mem_new_edges (by omega) he
    refine ⟨⟨?_, ?_⟩, ?_, ?_⟩
    · rw [occSubB_iff]
      refine ⟨⟨by simp only [T, capacity] at *; omega,
        by simp only [T, capacity] at *; omega⟩, fun e he => ?_⟩
      rcases hedgemem e (List.mem_append.2 (Or.inl he)) with rfl | rfl | he2
      · exact ihc.1.1
      · exact ihc.2.1
      · exact hoc.2 e he2
    · rw [lensB_iff]
      refine ⟨hll, fun e he => ?_⟩
      rcases hedgemem e (List.mem_append.2 (Or.inl he)) with rfl | rfl | he2
      · exact ihc.1.2
      · exact ihc.2.2
      · exact hln.2 e he2
    · rw [occSubB_iff]
      refine ⟨⟨by simp only [T, capacity] at *; omega,
        by simp only [T, capacity] at *; omega⟩, fun e he => ?_⟩
      rcases hedgemem e (List.mem_append.2 (Or.inr he)) with rfl | rfl | he2
      · exact ihc.1.1
      · exact ihc.2.1
      · exact hoc.2 e he2
    · rw [lensB_iff]
      refine ⟨hrl, fun e he => ?_⟩
      rcases hedgemem e (List.mem_append.2 (Or.inr he)) with rfl | rfl | he2
      · exact ihc.1.2
      · exact ihc.2.2
      · exact hln.2 e he2
  | case11 idx kv edges hcc hs =>
    intro hoc hln
    exfalso
    rw [lensB_iff] at hln
    rw [keysOf_internal] at hs
    have h2 := sl_le cmp k (kv.map Prod.fst)
    rw [hs] at h2
    simp at h2
    rw [List.getElem?_eq_none_iff] at hcc
    omega

/-! ## Map-level well-formedness -/

theorem listInsert_length {cmp : K → K → Ordering} (hc : LawfulCmp cmp)
    (k : K) (v : V) : ∀ (l : List (K × V)) (lo hi : Option K),
      chainB cmp lo hi l = true →
      (listInsert cmp k v l).length =
        (match listLookup cmp k l with
         | none => l.length + 1
         | some _ => l.length) := by
  intro l
  induction l with
  | nil => intro lo hi _; simp [listInsert, listLookup]
  | cons p rest ih =>
    intro lo hi hch
    obtain ⟨k0, w⟩ := p
    simp only [chainB, Bool.and_eq_true] at hch
    obtain ⟨hk0, hrest⟩ := hch
    cases hcc : cmp k k0 with
    | lt =>
      have hnone : listLookup cmp k rest = none := by
        refine listLookup_none fun x hx => ?_
        have hx2 := chainB_mem hc hrest x hx
        simp only [inB, Bool.and_eq_true, ordering_beq_iff] at hx2
        rw [hc.lt_trans hcc hx2.1]
        simp
      simp [listInsert, listLookup, hcc, hnone]
    | eq => simp [listInsert, listLookup, hcc]
    | gt =>
      have ihr := ih (some k0) hi hrest
      simp only [listInsert, listLookup, hcc, List.length_cons, ihr]
      cases hl : listLookup cmp k rest <;> simp [hl]

/-- The well-formedness bundle maintained by the map (spec §3): ordering,
uniform leaf depth at the recorded height, the capacity bound, root
occupancy with lower bound `T - 2` below the root, and an element count
equal to the number of stored pairs. -/
def WFm (cmp : K → K → Ordering) (m : BTreeMap K V) : Prop :=
  ordB cmp none none m.root.node = true ∧
  shapedB m.root.node m.root.height = true ∧
  capB m.root.node = true ∧
  occRootB (T - 2) m.root.node = true ∧
  m.length = (inorder m.root.node).length

theorem WFm_new (cmp : K → K → Ordering) : WFm cmp (mapNew : BTreeMap K V) := by
  refine ⟨?_, ?_, ?_, ?_, ?_⟩ <;>
    simp [WFm, mapNew, ordB, chainB, shapedB, capB, occRootB, inorder]

theorem mapInsert_WF {cmp : K → K → Ordering} (hc : LawfulCmp cmp)
    (k : K) (v : V) (m : BTreeMap K V) (hwf : WFm cmp m) :
    WFm cmp (mapInsert cmp k v m).1 ∧
    inorder (mapInsert cmp k v m).1.root.node =
      listInsert cmp k v (inorder m.root.node) ∧
    (mapInsert cmp k v m).2 = listLookup cmp k (inorder m.root.node) := by
  obtain ⟨hord, hsh, hcap, hocc, hlen⟩ := hwf
  have hln : lensB m.root.node = true := shaped_lens _ _ hsh
  have hflat := ins_flat hc k v m.root.node none none hord hcap
  have hsc := ins_shaped_cap cmp k v m.root.node m.root.height hsh hcap
  have ho := ins_ord hc k v m.root.node none none m.root.height
    (by simp [inB]) hord hsh hcap
  have hoc := ins_occ_root cmp k v m.root.node hocc hln
  have hil := listInsert_length hc k v (inorder m.root.node) none none
    (ordB_chainB hc hord)
  cases hres : insNode cmp k v m.root.node with
  | replaced t old =>
    rw [hres] at hflat hsc ho hoc
    simp only [flatRes, oldRes, ResOk, OrdRes, OccRes] at hflat hsc ho hoc
    simp only [mapInsert, hres]
    refine ⟨⟨ho, hsc.1, hsc.2, hoc.1, ?_⟩, hflat.1, hflat.2⟩
    rw [hflat.1, hil, ← hflat.2]
    exact hlen
  | fit t =>
    rw [hres] at hflat hsc ho hoc
    simp only [flatRes, oldRes, ResOk, OrdRes, OccRes] at hflat hsc ho hoc
    simp only [mapInsert, hres]
    refine ⟨⟨ho, hsc.1, hsc.2, hoc.1, ?_⟩, hflat.1, hflat.2⟩
    rw [hflat.1, hil, ← hflat.2, hlen]
  | split l pk pv r =>
    rw [hres] at hflat hsc ho hoc
    simp only [flatRes, oldRes, ResOk, OrdRes, OccRes] at hflat hsc ho hoc
    simp only [mapInsert, hres]
    have hino : inorder (Node.internal [(pk, pv)] [l, r]) =
        inorder l ++ (pk, pv) :: inorder r := by
      simp [inorder]
    refine ⟨⟨?_, ?_, ?_, ?_, ?_⟩, ?_, hflat.2⟩
    · simp only [ordB, Bool.and_eq_true]
      exact ⟨⟨ho.2.1, ho.1⟩, ho.2.2⟩
    · simp only [shapedB, Bool.and_eq_true]
      exact ⟨hsc.1.1, hsc.2.1⟩
    · simp only [capB, Bool.and_eq_true]
      refine ⟨hsc.1.2, hsc.2.2, ?_⟩
      simp [capB, capacity, T]
    · simp only [occRootB, List.all_cons, List.all_nil, Bool.and_true,
        Bool.and_eq_true]
      exact ⟨by simp [capacity, T], hoc.1.1, hoc.2.1⟩
    · rw [hino, hflat.1, hil, ← hflat.2, hlen]
    · rw [hino, hflat.1]

theorem mapGet_lookup {cmp : K → K → Ordering} (hc : LawfulCmp cmp) (q : K)
    (m : BTreeMap K V) (hwf : WFm cmp m) :
    mapGet cmp q m = listLookup cmp q (inorder m.root.node) := by
  have h := search_lookup hc q m.root.node none none hwf.1
  rw [← h]
  simp only [mapGet, foundVal]

theorem WFm_insertList (cmp : K → K → Ordering) (hc : LawfulCmp cmp)
    (ops : List (K × V)) :
    WFm cmp (insertList cmp ops) ∧
    inorder (insertList cmp ops).root.node =
      ops.foldl (fun l p => listInsert cmp p.1 p.2 l) [] := by
  suffices h : ∀ (m : BTreeMap K V), WFm cmp m →
      WFm cmp (ops.foldl (fun m p => (mapInsert cmp p.1 p.2 m).1) m) ∧
      inorder (ops.foldl (fun m p => (mapInsert cmp p.1 p.2 m).1) m).root.node =
        ops.foldl (fun l p => listInsert cmp p.1 p.2 l) (inorder m.root.node) by
    have h2 := h mapNew (WFm_new cmp)
    simpa [insertList, mapNew, inorder] using h2
  induction ops with
  | nil => exact fun m hm => ⟨hm, rfl⟩
  | cons p rest ih =>
    intro m hm
    obtain ⟨hw, hfl, -⟩ := mapInsert_WF hc p.1 p.2 m hm
    obtain ⟨hw2, hfl2⟩ := ih (mapInsert cmp p.1 p.2 m).1 hw
    exact ⟨hw2, by simp only [List.foldl_cons]; rw [hfl2, hfl]⟩

/-! ## Iterator correctness: the cursor yields exactly the remaining
in-order suffix -/

/-- The pairs an iterator frame `(node, edge i)` still has to visit inside
`node`: keys from `i` interleaved with edges from `i + 1`. -/
def frameRem : Node K V → Nat → List (K × V)
  | .leaf kv, i => kv.drop i
  | .internal kv edges, i => flatKV (kv.drop i) (edges.drop (i + 1))

/-- The pairs still to visit in all parent frames, nearest first. -/
def pathRem : List (Node K V × Nat) → List (K × V)
  | [] => []
  | (p, i) :: rest => frameRem p i ++ pathRem rest

/-- The pairs a cursor handle still has to yield. -/
def handleRem (h : EdgeH K V) : List (K × V) :=
  h.node.kvOf.drop h.idx ++ pathRem h.path

/-- Structural validity of a parent chain: every frame is an internal node
with the edge index in range, and consistent key/edge counts below. -/
def GoodP (path : List (Node K V × Nat)) : Prop :=
  ∀ f ∈ path, (∃ kv edges, f.1 = Node.internal kv edges ∧ f.2 ≤ kv.length) ∧
    lensB f.1 = true

/-- Structural validity of a cursor handle: a leaf-edge position in range
over a valid parent chain. -/
def GoodH (h : EdgeH K V) : Prop :=
  (∃ kv, h.node = Node.leaf kv ∧ h.idx ≤ kv.length) ∧ GoodP h.path

theorem fle_spec : ∀ (n : Node K V) (acc : List (Node K V × Nat)),
    lensB n = true → GoodP acc →
    handleRem (first_leaf_edge n acc) = inorder n ++ pathRem acc ∧
      GoodH (first_leaf_edge n acc) := by
  intro n acc
  induction n, acc using first_leaf_edge.induct with
  | case1 kv acc =>
    intro _ hacc
    rw [show first_leaf_edge (Node.leaf kv) acc = ⟨acc, Node.leaf kv, 0⟩ from
      by rw [first_leaf_edge]]
    exact ⟨by simp [handleRem, inorder, Node.kvOf], ⟨kv, rfl, Nat.zero_le _⟩, hacc⟩
  | case2 kv acc =>
    intro hlens hacc
    rw [lensB_iff] at hlens
    simp at hlens
  | case3 kv e es acc ih =>
    intro hlens hacc
    rw [lensB_iff] at hlens
    have hle : lensB e = true := hlens.2 e (by simp)
    have hacc2 : GoodP ((Node.internal kv (e :: es), 0) :: acc) := by
      intro f hf
      rcases List.mem_cons.1 hf with rfl | hf
      · exact ⟨⟨kv, e :: es, rfl, by omega⟩, by rw [lensB_iff]; exact hlens⟩
      · exact hacc f hf
    have hrec := ih hle hacc2
    rw [show first_leaf_edge (Node.internal kv (e :: es)) acc =
      first_leaf_edge e ((Node.internal kv (e :: es), 0) :: acc) from by
        rw [first_leaf_edge]]
    refine ⟨?_, hrec.2⟩
    rw [hrec.1]
    simp only [pathRem, frameRem, List.drop_zero, List.drop_succ_cons,
      List.drop_zero, inorder_internal_edge, List.append_assoc]

theorem iterAscend_spec : ∀ (path : List (Node K V × Nat)), GoodP path →
    (pathRem path = [] ∧ iterAscend path = none) ∨
    (∃ pair h', iterAscend path = some (pair, h') ∧
      pathRem path = pair :: handleRem h' ∧ GoodH h') := by
  intro path
  induction path with
  | nil => exact fun _ => Or.inl ⟨rfl, rfl⟩
  | cons f rest ih =>
    intro hgood
    obtain ⟨⟨kv, edges, hf1, hf2⟩, hlens⟩ := hgood f (by simp)
    obtain ⟨p, i⟩ := f
    simp only at hf1 hf2
    subst hf1
    have hrest : GoodP rest := fun g hg => hgood g (by simp [hg])
    have helen : edges.length = kv.length + 1 := by
      rw [lensB_iff] at hlens
      exact hlens.1
    cases hkvi : kv[i]? with
    | some pair =>
      have hi : i < kv.length := (List.getElem?_eq_some.1 hkvi).1
      have hedge : edges[i + 1]? = some (edges.get ⟨i + 1, by omega⟩) :=
        List.getElem?_eq_some.2 ⟨by omega, rfl⟩
      set child := edges.get ⟨i + 1, by omega⟩ with hchild
      have hlc : lensB child = true := by
        rw [lensB_iff] at hlens
        exact hlens.2 child (mem_of_idx hedge)
      have hacc2 : GoodP ((Node.internal kv edges, i + 1) :: rest) := by
        intro g hg
        rcases List.mem_cons.1 hg with rfl | hg
        · exact ⟨⟨kv, edges, rfl, by omega⟩, hlens⟩
        · exact hrest g hg
      have hrec := fle_spec child ((Node.internal kv edges, i + 1) :: rest)
        hlc hacc2
      right
      refine ⟨pair, _, ?_, ?_, hrec.2⟩
      · simp only [iterAscend, Node.kvOf, Node.edgesOf, hkvi, hedge]
      · rw [hrec.1]
        simp only [pathRem, frameRem]
        rw [drop_eq_cons_of_idx hkvi, drop_eq_cons_of_idx hedge]
        obtain ⟨pk, pv⟩ := pair
        simp [flatKV, List.append_assoc]
    | none =>
      have hi : kv.length ≤ i := List.getElem?_eq_none_iff.1 hkvi
      have hdrop : kv.drop i = [] := List.drop_eq_nil_of_le hi
      have hstep : iterAscend ((Node.internal kv edges, i) :: rest) =
          iterAscend rest := by
        simp only [iterAscend, Node.kvOf, hkvi]
      have hrem : pathRem ((Node.internal kv edges, i) :: rest) =
          pathRem rest := by
        simp [pathRem, frameRem, hdrop, flatKV]
      rw [hstep, hrem]
      exact ih hrest

theorem iterNext_spec (h : EdgeH K V) (hgood : GoodH h) :
    (handleRem h = [] ∧ iterNext h = none) ∨
    (∃ pair h', iterNext h = some (pair, h') ∧
      handleRem h = pair :: handleRem h' ∧ GoodH h') := by
  obtain ⟨⟨kv, hnode, hidx⟩, hpath⟩ := hgood
  obtain ⟨path, node, idx⟩ := h
  simp only at hnode hidx
  subst hnode
  cases hkvi : kv[idx]? with
  | some pair =>
    right
    refine ⟨pair, ⟨path, Node.leaf kv, idx + 1⟩, ?_, ?_, ?_⟩
    · simp only [iterNext, Node.kvOf, hkvi]
    · simp only [handleRem, Node.kvOf]
      rw [drop_eq_cons_of_idx hkvi]
      simp
    · exact ⟨⟨kv, rfl, (List.getElem?_eq_some.1 hkvi).1⟩, hpath⟩
  | none =>
    have hi : kv.length ≤ idx := List.getElem?_eq_none_iff.1 hkvi
    have hdrop : kv.drop idx = [] := List.drop_eq_nil_of_le hi
    have hrem : handleRem ⟨path, Node.leaf kv, idx⟩ = pathRem path := by
      simp [handleRem, Node.kvOf, hdrop]
    have hstep : iterNext ⟨path, Node.leaf kv, idx⟩ = iterAscend path := by
      simp only [iterNext, Node.kvOf, hkvi]
    rw [hrem, hstep]
    exact iterAscend_spec path hpath

theorem iterAll_rem : ∀ (fuel : Nat) (h : EdgeH K V), GoodH h →
    (handleRem h).length ≤ fuel → iterAll fuel h = handleRem h := by
  intro fuel
  induction fuel with
  | zero =>
    intro h _ hlen
    simp only [Nat.le_zero, List.length_eq_zero] at hlen
    rw [hlen]
    rfl
  | succ fuel ih =>
    intro h hgood hlen
    rcases iterNext_spec h hgood with ⟨hrem, hnone⟩ | ⟨pair, h', hsome, hrem, hg⟩
    · rw [hrem]
      simp [iterAll, hnone]
    · rw [hrem]
      simp only [iterAll, hsome]
      rw [ih h' hg (by rw [hrem] at hlen; simpa using hlen)]

theorem iterAll_inorder {m : BTreeMap K V} (hlens : lensB m.root.node = true)
    (fuel : Nat) (hfuel : (inorder m.root.node).length ≤ fuel) :
    iterAll fuel (iterStart m) = inorder m.root.node := by
  have hfle := fle_spec m.root.node [] hlens (by intro f hf; simp at hf)
  have hrem : handleRem (iterStart m) = inorder m.root.node := by
    rw [iterStart, hfle.1]
    simp [pathRem]
  rw [iterAll_rem fuel (iterStart m) hfle.2 (by rw [hrem]; exact hfuel), hrem]

/-! ## Remaining support lemmas for the claim theorems -/

theorem listLookup_listInsert {cmp : K → K → Ordering} (hc : LawfulCmp cmp)
    (k : K) (v : V) : ∀ (l : List (K × V)),
      listLookup cmp k (listInsert cmp k v l) = some v := by
  intro l
  induction l with
  | nil => simp [listInsert, listLookup, hc.refl_eq]
  | cons p rest ih =>
    obtain ⟨k0, w⟩ := p
    cases hcc : cmp k k0 with
    | lt => simp [listInsert, listLookup, hcc, hc.refl_eq]
    | eq => simp [listInsert, listLookup, hcc]
    | gt => simp [listInsert, listLookup, hcc, ih]

theorem search_tree_found_inv {cmp : K → K → Ordering} {q : K}
    {nf : Node K V} {idx : Nat} : ∀ {n0 : Node K V} (lo hi : Option K),
    ordB cmp lo hi n0 = true → search_tree cmp q n0 = .Found nf idx →
    search_node cmp nf q = .Found idx := by
  intro n0
  induction n0 using search_tree.induct cmp q with
  | case1 n1 idx1 hf =>
    intro lo hi ho h
    rw [search_tree_found hf] at h
    injection h with h1 h2
    subst h1
    subst h2
    exact hf
  | case2 idx1 kv hg =>
    intro lo hi ho h
    rw [search_tree_godown_leaf hg] at h
    cases h
  | case3 idx1 kv edges c hcc hg ih =>
    intro lo hi ho h
    rw [search_tree_godown_desc hg hcc] at h
    obtain ⟨lo2, hi2, ho2⟩ := ordB_child idx1 kv edges lo hi c ho hcc
    exact ih lo2 hi2 ho2 h
  | case4 idx1 kv edges hnone hg =>
    intro lo hi ho h
    exfalso
    have hlen := ordB_lens kv edges ho
    have hs : search_linear cmp q (kv.map Prod.fst) = (idx1, false) :=
      search_node_godown.1 hg
    have hle := sl_le cmp q (kv.map Prod.fst)
    rw [hs] at hle
    simp at hle
    rw [List.getElem?_eq_none_iff] at hnone
    omega

theorem listInsert_found_pair {cmp : K → K → Ordering} (hc : LawfulCmp cmp)
    (k : K) (v : V) {w : V} : ∀ (l : List (K × V)) (lo hi : Option K),
    chainB cmp lo hi l = true → listLookup cmp k l = some w →
    ∃ l1 l2 k0, l = l1 ++ (k0, w) :: l2 ∧ cmp k k0 = .eq ∧
      listInsert cmp k v l = l1 ++ (k0, v) :: l2 := by
  intro l
  induction l with
  | nil => intro lo hi _ hlk; simp [listLookup] at hlk
  | cons p rest ih =>
    intro lo hi hch hlk
    obtain ⟨k0, u⟩ := p
    simp only [chainB, Bool.and_eq_true] at hch
    obtain ⟨hk0, hrest⟩ := hch
    cases hcc : cmp k k0 with
    | lt =>
      exfalso
      have hnone : listLookup cmp k rest = none := by
        refine listLookup_none fun x hx => ?_
        have hx2 := chainB_mem hc hrest x hx
        simp only [inB, Bool.and_eq_true, ordering_beq_iff] at hx2
        rw [hc.lt_trans hcc hx2.1]
        simp
      rw [listLookup, hcc, hnone] at hlk
      cases hlk
    | eq =>
      rw [listLookup, hcc] at hlk
      injection hlk with hw
      subst hw
      exact ⟨[], rest, k0, by simp, hcc, by simp [listInsert, hcc]⟩
    | gt =>
      rw [listLookup, hcc] at hlk
      obtain ⟨l1, l2, k1, heq, hke, hins⟩ := ih (some k0) hi hrest hlk
      exact ⟨(k0, u) :: l1, l2, k1, by simp [heq], hke,
        by simp [listInsert, hcc, hins]⟩

theorem mapInsert_length_le (cmp : K → K → Ordering) (k : K) (v : V)
    (m : BTreeMap K V) :
    (mapInsert cmp k v m).1.length ≤ m.length + 1 := by
  cases h : insNode cmp k v m.root.node <;> simp [mapInsert, h]

theorem insertList_length_le (cmp : K → K → Ordering) (ops : List (K × V)) :
    (insertList cmp ops).length ≤ ops.length := by
  suffices h : ∀ (m : BTreeMap K V),
      (ops.foldl (fun m p => (mapInsert cmp p.1 p.2 m).1) m).length ≤
        m.length + ops.length by
    simpa [insertList, mapNew] using h mapNew
  induction ops with
  | nil => intro m; simp
  | cons p rest ih =>
    intro m
    calc (List.foldl (fun m p => (mapInsert cmp p.1 p.2 m).1)
          ((mapInsert cmp p.1 p.2 m).1) rest).length
        ≤ (mapInsert cmp p.1 p.2 m).1.length + rest.length := ih _
      _ ≤ m.length + 1 + rest.length :=
          Nat.add_le_add_right (mapInsert_length_le cmp p.1 p.2 m) _
      _ = m.length + (p :: rest).length := by simp; omega

/-! ## The claim theorems -/

/-- C1: on a well-formed map, `insert(k, v)` returns the previous value
reported by `get(k)`; afterwards `get(k)` returns the value `v` just
inserted; `len()` grows by exactly one when the key was absent and is
unchanged when it was present. -/
theorem c1_insert_get_len {cmp : K → K → Ordering} (hc : LawfulCmp cmp)
    (k : K) (v : V) (m : BTreeMap K V) (hwf : WFm cmp m) :
    mapGet cmp k (mapInsert cmp k v m).1 = some v ∧
    (mapInsert cmp k v m).2 = mapGet cmp k m ∧
    (mapGet cmp k m = none →
      (mapInsert cmp k v m).1.length = m.length + 1) ∧
    (∀ w, mapGet cmp k m = some w →
      (mapInsert cmp k v m).1.length = m.length) := by
  obtain ⟨hW, hF, hO⟩ := mapInsert_WF hc k v m hwf
  have hg2 := mapGet_lookup hc k (mapInsert cmp k v m).1 hW
  have hg := mapGet_lookup hc k m hwf
  have hlen2 := hW.2.2.2.2
  have hil := listInsert_length hc k v (inorder m.root.node) none none
    (ordB_chainB hc hwf.1)
  refine ⟨?_, by rw [hO, hg], ?_, ?_⟩
  · rw [hg2, hF]
    exact listLookup_listInsert hc k v _
  · intro hnone
    rw [hg] at hnone
    rw [hlen2, hF, hil, hnone, hwf.2.2.2.2]
  · intro w hsome
    rw [hg] at hsome
    rw [hlen2, hF, hil, hsome, hwf.2.2.2.2]

/-- C1 witness: inserting value 5 at the already-present key 1. -/
theorem c1_witness :
    mapGet natCmp 1 (mapInsert natCmp 1 5
      (⟨⟨Node.leaf [(1, 9)], 0⟩, 1⟩ : BTreeMap Nat Nat)).1 = some 5 ∧
    (mapInsert natCmp 1 5 (⟨⟨Node.leaf [(1, 9)], 0⟩, 1⟩ : BTreeMap Nat Nat)).2 =
      mapGet natCmp 1 (⟨⟨Node.leaf [(1, 9)], 0⟩, 1⟩ : BTreeMap Nat Nat) ∧
    (mapGet natCmp 1 (⟨⟨Node.leaf [(1, 9)], 0⟩, 1⟩ : BTreeMap Nat Nat) = none →
      (mapInsert natCmp 1 5 (⟨⟨Node.leaf [(1, 9)], 0⟩, 1⟩ : BTreeMap Nat Nat)).1.length =
        (⟨⟨Node.leaf [(1, 9)], 0⟩, 1⟩ : BTreeMap Nat Nat).length + 1) ∧
    (∀ w, mapGet natCmp 1 (⟨⟨Node.leaf [(1, 9)], 0⟩, 1⟩ : BTreeMap Nat Nat) = some w →
      (mapInsert natCmp 1 5 (⟨⟨Node.leaf [(1, 9)], 0⟩, 1⟩ : BTreeMap Nat Nat)).1.length =
        (⟨⟨Node.leaf [(1, 9)], 0⟩, 1⟩ : BTreeMap Nat Nat).length) :=
  c1_insert_get_len lawful_natCmp 1 5 _
    (by simp [WFm, ordB, chainB, inB, natCmp, shapedB, capB, occRootB,
      occSubB, inorder, T, capacity])

/-- C2: counterexample to the claimed lower bound.  Inserting the twelve
keys 12, 11, ..., 1 in descending order splits the root leaf so that the
new right sibling holds only 4 = T − 2 keys; the occupancy checker with the
claimed non-root lower bound T − 1 therefore rejects this reachable tree. -/
theorem c2_counterexample : occRootB (T - 1) (insertList natCmp
    [((12 : Nat), (0 : Nat)), ((11 : Nat), (0 : Nat)), ((10 : Nat), (0 : Nat)), ((9 : Nat), (0 : Nat)), ((8 : Nat), (0 : Nat)), ((7 : Nat), (0 : Nat)), ((6 : Nat), (0 : Nat)), ((5 : Nat), (0 : Nat)), ((4 : Nat), (0 : Nat)), ((3 : Nat), (0 : Nat)), ((2 : Nat), (0 : Nat)), ((1 : Nat), (0 : Nat))]).root.node = false := by
  have s1 : search_linear natCmp 12 (([] : List (Nat × Nat)).map Prod.fst) = (0, false) := by decide
  have h1 : insNode natCmp 12 0 (Node.leaf ([] : List (Nat × Nat))) = .fit (Node.leaf [(12, 0)]) := by
    rw [insNode_leaf_godown s1]
    rfl
  have m1 : (mapInsert natCmp 12 0 (mapNew : BTreeMap Nat Nat)).1 = (⟨⟨Node.leaf [(12, 0)], 0⟩, 1⟩ : BTreeMap Nat Nat) := by
    rw [mapInsert]
    dsimp only [mapNew]
    rw [h1]
  have s2 : search_linear natCmp 11 (([(12, 0)] : List (Nat × Nat)).map Prod.fst) = (0, false) := by decide
  have h2 : insNode natCmp 11 0 (Node.leaf ([(12, 0)] : List (Nat × Nat))) = .fit (Node.leaf [(11, 0), (12, 0)]) := by
    rw [insNode_leaf_godown s2]
    rfl
  have m2 : (mapInsert natCmp 11 0 (⟨⟨Node.leaf [(12, 0)], 0⟩, 1⟩ : BTreeMap Nat Nat)).1 = (⟨⟨Node.leaf [(11, 0), (12, 0)], 0⟩, 2⟩ : BTreeMap Nat Nat) := by
    rw [mapInsert]
    dsimp only [mapNew]
    rw [h2]
  have s3 : search_linear natCmp 10 (([(11, 0), (12, 0)] : List (Nat × Nat)).map Prod.fst) = (0, false) := by decide
  have h3 : insNode natCmp 10 0 (Node.leaf ([(11, 0), (12, 0)] : List (Nat × Nat))) = .fit (Node.leaf [(10, 0), (11, 0), (12, 0)]) := by
    rw [insNode_leaf_godown s3]
    rfl
  have m3 : (mapInsert natCmp 10 0 (⟨⟨Node.leaf [(11, 0), (12, 0)], 0⟩, 2⟩ : BTreeMap Nat Nat)).1 = (⟨⟨Node.leaf [(10, 0), (11, 0), (12, 0)], 0⟩, 3⟩ : BTreeMap Nat Nat) := by
    rw [mapInsert]
    dsimp only [mapNew]
    rw [h3]
  have s4 : search_linear natCmp 9 (([(10, 0), (11, 0), (12, 0)] : List (Nat × Nat)).map Prod.fst) = (0, false) := by decide
  have h4 : insNode natCmp 9 0 (Node.leaf ([(10, 0), (11, 0), (12, 0)] : List (Nat × Nat))) = .fit (Node.leaf [(9, 0), (10, 0), (11, 0), (12, 0)]) := by
    rw [insNode_leaf_godown s4]
    rfl
  have m4 : (mapInsert natCmp 9 0 (⟨⟨Node.leaf [(10, 0), (11, 0), (12, 0)], 0⟩, 3⟩ : BTreeMap Nat Nat)).1 = (⟨⟨Node.leaf [(9, 0), (10, 0), (11, 0), (12, 0)], 0⟩, 4⟩ : BTreeMap Nat Nat) := by
    rw [mapInsert]
    dsimp only [mapNew]
    rw [h4]
  have s5 : search_linear natCmp 8 (([(9, 0), (10, 0), (11, 0), (12, 0)] : List (Nat × Nat)).map Prod.fst) = (0, false) := by decide
  have h5 : insNode natCmp 8 0 (Node.leaf ([(9, 0), (10, 0), (11, 0), (12, 0)] : List (Nat × Nat))) = .fit (Node.leaf [(8, 0), (9, 0), (10, 0), (11, 0), (12, 0)]) := by
    rw [insNode_leaf_godown s5]
    rfl
  have m5 : (mapInsert natCmp 8 0 (⟨⟨Node.leaf [(9, 0), (10, 0), (11, 0), (12, 0)], 0⟩, 4⟩ : BTreeMap Nat Nat)).1 = (⟨⟨Node.leaf [(8, 0), (9, 0), (10, 0), (11, 0), (12, 0)], 0⟩, 5⟩ : BTreeMap Nat Nat) := by
    rw [mapInsert]
    dsimp only [mapNew]
    rw [h5]
  have s6 : search_linear natCmp 7 (([(8, 0), (9, 0), (10, 0), (11, 0), (12, 0)] : List (Nat × Nat)).map Prod.fst) = (0, false) := by decide
  have h6 : insNode natCmp 7 0 (Node.leaf ([(8, 0), (9, 0), (10, 0), (11, 0), (12, 0)] : List (Nat × Nat))) = .fit (Node.leaf [(7, 0), (8, 0), (9, 0), (10, 0), (11, 0), (12, 0)]) := by
    rw [insNode_leaf_godown s6]
    rfl
  have m6 : (mapInsert natCmp 7 0 (⟨⟨Node.leaf [(8, 0), (9, 0), (10, 0), (11, 0), (12, 0)], 0⟩, 5⟩ : BTreeMap Nat Nat)).1 = (⟨⟨Node.leaf [(7, 0), (8, 0), (9, 0), (10, 0), (11, 0), (12, 0)], 0⟩, 6⟩ : BTreeMap Nat Nat) := by
    rw [mapInsert]
    dsimp only [mapNew]
    rw [h6]
  have s7 : search_linear natCmp 6 (([(7, 0), (8, 0), (9, 0), (10, 0), (11, 0), (12, 0)] : List (Nat × Nat)).map Prod.fst) = (0, false) := by decide
  have h7 : insNode natCmp 6 0 (Node.leaf ([(7, 0), (8, 0), (9, 0), (10, 0), (11, 0), (12, 0)] : List (Nat × Nat))) = .fit (Node.leaf [(6, 0), (7, 0), (8, 0), (9, 0), (10, 0), (11, 0), (12, 0)]) := by
    rw [insNode_leaf_godown s7]
    rfl
  have m7 : (mapInsert natCmp 6 0 (⟨⟨Node.leaf [(7, 0), (8, 0), (9, 0), (10, 0), (11, 0), (12, 0)], 0⟩, 6⟩ : BTreeMap Nat Nat)).1 = (⟨⟨Node.leaf [(6, 0), (7, 0), (8, 0), (9, 0), (10, 0), (11, 0), (12, 0)], 0⟩, 7⟩ : BTreeMap Nat Nat) := by
    rw [mapInsert]
    dsimp only [mapNew]
    rw [h7]
  have s8 : search_linear natCmp 5 (([(6, 0), (7, 0), (8, 0), (9, 0), (10, 0), (11, 0), (12, 0)] : List (Nat × Nat)).map Prod.fst) = (0, false) := by decide
  have h8 : insNode natCmp 5 0 (Node.leaf ([(6, 0), (7, 0), (8, 0), (9, 0), (10, 0), (11, 0), (12, 0)] : List (Nat × Nat))) = .fit (Node.leaf [(5, 0), (6, 0), (7, 0), (8, 0), (9, 0), (10, 0), (11, 0), (12, 0)]) := by
    rw [insNode_leaf_godown s8]
    rfl
  have m8 : (mapInsert natCmp 5 0 (⟨⟨Node.leaf [(6, 0), (7, 0), (8, 0), (9, 0), (10, 0), (11, 0), (12, 0)], 0⟩, 7⟩ : BTreeMap Nat Nat)).1 = (⟨⟨Node.leaf [(5, 0), (6, 0), (7, 0), (8, 0), (9, 0), (10, 0), (11, 0), (12, 0)], 0⟩, 8⟩ : BTreeMap Nat Nat) := by
    rw [mapInsert]
    dsimp only [mapNew]
    rw [h8]
  have s9 : search_linear natCmp 4 (([(5, 0), (6, 0), (7, 0), (8, 0), (9, 0), (10, 0), (11, 0), (12, 0)] : List (Nat × Nat)).map Prod.fst) = (0, false) := by decide
  have h9 : insNode natCmp 4 0 (Node.leaf ([(5, 0), (6, 0), (7, 0), (8, 0), (9, 0), (10, 0), (11, 0), (12, 0)] : List (Nat × Nat))) = .fit (Node.leaf [(4, 0), (5, 0), (6, 0), (7, 0), (8, 0), (9, 0), (10, 0), (11, 0), (12, 0)]) := by
    rw [insNode_leaf_godown s9]
    rfl
  have m9 : (mapInsert natCmp 4 0 (⟨⟨Node.leaf [(5, 0), (6, 0), (7, 0), (8, 0), (9, 0), (10, 0), (11, 0), (12, 0)], 0⟩, 8⟩ : BTreeMap Nat Nat)).1 = (⟨⟨Node.leaf [(4, 0), (5, 0), (6, 0), (7, 0), (8, 0), (9, 0), (10, 0), (11, 0), (12, 0)], 0⟩, 9⟩ : BTreeMap Nat Nat) := by
    rw [mapInsert]
    dsimp only [mapNew]
    rw [h9]
  have s10 : search_linear natCmp 3 (([(4, 0), (5, 0), (6, 0), (7, 0), (8, 0), (9, 0), (10, 0), (11, 0), (12, 0)] : List (Nat × Nat)).map Prod.fst) = (0, false) := by decide
  have h10 : insNode natCmp 3 0 (Node.leaf ([(4, 0), (5, 0), (6, 0), (7, 0), (8, 0), (9, 0), (10, 0), (11, 0), (12, 0)] : List (Nat × Nat))) = .fit (Node.leaf [(3, 0), (4, 0), (5, 0), (6, 0), (7, 0), (8, 0), (9, 0), (10, 0), (11, 0), (12, 0)]) := by
    rw [insNode_leaf_godown s10]
    rfl
  have m10 : (mapInsert natCmp 3 0 (⟨⟨Node.leaf [(4, 0), (5, 0), (6, 0), (7, 0), (8, 0), (9, 0), (10, 0), (11, 0), (12, 0)], 0⟩, 9⟩ : BTreeMap Nat Nat)).1 = (⟨⟨Node.leaf [(3, 0), (4, 0), (5, 0), (6, 0), (7, 0), (8, 0), (9, 0), (10, 0), (11, 0), (12, 0)], 0⟩, 10⟩ : BTreeMap Nat Nat) := by
    rw [mapInsert]
    dsimp only [mapNew]
    rw [h10]
  have s11 : search_linear natCmp 2 (([(3, 0), (4, 0), (5, 0), (6, 0), (7, 0), (8, 0), (9, 0), (10, 0), (11, 0), (12, 0)] : List (Nat × Nat)).map Prod.fst) = (0, false) := by decide
  have h11 : insNode natCmp 2 0 (Node.leaf ([(3, 0), (4, 0), (5, 0), (6, 0), (7, 0), (8, 0), (9, 0), (10, 0), (11, 0), (12, 0)] : List (Nat × Nat))) = .fit (Node.leaf [(2, 0), (3, 0), (4, 0), (5, 0), (6, 0), (7, 0), (8, 0), (9, 0), (10, 0), (11, 0), (12, 0)]) := by
    rw [insNode_leaf_godown s11]
    rfl
  have m11 : (mapInsert natCmp 2 0 (⟨⟨Node.leaf [(3, 0), (4, 0), (5, 0), (6, 0), (7, 0), (8, 0), (9, 0), (10, 0), (11, 0), (12, 0)], 0⟩, 10⟩ : BTreeMap Nat Nat)).1 = (⟨⟨Node.leaf [(2, 0), (3, 0), (4, 0), (5, 0), (6, 0), (7, 0), (8, 0), (9, 0), (10, 0), (11, 0), (12, 0)], 0⟩, 11⟩ : BTreeMap Nat Nat) := by
    rw [mapInsert]
    dsimp only [mapNew]
    rw [h11]
  have s12 : search_linear natCmp 1 (([(2, 0), (3, 0), (4, 0), (5, 0), (6, 0), (7, 0), (8, 0), (9, 0), (10, 0), (11, 0), (12, 0)] : List (Nat × Nat)).map Prod.fst) = (0, false) := by decide
  have h12 : insNode natCmp 1 0 (Node.leaf ([(2, 0), (3, 0), (4, 0), (5, 0), (6, 0), (7, 0), (8, 0), (9, 0), (10, 0), (11, 0), (12, 0)] : List (Nat × Nat))) = .split (Node.leaf [(1, 0), (2, 0), (3, 0), (4, 0), (5, 0), (6, 0), (7, 0)]) 8 0 (Node.leaf [(9, 0), (10, 0), (11, 0), (12, 0)]) := by
    rw [insNode_leaf_godown s12]
    rfl
  have m12 : (mapInsert natCmp 1 0 (⟨⟨Node.leaf [(2, 0), (3, 0), (4, 0), (5, 0), (6, 0), (7, 0), (8, 0), (9, 0), (10, 0), (11, 0), (12, 0)], 0⟩, 11⟩ : BTreeMap Nat Nat)).1 = (⟨⟨Node.internal [(8, 0)] [Node.leaf [(1, 0), (2, 0), (3, 0), (4, 0), (5, 0), (6, 0), (7, 0)], Node.leaf [(9, 0), (10, 0), (11, 0), (12, 0)]], 1⟩, 12⟩ : BTreeMap Nat Nat) := by
    rw [mapInsert]
    dsimp only [mapNew]
    rw [h12]
  rw [insertList]
  simp only [List.foldl_cons, List.foldl_nil]
  rw [m1, m2, m3, m4, m5, m6, m7, m8, m9, m10, m11, m12]
  simp [occRootB, occSubB, T, capacity]

/-- C2 (amended): after any sequence of insertions under a lawful
comparison, the root holds at most 2T − 1 keys and every non-root node
holds between T − 2 and 2T − 1 keys. -/
theorem c2_occupancy {cmp : K → K → Ordering} (hc : LawfulCmp cmp)
    (ops : List (K × V)) :
    occRootB (T - 2) (insertList cmp ops).root.node = true :=
  (WFm_insertList cmp hc ops).1.2.2.2.1

/-- C2 witness: the amended occupancy bound on a two-insert sequence. -/
theorem c2_witness :
    occRootB (T - 2) (insertList natCmp [(1, 2), (2, 3)]).root.node = true :=
  c2_occupancy lawful_natCmp [(1, 2), (2, 3)]

/-- C3: inserting into a full node (2T − 1 keys) splits at pivot `T`: the
pair at index `T` is promoted, the left half keeps indices `[0, T)`, the
right sibling receives indices `(T, 2T − 1]`, and the new pair goes left at
its index when `idx ≤ T`, otherwise right at offset `idx − T − 1`; an
internal split partitions the children at edge `T + 1` by the same rule
(new edge left at `idx + 1`, or right at `idx − T`), and every child handed
to the right sibling is reached from it by its edge index (the re-pointed
back-pointer: descending the sibling's edge and ascending returns that
sibling and that index). -/
theorem c3_split_placement {kv : List (K × V)} {idx : Nat} (k : K) (v : V)
    (ne : Node K V) (edges : List (Node K V))
    (hful : kv.length = 2 * T - 1) (hidx : idx ≤ kv.length) :
    ∃ pk pv, kv[T]? = some (pk, pv) ∧
      leaf_insert kv idx k v =
        (if idx ≤ T then
          LeafIns.Split ((kv.take T).insertIdx idx (k, v)) pk pv
            (kv.drop (T + 1))
        else
          LeafIns.Split (kv.take T) pk pv
            ((kv.drop (T + 1)).insertIdx (idx - T - 1) (k, v))) ∧
      internal_insert kv edges idx k v ne =
        (if idx ≤ T then
          IntIns.Split ((kv.take T).insertIdx idx (k, v))
            ((edges.take (T + 1)).insertIdx (idx + 1) ne) pk pv
            (kv.drop (T + 1)) (edges.drop (T + 1))
        else
          IntIns.Split (kv.take T) (edges.take (T + 1)) pk pv
            ((kv.drop (T + 1)).insertIdx (idx - T - 1) (k, v))
            ((edges.drop (T + 1)).insertIdx (idx - T) ne)) ∧
      (∀ (j : Nat) (c : Z K V),
        Z.descend ⟨[], Node.internal (kv.drop (T + 1)) (edges.drop (T + 1))⟩ j =
          some c →
        Z.ascend c =
          .ok (⟨[], Node.internal (kv.drop (T + 1)) (edges.drop (T + 1))⟩, j)) := by
  have hT : T < kv.length := by rw [hful]; simp [T]
  rcases hp : kv[T]? with _ | ⟨pk, pv⟩
  · rw [List.getElem?_eq_none_iff] at hp
    omega
  have hcap : ¬ kv.length < capacity := by
    simp only [capacity]
    omega
  refine ⟨pk, pv, rfl, ?_, ?_, ?_⟩
  · simp only [leaf_insert, leaf_split, if_neg hcap, hp]
  · simp only [internal_insert, internal_split, if_neg hcap, hp]
  · intro j c h
    simp only [Z.descend] at h
    cases hedge : (Node.internal (kv.drop (T + 1))
        (edges.drop (T + 1)) : Node K V).edgesOf[j]? with
    | none => rw [hedge] at h; cases h
    | some c2 =>
      rw [hedge] at h
      injection h with h2
      subst h2
      rfl

/-- C3 witness: splitting a full 11-key leaf/internal node at index 3. -/
theorem c3_witness :
    ∃ pk pv, ([(1, 1), (2, 2), (3, 3), (4, 4), (5, 5), (6, 6), (7, 7),
        (8, 8), (9, 9), (10, 10), (11, 11)] : List (Nat × Nat))[T]? =
        some (pk, pv) ∧
      leaf_insert [(1, 1), (2, 2), (3, 3), (4, 4), (5, 5), (6, 6), (7, 7),
          (8, 8), (9, 9), (10, 10), (11, 11)] 3 (100 : Nat) (0 : Nat) =
        (if 3 ≤ T then
          LeafIns.Split (([(1, 1), (2, 2), (3, 3), (4, 4), (5, 5), (6, 6),
            (7, 7), (8, 8), (9, 9), (10, 10), (11, 11)].take T).insertIdx 3
            (100, 0)) pk pv
            ([(1, 1), (2, 2), (3, 3), (4, 4), (5, 5), (6, 6), (7, 7), (8, 8),
              (9, 9), (10, 10), (11, 11)].drop (T + 1))
        else
          LeafIns.Split ([(1, 1), (2, 2), (3, 3), (4, 4), (5, 5), (6, 6),
            (7, 7), (8, 8), (9, 9), (10, 10), (11, 11)].take T) pk pv
            (([(1, 1), (2, 2), (3, 3), (4, 4), (5, 5), (6, 6), (7, 7), (8, 8),
              (9, 9), (10, 10), (11, 11)].drop (T + 1)).insertIdx
              (3 - T - 1) (100, 0))) ∧
      internal_insert [(1, 1), (2, 2), (3, 3), (4, 4), (5, 5), (6, 6), (7, 7),
          (8, 8), (9, 9), (10, 10), (11, 11)]
          (List.replicate 12 (Node.leaf [])) 3 (100 : Nat) (0 : Nat)
          (Node.leaf [(50, 50)]) =
        (if 3 ≤ T then
          IntIns.Split (([(1, 1), (2, 2), (3, 3), (4, 4), (5, 5), (6, 6),
            (7, 7), (8, 8), (9, 9), (10, 10), (11, 11)].take T).insertIdx 3
            (100, 0))
            (((List.replicate 12 (Node.leaf [])).take (T + 1)).insertIdx 4
              (Node.leaf [(50, 50)])) pk pv
            ([(1, 1), (2, 2), (3, 3), (4, 4), (5, 5), (6, 6), (7, 7), (8, 8),
              (9, 9), (10, 10), (11, 11)].drop (T + 1))
            ((List.replicate 12 (Node.leaf [])).drop (T + 1))
        else
          IntIns.Split ([(1, 1), (2, 2), (3, 3), (4, 4), (5, 5), (6, 6),
            (7, 7), (8, 8), (9, 9), (10, 10), (11, 11)].take T)
            ((List.replicate 12 (Node.leaf [])).take (T + 1)) pk pv
            (([(1, 1), (2, 2), (3, 3), (4, 4), (5, 5), (6, 6), (7, 7), (8, 8),
              (9, 9), (10, 10), (11, 11)].drop (T + 1)).insertIdx
              (3 - T - 1) (100, 0))
            (((List.replicate 12 (Node.leaf [])).drop (T + 1)).insertIdx
              (3 - T) (Node.leaf [(50, 50)]))) ∧
      (∀ (j : Nat) (c : Z Nat Nat),
        Z.descend ⟨[], Node.internal
          ([(1, 1), (2, 2), (3, 3), (4, 4), (5, 5), (6, 6), (7, 7), (8, 8),
            (9, 9), (10, 10), (11, 11)].drop (T + 1))
          ((List.replicate 12 (Node.leaf [])).drop (T + 1))⟩ j = some c →
        Z.ascend c = .ok (⟨[], Node.internal
          ([(1, 1), (2, 2), (3, 3), (4, 4), (5, 5), (6, 6), (7, 7), (8, 8),
            (9, 9), (10, 10), (11, 11)].drop (T + 1))
          ((List.replicate 12 (Node.leaf [])).drop (T + 1))⟩, j)) := by
  have h4 : (3 : Nat) + 1 = 4 := rfl
  exact h4 ▸ c3_split_placement 100 0 (Node.leaf [(50, 50)])
    (List.replicate 12 (Node.leaf [])) (by decide) (by decide)

/-- C4: after any sequence of insertions under a lawful comparison, running
the iterator from `iter()`'s starting cursor yields exactly the stored
pairs (the in-order flattening — no duplicates, no omissions), their keys
strictly ascend, and a fresh run from a fresh starting cursor yields the
same traversal again. -/
theorem c4_iter_sorted {cmp : K → K → Ordering} (hc : LawfulCmp cmp)
    (ops : List (K × V)) (fuel fuel2 : Nat)
    (h1 : ops.length ≤ fuel) (h2 : ops.length ≤ fuel2) :
    iterAll fuel (iterStart (insertList cmp ops)) =
      inorder (insertList cmp ops).root.node ∧
    chainB cmp none none (iterAll fuel (iterStart (insertList cmp ops))) =
      true ∧
    iterAll fuel2 (iterStart (insertList cmp ops)) =
      iterAll fuel (iterStart (insertList cmp ops)) := by
  obtain ⟨hwf, -⟩ := WFm_insertList cmp hc ops
  have hlb : (inorder (insertList cmp ops).root.node).length ≤ ops.length := by
    rw [← hwf.2.2.2.2]
    exact insertList_length_le cmp ops
  have ha := iterAll_inorder (shaped_lens _ _ hwf.2.1) fuel (le_trans hlb h1)
  have hb := iterAll_inorder (shaped_lens _ _ hwf.2.1) fuel2 (le_trans hlb h2)
  exact ⟨ha, by rw [ha]; exact ordB_chainB hc hwf.1, by rw [ha, hb]⟩

/-- C4 witness: two iterator runs over the map built by two insertions. -/
theorem c4_witness :
    iterAll 7 (iterStart (insertList natCmp [(2, 5), (1, 6)])) =
      inorder (insertList natCmp [(2, 5), (1, 6)]).root.node ∧
    chainB natCmp none none
      (iterAll 7 (iterStart (insertList natCmp [(2, 5), (1, 6)]))) = true ∧
    iterAll 9 (iterStart (insertList natCmp [(2, 5), (1, 6)])) =
      iterAll 7 (iterStart (insertList natCmp [(2, 5), (1, 6)])) :=
  c4_iter_sorted lawful_natCmp [(2, 5), (1, 6)] 7 9 (by decide) (by decide)

/-- C5: `search_node` is the left-to-right linear scan stopping at the
first key that is not greater than the query: every key strictly before
the reported index compares greater under `cmp q ·`; `Found idx` means the
key at `idx` compares equal, and `GoDown idx` means either the scan
exhausted all keys (`idx = len`) or the key at `idx` is strictly greater
than the query. -/
theorem c5_search_node_linear (cmp : K → K → Ordering) (q : K)
    (n : Node K V) :
    (∀ idx, search_node cmp n q = .Found idx →
      (∀ j, j < idx → ∀ kj, (Node.keysOf n)[j]? = some kj →
        cmp q kj = .gt) ∧
      ∃ ki, (Node.keysOf n)[idx]? = some ki ∧ cmp q ki = .eq) ∧
    (∀ idx, search_node cmp n q = .GoDown idx →
      (∀ j, j < idx → ∀ kj, (Node.keysOf n)[j]? = some kj →
        cmp q kj = .gt) ∧
      (idx = (Node.keysOf n).length ∨
        ∃ ki, (Node.keysOf n)[idx]? = some ki ∧ cmp q ki = .lt)) := by
  constructor
  · intro idx h
    have hs := search_node_found.1 h
    refine ⟨?_, sl_found cmp q n.keysOf idx hs⟩
    intro j hj kj hkj
    exact sl_gt_before cmp q n.keysOf j (by rw [hs]; exact hj) kj hkj
  · intro idx h
    have hs := search_node_godown.1 h
    refine ⟨?_, sl_absent cmp q n.keysOf idx hs⟩
    intro j hj kj hkj
    exact sl_gt_before cmp q n.keysOf j (by rw [hs]; exact hj) kj hkj

/-- C5 witness: the scan characterization at a three-key leaf. -/
theorem c5_witness :
    (∀ idx, search_node natCmp (Node.leaf [(1, 10), (2, 20), (3, 30)]) 2 =
        .Found idx →
      (∀ j, j < idx →
        ∀ kj, (Node.keysOf (Node.leaf [(1, 10), (2, 20), (3, 30)]))[j]? =
          some kj → natCmp 2 kj = .gt) ∧
      ∃ ki, (Node.keysOf (Node.leaf [(1, 10), (2, 20), (3, 30)]))[idx]? =
        some ki ∧ natCmp 2 ki = .eq) ∧
    (∀ idx, search_node natCmp (Node.leaf [(1, 10), (2, 20), (3, 30)]) 2 =
        .GoDown idx →
      (∀ j, j < idx →
        ∀ kj, (Node.keysOf (Node.leaf [(1, 10), (2, 20), (3, 30)]))[j]? =
          some kj → natCmp 2 kj = .gt) ∧
      (idx = (Node.keysOf (Node.leaf [(1, 10), (2, 20), (3, 30)])).length ∨
        ∃ ki, (Node.keysOf (Node.leaf [(1, 10), (2, 20), (3, 30)]))[idx]? =
          some ki ∧ natCmp 2 ki = .lt)) :=
  c5_search_node_linear natCmp 2 (Node.leaf [(1, 10), (2, 20), (3, 30)])

/-- C6: an exact match reported by `search_node` at any node — internal
nodes included — is terminal: `search_tree` returns `Found` at that very
node and index without descending, and `get` on a map with that node as
root returns the value stored in that slot. -/
theorem c6_found_terminal {cmp : K → K → Ordering} {q : K} {n : Node K V}
    {idx : Nat} (h : search_node cmp n q = .Found idx)
    (height len : Nat) :
    search_tree cmp q n = .Found n idx ∧
    mapGet cmp q ⟨⟨n, height⟩, len⟩ = (n.kvOf[idx]?).map Prod.snd := by
  refine ⟨search_tree_found h, ?_⟩
  simp only [mapGet, search_tree_found h]

/-- C6 witness: the query key 2 matches in the internal root itself. -/
theorem c6_witness :
    search_tree natCmp 2 (Node.internal [(2, 20)]
      [Node.leaf [(1, 10)], Node.leaf [(3, 30)]]) =
      .Found (Node.internal [(2, 20)]
        [Node.leaf [(1, 10)], Node.leaf [(3, 30)]]) 0 ∧
    mapGet natCmp 2 ⟨⟨Node.internal [(2, 20)]
      [Node.leaf [(1, 10)], Node.leaf [(3, 30)]], 1⟩, 3⟩ =
      ((Node.internal [(2, 20)]
        [Node.leaf [(1, 10)], Node.leaf [(3, 30)]]).kvOf[0]?).map Prod.snd :=
  c6_found_terminal (show search_node natCmp (Node.internal [(2, 20)]
    [Node.leaf [(1, 10)], Node.leaf [(3, 30)]]) 2 = .Found 0 from rfl) 1 3

/-- C7: after any sequence of insertions under a lawful comparison, every
leaf sits at the recorded root height (uniform depth); a further insertion
that splits the old root leaves both halves at that same height and
records height + 1 for the enlarged root, while a non-splitting insertion
keeps the recorded height. -/
theorem c7_balanced {cmp : K → K → Ordering} (hc : LawfulCmp cmp)
    (ops : List (K × V)) (k : K) (v : V) :
    shapedB (insertList cmp ops).root.node
      (insertList cmp ops).root.height = true ∧
    (∀ l pk pv r, insNode cmp k v (insertList cmp ops).root.node =
        .split l pk pv r →
      shapedB l (insertList cmp ops).root.height = true ∧
      shapedB r (insertList cmp ops).root.height = true ∧
      (mapInsert cmp k v (insertList cmp ops)).1.root.height =
        (insertList cmp ops).root.height + 1) ∧
    (∀ t, insNode cmp k v (insertList cmp ops).root.node = .fit t →
      shapedB t (insertList cmp ops).root.height = true ∧
      (mapInsert cmp k v (insertList cmp ops)).1.root.height =
        (insertList cmp ops).root.height) ∧
    (∀ t old, insNode cmp k v (insertList cmp ops).root.node =
        .replaced t old →
      (mapInsert cmp k v (insertList cmp ops)).1.root.height =
        (insertList cmp ops).root.height) := by
  obtain ⟨hwf, -⟩ := WFm_insertList cmp hc ops
  have hsc := ins_shaped_cap cmp k v (insertList cmp ops).root.node
    (insertList cmp ops).root.height hwf.2.1 hwf.2.2.1
  refine ⟨hwf.2.1, ?_, ?_, ?_⟩
  · intro l pk pv r hres
    rw [hres] at hsc
    simp only [ResOk] at hsc
    exact ⟨hsc.1.1, hsc.2.1, by simp [mapInsert, hres]⟩
  · intro t hres
    rw [hres] at hsc
    simp only [ResOk] at hsc
    exact ⟨hsc.1, by simp [mapInsert, hres]⟩
  · intro t old hres
    simp [mapInsert, hres]

/-- C7 witness: the balance and height bookkeeping after one insertion,
for a further insertion of key 3. -/
theorem c7_witness :
    shapedB (insertList natCmp [(1, 2)]).root.node
      (insertList natCmp [(1, 2)]).root.height = true ∧
    (∀ l pk pv r, insNode natCmp 3 4 (insertList natCmp [(1, 2)]).root.node =
        .split l pk pv r →
      shapedB l (insertList natCmp [(1, 2)]).root.height = true ∧
      shapedB r (insertList natCmp [(1, 2)]).root.height = true ∧
      (mapInsert natCmp 3 4 (insertList natCmp [(1, 2)])).1.root.height =
        (insertList natCmp [(1, 2)]).root.height + 1) ∧
    (∀ t, insNode natCmp 3 4 (insertList natCmp [(1, 2)]).root.node = .fit t →
      shapedB t (insertList natCmp [(1, 2)]).root.height = true ∧
      (mapInsert natCmp 3 4 (insertList natCmp [(1, 2)])).1.root.height =
        (insertList natCmp [(1, 2)]).root.height) ∧
    (∀ t old, insNode natCmp 3 4 (insertList natCmp [(1, 2)]).root.node =
        .replaced t old →
      (mapInsert natCmp 3 4 (insertList natCmp [(1, 2)])).1.root.height =
        (insertList natCmp [(1, 2)]).root.height) :=
  c7_balanced lawful_natCmp [(1, 2)] 3 4

/-- C8: on a well-formed map, `entry(k).or_insert(v)` produces exactly the
map and value of the reference behaviour — present key: the map unchanged
and the existing value; absent key: `v` inserted and returned — and the
value it returns is the one `get(k)` reads from the resulting map (the
returned reference points at the stored slot). -/
theorem c8_or_insert_refines {cmp : K → K → Ordering} (hc : LawfulCmp cmp)
    (k : K) (v : V) (m : BTreeMap K V) (hwf : WFm cmp m) :
    orInsert cmp k v m = refOrInsert cmp k v m ∧
    (orInsert cmp k v m).2 = mapGet cmp k (orInsert cmp k v m).1 := by
  cases hst : search_tree cmp k m.root.node with
  | Found n idx =>
    have hsn := search_tree_found_inv none none hwf.1 hst
    obtain ⟨p, hp, hpe⟩ := found_key (search_node_found.1 hsn)
    have hmg : mapGet cmp k m = some p.2 := by
      simp [mapGet, hst, hp]
    constructor
    · simp [orInsert, refOrInsert, hst, hmg, hp]
    · simp [orInsert, hst, hp, hmg]
  | GoDown n idx =>
    have hmg : mapGet cmp k m = none := by simp [mapGet, hst]
    obtain ⟨hW, hF, -⟩ := mapInsert_WF hc k v m hwf
    constructor
    · simp [orInsert, refOrInsert, hst, hmg]
    · simp only [orInsert, hst]
      rw [mapGet_lookup hc k _ hW, hF, listLookup_listInsert hc]

/-- C8 witness: `or_insert` at the already-present key 1. -/
theorem c8_witness :
    orInsert natCmp 1 5 (⟨⟨Node.leaf [(1, 9)], 0⟩, 1⟩ : BTreeMap Nat Nat) =
      refOrInsert natCmp 1 5
        (⟨⟨Node.leaf [(1, 9)], 0⟩, 1⟩ : BTreeMap Nat Nat) ∧
    (orInsert natCmp 1 5
        (⟨⟨Node.leaf [(1, 9)], 0⟩, 1⟩ : BTreeMap Nat Nat)).2 =
      mapGet natCmp 1 (orInsert natCmp 1 5
        (⟨⟨Node.leaf [(1, 9)], 0⟩, 1⟩ : BTreeMap Nat Nat)).1 :=
  c8_or_insert_refines lawful_natCmp 1 5 _
    (by simp [WFm, ordB, chainB, inB, natCmp, shapedB, capB, occRootB,
      occSubB, inorder, T, capacity])

/-- C9: `ascend` fails — returning the original view unchanged — exactly
when the view has no parent frame (it is the root); otherwise it returns
the parent view and the stored edge index; and a view just produced by
`descend` ascends back to the node and edge it descended from. -/
theorem c9_ascend_parent {K V : Type} (z : Z K V) :
    (Z.ascend z = .error z ↔ z.path = []) ∧
    (∀ p i rest, z.path = (p, i) :: rest →
      Z.ascend z = .ok (⟨rest, p⟩, i)) ∧
    (∀ j c, Z.descend z j = some c → Z.ascend c = .ok (z, j)) := by
  obtain ⟨path, n⟩ := z
  refine ⟨?_, ?_, ?_⟩
  · cases path with
    | nil => simp [Z.ascend]
    | cons f rest =>
      obtain ⟨p, i⟩ := f
      simp [Z.ascend]
  · intro p i rest hp
    simp only at hp
    subst hp
    rfl
  · intro j c h
    simp only [Z.descend] at h
    cases hedge : (Node.edgesOf n)[j]? with
    | none => rw [hedge] at h; cases h
    | some c2 =>
      rw [hedge] at h
      injection h with h2
      subst h2
      rfl

/-- C9 witness: a root view fails to ascend; a child view produced by
`descend` ascends back to it. -/
theorem c9_witness :
    (Z.ascend ⟨[], Node.internal [(2, 20)] [Node.leaf [(1, 10)],
        Node.leaf [(3, 30)]]⟩ = .error ⟨[], Node.internal [(2, 20)]
        [Node.leaf [(1, 10)], Node.leaf [(3, 30)]]⟩ ↔
      (⟨[], Node.internal [(2, 20)] [Node.leaf [(1, 10)],
        Node.leaf [(3, 30)]]⟩ : Z Nat Nat).path = []) ∧
    (∀ p i rest, (⟨[], Node.internal [(2, 20)] [Node.leaf [(1, 10)],
        Node.leaf [(3, 30)]]⟩ : Z Nat Nat).path = (p, i) :: rest →
      Z.ascend ⟨[], Node.internal [(2, 20)] [Node.leaf [(1, 10)],
        Node.leaf [(3, 30)]]⟩ = .ok (⟨rest, p⟩, i)) ∧
    (∀ j c, Z.descend ⟨[], Node.internal [(2, 20)] [Node.leaf [(1, 10)],
        Node.leaf [(3, 30)]]⟩ j = some c →
      Z.ascend c = .ok (⟨[], Node.internal [(2, 20)] [Node.leaf [(1, 10)],
        Node.leaf [(3, 30)]]⟩, j)) :=
  c9_ascend_parent ⟨[], Node.internal [(2, 20)] [Node.leaf [(1, 10)],
    Node.leaf [(3, 30)]]⟩

/-- C10: when `insert(k, v)` hits a key that compares equal to a stored
key, only the value slot changes: the stored pair `(k0, w)` — with `k0`
the originally stored key, possibly a different object than `k` — becomes
`(k0, v)` in place, the rest of the map is untouched, and the old value
`w` is returned. -/
theorem c10_key_preserved {cmp : K → K → Ordering} (hc : LawfulCmp cmp)
    (k : K) (v : V) (m : BTreeMap K V) (hwf : WFm cmp m) (w : V)
    (hfound : mapGet cmp k m = some w) :
    ∃ l1 l2 k0, inorder m.root.node = l1 ++ (k0, w) :: l2 ∧
      cmp k k0 = .eq ∧
      inorder (mapInsert cmp k v m).1.root.node = l1 ++ (k0, v) :: l2 ∧
      (mapInsert cmp k v m).2 = some w := by
  rw [mapGet_lookup hc k m hwf] at hfound
  obtain ⟨l1, l2, k0, heq, hke, hins⟩ := listInsert_found_pair hc k v
    (inorder m.root.node) none none (ordB_chainB hc hwf.1) hfound
  obtain ⟨hW, hF, hO⟩ := mapInsert_WF hc k v m hwf
  exact ⟨l1, l2, k0, heq, hke, by rw [hF, hins], by rw [hO]; exact hfound⟩

/-- C10 witness: under `fstCmp` the argument key `(1, 20)` compares equal
to the stored key `(1, 10)`; the stored key object survives the value
replacement. -/
theorem c10_witness :
    ∃ l1 l2 k0,
      inorder (⟨⟨Node.leaf [((1, 10), 5)], 0⟩, 1⟩ :
        BTreeMap (Nat × Nat) Nat).root.node = l1 ++ (k0, 5) :: l2 ∧
      fstCmp (1, 20) k0 = .eq ∧
      inorder (mapInsert fstCmp (1, 20) 7
        (⟨⟨Node.leaf [((1, 10), 5)], 0⟩, 1⟩ :
          BTreeMap (Nat × Nat) Nat)).1.root.node = l1 ++ (k0, 7) :: l2 ∧
      (mapInsert fstCmp (1, 20) 7
        (⟨⟨Node.leaf [((1, 10), 5)], 0⟩, 1⟩ :
          BTreeMap (Nat × Nat) Nat)).2 = some 5 :=
  c10_key_preserved lawful_fstCmp (1, 20) 7 _
    (by simp [WFm, ordB, chainB, inB, fstCmp, natCmp, shapedB, capB,
      occRootB, occSubB, inorder, T, capacity])
    5
    (by simp [mapGet, search_tree_found (show search_node fstCmp
      (Node.leaf [((1, 10), 5)]) ((1, 20) : Nat × Nat) = .Found 0 from rfl),
      Node.kvOf])

end BTreeSpec